import Mathlib

/-!
# Quad-rendering raycaster: occlusion list, column projection, face visibility

A shallow embedding of the core routines of `main.cpp`
(class `AlternativeRayCaster`), and of the two earlier variants of `InsertOccList`
in `part_000` (steps 3c and 4b), together with the properties proved about them.

Modelling conventions

* C++ `int` is modelled by `Int`.  Every `x + 1` and `x - 1` that `InsertOccList`
  computes on a list value goes through `wrapInt`, the 32-bit two's complement
  wrap, because the list holds the sentinels `INT_MIN` and `INT_MAX`.  The index
  arithmetic of `FaceVisible` is on map coordinates and is left unwrapped.
* `std::list<OcclusionRec>` is a `List OcclusionRec`; an iterator is the index of
  the element it points at, and `lst.end()` is the index `lst.length`.  Reading
  through the `end()` iterator yields the record `endRec`, an extra argument of
  the model over which every theorem quantifies.
* C++ `float` is modelled in two ways.  The definitions without a suffix
  (`Deg2Rad`, `Mod360_deg`, `Mod2Pi_rad`, `AngleInSector`, `GetColumnProjection`,
  `FaceVisible`, ...) compute with exact rational numbers (`ℚ`) and the decimal
  literal `PI` of the `#define`.  The definitions with the suffix `_f32`, the
  rotation handling (`sync_angle_vars`, `speedUp`, `rotateStep`), the direction
  flags `FaceVisible_bRt`, `FaceVisible_bUp`, `FaceVisible_bDn`, `FaceVisible_bLt`
  and the wire frame of `RenderWallQuad_mono` model IEEE binary32: a `float` is a
  rational number that `toFloat` leaves unchanged, `toFloat` rounds to the nearest
  value with 24 significant bits (ties to even, subnormal values below `2^(-126)`,
  no overflow), every arithmetic operation is the exact operation followed by
  `toFloat` (`f32add`, `f32sub`, `f32mul`, `f32div`), each operation of an
  expression being rounded on its own, and `PI_f32` is the `float` value of the
  literal `3.1415926535f`.  Comparisons are exact.  An `int` converted to `float`
  goes through `intToFloat`, the rounding to 24 significant bits.
* The engine routine `DrawLine` is not part of the program; a call is modelled by the
  screen columns between the x coordinates of its two end points (`lineColumns`), and
  the columns painted by `RenderWallQuad_mono` are the columns of its `DrawLine`
  calls.
* Member variables read by a routine (`fPlayerA_rad`, `fPlayerFoV_deg`, `sMap`,
  ... and `ScreenWidth()`) are explicit arguments, bundled in `Game` for the face
  collector.
* The library functions `atan2f`, `cosf` and `olc::vf2d::mag()` are parameters
  (`LibM`); `abs` is the absolute value of a `float`.  `std::sort` is a merge sort
  with the comparator of the source.
-/

namespace AlternativeRayCaster

/-! ## Occlusion list -/

/-- The `OcclusionRec` struct: a closed range of screen columns. -/
structure OcclusionRec where
  left : Int
  rght : Int
deriving DecidableEq, Repr

/-- The `OccListType` typedef, `std::list<OcclusionRec>`. -/
abbrev OccListType := List OcclusionRec

/-- The limit `INT_MIN` of a 32-bit `int`. -/
def INT_MIN : Int := -2147483648

/-- The limit `INT_MAX` of a 32-bit `int`. -/
def INT_MAX : Int := 2147483647

/-- Result of an `int` addition or subtraction as a 32-bit machine delivers it. -/
def wrapInt (x : Int) : Int := (x + 2147483648) % 4294967296 - 2147483648

/-- The `int` overload of `InBetween`: `n_low <= n && n <= n_hgh`. -/
def InBetween (n n_low n_hgh : Int) : Bool := decide (n_low ≤ n) && decide (n ≤ n_hgh)

/-- The routine `InitOccList`; `W` is the value of `ScreenWidth()`. -/
def InitOccList (W : Int) : OccListType :=
  [⟨INT_MIN, -1⟩, ⟨W, INT_MAX⟩]

/-- The routine `SizeOccList`. -/
def SizeOccList (lst : OccListType) : Int := lst.length

/-- Dereference of an iterator: the element at index `i`, and `endRec` when the
iterator is `end()` (or beyond). -/
def deref (endRec : OcclusionRec) (lst : OccListType) (i : Nat) : OcclusionRec :=
  lst.getD i endRec

/-- The value assigned to `bFound` in the body of the scan loop of `InsertOccList`. -/
def scanTest (endRec : OcclusionRec) (lst : OccListType) (rec : OcclusionRec)
    (iterLeft iterRght : Nat) : Bool :=
  decide (iterRght ≠ lst.length) && (
    InBetween rec.left (deref endRec lst iterLeft).left (deref endRec lst iterLeft).rght ||
    InBetween rec.rght (deref endRec lst iterRght).left (deref endRec lst iterRght).rght ||
    (decide (rec.left > (deref endRec lst iterLeft).rght) &&
     decide (rec.rght < (deref endRec lst iterRght).left)))

/-- The `do ... while (!bFound && iterRght != lst.end())` scan of `InsertOccList`,
started at the iterator pair `(iterLeft, iterRght)`; returns `bFound` and the two
iterators at loop exit.  The first argument bounds the number of passes; the list
length is always enough (`scanLoop_spec`). -/
def scanLoop (endRec : OcclusionRec) (lst : OccListType) (rec : OcclusionRec) :
    Nat → Nat → Nat → Bool × Nat × Nat
  | 0, iterLeft, iterRght => (false, iterLeft, iterRght)
  | fuel + 1, iterLeft, iterRght =>
    if scanTest endRec lst rec iterLeft iterRght then (true, iterLeft, iterRght)
    else if iterRght + 1 ≠ lst.length then scanLoop endRec lst rec fuel (iterLeft + 1) (iterRght + 1)
    else (false, iterLeft + 1, iterRght + 1)

/-- Step 4b/4c of `InsertOccList`:
`while ((*iterLeft).rght + 1 >= (*iterRght).left && iterRght != lst.end())`, each
pass widening the left element and erasing the right one (`erase` returns the
iterator to the following element, which has the same index).  The first argument
bounds the number of passes; every pass erases an element, so the list length is
always enough. -/
def mergeLoop (endRec : OcclusionRec) :
    Nat → OccListType → Nat → Nat → OccListType
  | 0, lst, _, _ => lst
  | fuel + 1, lst, iterLeft, iterRght =>
    if decide (wrapInt ((deref endRec lst iterLeft).rght + 1) ≥ (deref endRec lst iterRght).left)
        && decide (iterRght ≠ lst.length) then
      mergeLoop endRec fuel
        ((lst.set iterLeft
            ⟨min (deref endRec lst iterLeft).left (deref endRec lst iterRght).left,
             max (deref endRec lst iterLeft).rght (deref endRec lst iterRght).rght⟩).eraseIdx iterRght)
        iterLeft iterRght
    else lst

/-- What a call of `InsertOccList` leaves behind: the returned `bool`, the list and
the two reference arguments `nClipLeft`, `nClipRght`. -/
structure InsertResult where
  ret : Bool
  lst : OccListType
  nClipLeft : Int
  nClipRght : Int
deriving DecidableEq, Repr

/-- Steps 3 and 4 of `InsertOccList`, entered with `bFound` true and the iterator
pair `(iterLeft, iterRght)` delivered by the scan. -/
def insertAt (endRec : OcclusionRec) (lst : OccListType) (rec : OcclusionRec)
    (iterLeft iterRght : Nat) : InsertResult :=
  -- 3. check if the left element can be extended
  let ext : Bool := decide (wrapInt ((deref endRec lst iterLeft).rght + 1) ≥ rec.left)
  let nClipLeft : Int :=
    if ext then wrapInt ((deref endRec lst iterLeft).rght + 1) else rec.left
  let lst1 : OccListType :=
    if ext then
      lst.set iterLeft ⟨(deref endRec lst iterLeft).left, max (deref endRec lst iterLeft).rght rec.rght⟩
    else lst.insertIdx iterRght rec
  let iterLeft1 : Nat := if ext then iterLeft else iterRght
  let iterRght1 : Nat := if ext then iterRght else iterRght + 1
  -- 4a. set right clipping value
  let nClipRght : Int :=
    if wrapInt ((deref endRec lst1 iterLeft1).rght + 1) ≥ (deref endRec lst1 iterRght1).left then
      wrapInt ((deref endRec lst1 iterRght1).left - 1)
    else rec.rght
  -- 4b. merge with elements to the right
  let lst2 := mergeLoop endRec lst1.length lst1 iterLeft1 iterRght1
  ⟨decide (nClipLeft ≤ nClipRght), lst2, nClipLeft, nClipRght⟩

/-- The routine `InsertOccList`.  `nClipLeft` and `nClipRght` are the values the two
reference arguments hold on entry. -/
def InsertOccList (endRec : OcclusionRec) (lst : OccListType) (rec : OcclusionRec)
    (nClipLeft nClipRght : Int) : InsertResult :=
  if lst.length < 2 then ⟨false, lst, nClipLeft, nClipRght⟩
  else if (lst.headD endRec).left ≠ INT_MIN ∨ (lst.getLastD endRec).rght ≠ INT_MAX then
    ⟨false, lst, nClipLeft, nClipRght⟩
  else
    let scan := scanLoop endRec lst rec lst.length 0 1
    if !scan.1 then
      -- 2a. location not found
      ⟨decide ((-1 : Int) ≤ -2), lst, -1, -2⟩
    else
      -- 2b. location found
      insertAt endRec lst rec scan.2.1 scan.2.2

/-- A run of `InsertOccList` calls on one list, one call per record of `recs`: the
final list and the clip ranges `(nClipLeft, nClipRght)` of the calls that returned
`true`, in call order. -/
def insertAll (endRec : OcclusionRec) : OccListType → List OcclusionRec →
    OccListType × List (Int × Int)
  | lst, [] => (lst, [])
  | lst, rec :: recs =>
    let r := InsertOccList endRec lst rec 0 0
    let rest := insertAll endRec r.lst recs
    (rest.1, if r.ret then (r.nClipLeft, r.nClipRght) :: rest.2 else rest.2)

/-! ### Predicates on occlusion lists -/

/-- Column `x` lies in the closed range of `r`. -/
def InRec (r : OcclusionRec) (x : Int) : Prop := r.left ≤ x ∧ x ≤ r.rght

/-- Column `x` is marked as occluded by the list. -/
def Covered (lst : OccListType) (x : Int) : Prop := ∃ r ∈ lst, InRec r x

/-- Two neighbours with at least one free column between them. -/
def Gap (p n : OcclusionRec) : Prop := p.rght + 1 < n.left

/-- Well-formed occlusion list: outer bounds `INT_MIN` and `INT_MAX`, every interval
has `left <= rght`, and neighbours are separated by at least one free column. -/
def WellFormed (lst : OccListType) : Prop :=
  lst.head?.map OcclusionRec.left = some INT_MIN ∧
  lst.getLast?.map OcclusionRec.rght = some INT_MAX ∧
  (∀ r ∈ lst, r.left ≤ r.rght) ∧
  lst.Chain' Gap

/-- The list is sorted left to right (by both bounds). -/
def SortedLR (lst : OccListType) : Prop :=
  lst.Pairwise (fun a b => a.left ≤ b.left ∧ a.rght ≤ b.rght)

/-- No screen column lies in two intervals of the list. -/
def PairwiseDisjoint (lst : OccListType) : Prop :=
  lst.Pairwise (fun a b => ∀ x : Int, ¬ (InRec a x ∧ InRec b x))

/-- There is no neighbouring pair with `next.left <= prev.rght + 1`. -/
def NonAdjacent (lst : OccListType) : Prop :=
  lst.Chain' (fun p n => ¬ (n.left ≤ p.rght + 1))

/-- The record fits strictly below the right sentinel: `left <= rght < INT_MAX`
(and is an `int`). -/
def ProperRec (rec : OcclusionRec) : Prop :=
  INT_MIN ≤ rec.left ∧ rec.left ≤ rec.rght ∧ rec.rght < INT_MAX

instance (r : OcclusionRec) (x : Int) : Decidable (InRec r x) := by
  unfold InRec; infer_instance

instance (lst : OccListType) (x : Int) : Decidable (Covered lst x) := by
  unfold Covered; infer_instance

instance : DecidableRel Gap := fun p n => by
  unfold Gap; infer_instance

instance (lst : OccListType) : Decidable (SortedLR lst) := by
  unfold SortedLR; infer_instance

instance (rec : OcclusionRec) : Decidable (ProperRec rec) := by
  unfold ProperRec; infer_instance

/-- No screen column lies in two of the clip ranges `(nClipLeft, nClipRght)`. -/
def ClipsDisjoint (clips : List (Int × Int)) : Prop :=
  clips.Pairwise (fun c d => ∀ x : Int, ¬ ((c.1 ≤ x ∧ x ≤ c.2) ∧ (d.1 ≤ x ∧ x ≤ d.2)))

/-- The test of the scan loop on the pair of neighbours `(L, R)`. -/
def foundAt (rec L R : OcclusionRec) : Bool :=
  InBetween rec.left L.left L.rght || InBetween rec.rght R.left R.rght ||
    (decide (rec.left > L.rght) && decide (rec.rght < R.left))

/-- Closed form of the merge loop on the part of the list that starts at the left
iterator: `L` absorbs the elements that follow while it touches or overlaps them. -/
def absorb (L : OcclusionRec) : List OcclusionRec → List OcclusionRec
  | [] => [L]
  | R :: suf =>
    if wrapInt (L.rght + 1) ≥ R.left then
      absorb ⟨min L.left R.left, max L.rght R.rght⟩ suf
    else L :: R :: suf

/-! ## Angles, column projection and face visibility -/

/-- The constant `PI` of the `#define` as the decimal number of the literal (`PI_f32`
is its `float` value). -/
def PI : ℚ := 3.1415926535

/-- The routine `Deg2Rad` in exact arithmetic (`Deg2Rad_f32` is the routine with the
rounding of `float`). -/
def Deg2Rad (fDegAngle : ℚ) : ℚ := fDegAngle / 180 * PI

/-- The `float` overload of `InBetween`: `f_low <= f && f <= f_hgh`. -/
def InBetweenF (f f_low f_hgh : ℚ) : Bool := decide (f_low ≤ f) && decide (f ≤ f_hgh)

/-- The routine `Mod360_deg` in exact arithmetic: one conditional `+= 360` followed by
one conditional `-= 360` (the range warning only prints).  `Mod360_deg_f32` is the
routine with the rounding of `float`. -/
def Mod360_deg (fDegAngle : ℚ) : ℚ :=
  let a1 := if fDegAngle < 0 then fDegAngle + 360 else fDegAngle
  if a1 ≥ 360 then a1 - 360 else a1

/-- The routine `Mod2Pi_rad` in exact arithmetic: one conditional `+= 2 PI` followed by
one conditional `-= 2 PI` (the range warning only prints).  `Mod2Pi_rad_f32` is the
routine with the rounding of `float`. -/
def Mod2Pi_rad (fRadAngle : ℚ) : ℚ :=
  let a1 := if fRadAngle < 0 then fRadAngle + 2 * PI else fRadAngle
  if a1 ≥ 2 * PI then a1 - 2 * PI else a1

/-- The routine `AngleInSector` with the exact value of `2 PI` (`AngleInSector_f32` has
the `float` product `2.0f * PI`). -/
def AngleInSector (fA fLeftA fRghtA : ℚ) : Bool :=
  if fLeftA > fRghtA then
    InBetweenF fA fLeftA (2 * PI) || InBetweenF fA 0 fRghtA
  else InBetweenF fA fLeftA fRghtA

/-- Conversion `int( f )` of a `float`: truncation towards zero. -/
def floatToInt (f : ℚ) : Int := if 0 ≤ f then ⌊f⌋ else ⌈f⌉

/-- In `GetColumnProjection`: the half field of view `fHalfFoV_rad`. -/
def halfFoV (fPlayerFoV_deg : ℚ) : ℚ := Deg2Rad (fPlayerFoV_deg / 2)

/-- In `GetColumnProjection`: the left boundary `fFOVRay0Angle_rad` of the FoV cone. -/
def fovRay0Angle (fPlayerA_rad fPlayerFoV_deg : ℚ) : ℚ :=
  Mod2Pi_rad (fPlayerA_rad - halfFoV fPlayerFoV_deg)

/-- In `GetColumnProjection`: the value of `fViewAngle_rad` after the first
`if`/`else`, before the sign of the angle is looked at. -/
def viewAngleRaw (fPlayerA_rad fPlayerFoV_deg fAngleFromPlayer_rad : ℚ) : ℚ :=
  if fovRay0Angle fPlayerA_rad fPlayerFoV_deg > fAngleFromPlayer_rad then
    fAngleFromPlayer_rad + 2 * PI - fovRay0Angle fPlayerA_rad fPlayerFoV_deg
  else
    fAngleFromPlayer_rad - fovRay0Angle fPlayerA_rad fPlayerFoV_deg

/-- In `GetColumnProjection`: the value of `fViewAngle_rad` after the sector test
`AngleInSector( fViewAngle_rad, PI + fHalfFoV_rad, 2 PI )`. -/
def viewAngle (fPlayerA_rad fPlayerFoV_deg fAngleFromPlayer_rad : ℚ) : ℚ :=
  if AngleInSector (viewAngleRaw fPlayerA_rad fPlayerFoV_deg fAngleFromPlayer_rad)
      (PI + halfFoV fPlayerFoV_deg) (2 * PI) then
    viewAngleRaw fPlayerA_rad fPlayerFoV_deg fAngleFromPlayer_rad - 2 * PI
  else viewAngleRaw fPlayerA_rad fPlayerFoV_deg fAngleFromPlayer_rad

/-- The routine `GetColumnProjection` of `main.cpp` in exact arithmetic; `W` is the
value of `ScreenWidth()`.  `GetColumnProjection_f32` is the routine with the rounding
of `float`. -/
def GetColumnProjection (fPlayerA_rad fPlayerFoV_deg : ℚ) (W : Int)
    (fAngleFromPlayer_rad : ℚ) : Int :=
  let fFoVPerc := viewAngle fPlayerA_rad fPlayerFoV_deg fAngleFromPlayer_rad /
    (2 * halfFoV fPlayerFoV_deg)
  floatToInt (fFoVPerc * (W : ℚ))

/-- The representative of `x` modulo `2 PI` in `[0, 2 PI)`. -/
def modTwoPi (x : ℚ) : ℚ := x - 2 * PI * ⌊x / (2 * PI)⌋

/-- The enum value `EAST`. -/
def EAST : Int := 0

/-- The enum value `SOUTH`. -/
def SOUTH : Int := 1

/-- The enum value `WEST`. -/
def WEST : Int := 2

/-- The enum value `NORTH`. -/
def NORTH : Int := 3

/-- The read `sMap[ idx ]` of the map string; an index outside the string yields the
NUL character. -/
def mapAt (sMap : List Char) (idx : Int) : Char :=
  if 0 ≤ idx then sMap.getD idx.toNat (Char.ofNat 0) else Char.ofNat 0

/-- The routine `FaceVisible` in exact arithmetic; the member variables it reads are the
first seven arguments.  `FaceVisible_f32` is the routine with the rounding of
`float`. -/
def FaceVisible (sMap : List Char) (nMapX nMapY : Int)
    (fPlayerX fPlayerY fPlayerA_deg fPlayerFoV_deg : ℚ) (nTileX nTileY nFace : Int) : Bool :=
  let fFOVleft_rad := Deg2Rad (Mod360_deg (fPlayerA_deg - fPlayerFoV_deg / 2))
  let fFOVrght_rad := Deg2Rad (Mod360_deg (fPlayerA_deg + fPlayerFoV_deg / 2))
  let bRt := AngleInSector fFOVleft_rad (1.5 * PI) (0.5 * PI) ||
    AngleInSector fFOVrght_rad (1.5 * PI) (0.5 * PI)
  let bUp := AngleInSector fFOVleft_rad (1.0 * PI) (2.0 * PI) ||
    AngleInSector fFOVrght_rad (1.0 * PI) (2.0 * PI)
  let bDn := AngleInSector fFOVleft_rad (0.0 * PI) (1.0 * PI) ||
    AngleInSector fFOVrght_rad (0.0 * PI) (1.0 * PI)
  let bLt := AngleInSector fFOVleft_rad (0.5 * PI) (1.5 * PI) ||
    AngleInSector fFOVrght_rad (0.5 * PI) (1.5 * PI)
  if nFace = EAST then
    decide (nTileX < nMapX - 1) && decide (mapAt sMap (nTileY * nMapX + (nTileX + 1)) ≠ '#')
      && bLt && decide (fPlayerX > ((nTileX + 1 : Int) : ℚ))
  else if nFace = WEST then
    decide (nTileX > 0) && decide (mapAt sMap (nTileY * nMapX + (nTileX - 1)) ≠ '#')
      && bRt && decide (fPlayerX < ((nTileX : Int) : ℚ))
  else if nFace = SOUTH then
    decide (nTileY < nMapY - 1) && decide (mapAt sMap ((nTileY + 1) * nMapX + nTileX) ≠ '#')
      && bUp && decide (fPlayerY > ((nTileY + 1 : Int) : ℚ))
  else if nFace = NORTH then
    decide (nTileY > 0) && decide (mapAt sMap ((nTileY - 1) * nMapX + nTileX) ≠ '#')
      && bDn && decide (fPlayerY < ((nTileY : Int) : ℚ))
  else false

/-- The constant `SPEED_ROTATE` of the `#define`: degrees per second. -/
def SPEED_ROTATE : ℚ := 60

/-- The facing angle of the player and the radian value derived from it
(`fPlayerSin` and `fPlayerCos`, which are derived from the radian value by library
calls, are left out). -/
structure AngleState where
  fPlayerA_deg : ℚ
  fPlayerA_rad : ℚ
deriving DecidableEq

/-! ## Tiles, faces and the paint pass -/

/-- The type `olc::vi2d`: a pair of `int` coordinates. -/
structure vi2d where
  x : Int
  y : Int
deriving DecidableEq

/-- The struct `ColInfo`: a column (vertical edge) of a face. -/
structure ColInfo where
  nScreenX : Int
  fAngleFromPlayer : ℚ
  fDistFromPlayer : ℚ
  fDistFromPlayer_raw : ℚ
deriving DecidableEq

/-- The struct `FaceInfo`. -/
structure FaceInfo where
  TileID : vi2d
  nSide : Int
  bVisible : Bool
  leftCol : ColInfo
  rghtCol : ColInfo
deriving DecidableEq

/-- The struct `TileInfo`. -/
structure TileInfo where
  TileID : vi2d
deriving DecidableEq

/-- The library functions the face collector calls: `atan2f( y, x )`, `cosf( x )` and
the vector length `olc::vf2d::mag()` as a function of the two components.  They are
not part of the program and stay parameters of the model. -/
structure LibM where
  atan2f : ℚ → ℚ → ℚ
  cosf : ℚ → ℚ
  mag : ℚ → ℚ → ℚ

/-- The member variables the pipeline reads, and `ScreenWidth()`. -/
structure Game where
  sMap : List Char
  nMapX : Int
  nMapY : Int
  fPlayerX : ℚ
  fPlayerY : ℚ
  fPlayerA_deg : ℚ
  fPlayerA_rad : ℚ
  fPlayerFoV_deg : ℚ
  ScreenWidth : Int

/-- The routine `GetColumnCoordinates`: the world coordinates `(x, y)` of the left or
right column of a face of the tile. -/
def GetColumnCoordinates (nTileX nTileY nFace : Int) (bLeft : Bool) : ℚ × ℚ :=
  if nFace = EAST then
    if bLeft then ((nTileX : ℚ) + 1, (nTileY : ℚ) + 1) else ((nTileX : ℚ) + 1, (nTileY : ℚ))
  else if nFace = SOUTH then
    if bLeft then ((nTileX : ℚ), (nTileY : ℚ) + 1) else ((nTileX : ℚ) + 1, (nTileY : ℚ) + 1)
  else if nFace = WEST then
    if bLeft then ((nTileX : ℚ), (nTileY : ℚ)) else ((nTileX : ℚ), (nTileY : ℚ) + 1)
  else if nFace = NORTH then
    if bLeft then ((nTileX : ℚ) + 1, (nTileY : ℚ)) else ((nTileX : ℚ), (nTileY : ℚ))
  else (-1, -1)

/-- The routine `GetAngle_PlayerToLocation`. -/
def GetAngle_PlayerToLocation (m : LibM) (g : Game) (location : ℚ × ℚ) : ℚ :=
  Mod2Pi_rad (m.atan2f (location.2 - g.fPlayerY) (location.1 - g.fPlayerX))

/-- The routine `GetDistance_PlayerToLocation`. -/
def GetDistance_PlayerToLocation (m : LibM) (g : Game) (location : ℚ × ℚ) : ℚ :=
  m.mag (location.1 - g.fPlayerX) (location.2 - g.fPlayerY)

/-- The routine `TileInFoV`: the loop over the four faces stops at the first left
column that lies in the FoV sector. -/
def TileInFoV (m : LibM) (g : Game) (nTileX nTileY : Int) : Bool :=
  let fPlayerFoV_rad := Deg2Rad g.fPlayerFoV_deg
  let fLeftAngleBoundary := Mod2Pi_rad (g.fPlayerA_rad - fPlayerFoV_rad * (1 / 2))
  let fRghtAngleBoundary := Mod2Pi_rad (g.fPlayerA_rad + fPlayerFoV_rad * (1 / 2))
  [EAST, SOUTH, WEST, NORTH].any (fun f =>
    AngleInSector
      (GetAngle_PlayerToLocation m g (GetColumnCoordinates nTileX nTileY f true))
      fLeftAngleBoundary fRghtAngleBoundary)

/-- In `GetVisibleFaces`: the `ColInfo` worked out for the left (`bLeft`) or right
column of a face. -/
def makeColumn (m : LibM) (g : Game) (nTileX nTileY nFace : Int) (bLeft : Bool) : ColInfo :=
  let coords := GetColumnCoordinates nTileX nTileY nFace bLeft
  let fAngleFromPlayer := GetAngle_PlayerToLocation m g coords
  let fDistFromPlayer_raw := GetDistance_PlayerToLocation m g coords
  { nScreenX := GetColumnProjection g.fPlayerA_rad g.fPlayerFoV_deg g.ScreenWidth fAngleFromPlayer
    fAngleFromPlayer := fAngleFromPlayer
    fDistFromPlayer := fDistFromPlayer_raw * |m.cosf (g.fPlayerA_rad - fAngleFromPlayer)|
    fDistFromPlayer_raw := fDistFromPlayer_raw }

/-- In `GetVisibleFaces`: the `FaceInfo` pushed for a visible face of a tile. -/
def makeFace (m : LibM) (g : Game) (curTile : TileInfo) (face : Int) : FaceInfo :=
  { TileID := curTile.TileID
    nSide := face
    bVisible := true
    leftCol := makeColumn m g curTile.TileID.x curTile.TileID.y face true
    rghtCol := makeColumn m g curTile.TileID.x curTile.TileID.y face false }

/-- In `GetVisibleFaces`: the body of the loop over the tiles, the faces pushed for
one tile by the inner loop `for (face = EAST; face <= NORTH; face++)`. -/
def tileFaces (m : LibM) (g : Game) (curTile : TileInfo) : List FaceInfo :=
  ([EAST, SOUTH, WEST, NORTH].filter (fun face =>
    FaceVisible g.sMap g.nMapX g.nMapY g.fPlayerX g.fPlayerY g.fPlayerA_deg g.fPlayerFoV_deg
      curTile.TileID.x curTile.TileID.y face)).map (makeFace m g curTile)

/-- In `GetVisibleFaces`: the faces pushed by the two nested loops, in push order. -/
def collectFaces (m : LibM) (g : Game) (vVisibleTiles : List TileInfo) : List FaceInfo :=
  vVisibleTiles.flatMap (tileFaces m g)

/-- The sort key of a face: the mean of the raw distances of its two columns. -/
def meanRawDistance (a : FaceInfo) : ℚ :=
  (a.leftCol.fDistFromPlayer_raw + a.rghtCol.fDistFromPlayer_raw) / 2

/-- The lambda `faces_sort_small2large` of `GetVisibleFaces`. -/
def faces_sort_small2large (a b : FaceInfo) : Bool :=
  decide (meanRawDistance a < meanRawDistance b)

/-- The routine `GetVisibleFaces`; the second list is the content of `vVisibleFaces`
on entry (the caller clears it).  The call of `std::sort` is a merge sort with the
order `not comp(b, a)`; the theorems use of it only that the result is a permutation
ordered by the comparator. -/
def GetVisibleFaces (m : LibM) (g : Game) (vVisibleTiles : List TileInfo)
    (vVisibleFaces : List FaceInfo) : List FaceInfo :=
  (vVisibleFaces ++ collectFaces m g vVisibleTiles).mergeSort
    (fun a b => !faces_sort_small2large b a)

/-- In `RenderWallQuad_mono`: the values of `x` for which the body of the lerp loop
`for (x = nRenderStrt; x <= nRenderStop; x++)` runs, in order. -/
def RenderWallQuad_mono_columns (W leftX rghtX nLeftClip nRghtClip : Int) : List Int :=
  let nRenderStrt := max 0 (max leftX nLeftClip)
  let nRenderStop := min (W - 1) (min rghtX nRghtClip)
  (List.range (nRenderStop - nRenderStrt + 1).toNat).map (fun i => nRenderStrt + (i : Int))

/-- In `RenderWallQuad_mono`: for every pass of the lerp loop the column `x` with the
numerator `x - leftCol.nScreenX` and the denominator
`rghtCol.nScreenX - leftCol.nScreenX` of the fraction `t`, before the conversion to
`float`. -/
def RenderWallQuad_mono_lerp (W leftX rghtX nLeftClip nRghtClip : Int) :
    List (Int × Int × Int) :=
  (RenderWallQuad_mono_columns W leftX rghtX nLeftClip nRghtClip).map
    (fun x => (x, x - leftX, rghtX - leftX))

/-- The face loop of the paint pass in `OnUserUpdate` (monochrome mode), entered with
the occlusion list `lst`: for each face, given by the screen columns of its left and
right column, while `SizeOccList > 1`, the call of `InsertOccList` and, when it returns
`true`, the passes of the lerp loop of `RenderWallQuad_mono`. -/
def paintLoop (endRec : OcclusionRec) (W : Int) :
    OccListType → List (Int × Int) → List (Int × Int × Int)
  | _, [] => []
  | lst, face :: faces =>
    if SizeOccList lst > 1 then
      let r := InsertOccList endRec lst ⟨face.1, face.2⟩ 0 0
      (if r.ret then RenderWallQuad_mono_lerp W face.1 face.2 r.nClipLeft r.nClipRght else [])
        ++ paintLoop endRec W r.lst faces
    else []

/-- The paint pass of `OnUserUpdate`: `InitOccList` followed by the face loop. -/
def paintPass (endRec : OcclusionRec) (W : Int) (faces : List (Int × Int)) :
    List (Int × Int × Int) :=
  paintLoop endRec W (InitOccList W) faces

/-! ## Sample values of the library functions -/

/-- An approximation of the arc tangent on `[-1, 1]`, exact at -1, 0 and 1 (with `PI`
for the circle constant). -/
def atanApprox (z : ℚ) : ℚ := PI / 4 * z + 273 / 1000 * z * (1 - |z|)

/-- An approximation of `atan2f( y, x )` built from `atanApprox`, exact along the
axes and the diagonals. -/
def atan2fApprox (y x : ℚ) : ℚ :=
  if x = 0 ∧ y = 0 then 0
  else if |y| ≤ |x| then
    if 0 < x then atanApprox (y / x)
    else if 0 ≤ y then atanApprox (y / x) + PI else atanApprox (y / x) - PI
  else if 0 < y then PI / 2 - atanApprox (x / y) else -(PI / 2) - atanApprox (x / y)

/-- An approximation of `cosf( x )` near 0, exact at 0. -/
def cosfApprox (x : ℚ) : ℚ := 1 - x ^ 2 / 2 + x ^ 4 / 24

/-- An approximation of the length of the vector `(x, y)`, exact along the axes. -/
def magApprox (x y : ℚ) : ℚ := max |x| |y| + 3 / 8 * min |x| |y|

/-- Rational approximations of the library functions.  They instantiate the library
where a theorem is applied to a concrete scene; no general theorem depends on them. -/
def sampleLibM : LibM := ⟨atan2fApprox, cosfApprox, magApprox⟩

/-- The 4 x 4 map `####`, `#..#`, `#..#`, `####` with the player at `(1.5, 2)` looking
along `+x` with a 60 degree field of view on a 1400 column screen. -/
def sampleGame : Game :=
  { sMap := ['#', '#', '#', '#', '#', '.', '.', '#', '#', '.', '.', '#', '#', '#', '#', '#']
    nMapX := 4
    nMapY := 4
    fPlayerX := 3 / 2
    fPlayerY := 2
    fPlayerA_deg := 0
    fPlayerA_rad := 0
    fPlayerFoV_deg := 60
    ScreenWidth := 1400 }

/-- The map built by `OnUserCreate`: 16 rows of 16 characters. -/
def sMapCreate : List Char :=
  ("################" ++ "#..............#" ++ "#........####..#" ++ "#..............#" ++
   "#...#.....#....#" ++ "#...#..........#" ++ "#...####.......#" ++ "#..............#" ++
   "#..............#" ++ "#..............#" ++ "#......##.##...#" ++ "#......#...#...#" ++
   "#......#...#...#" ++ "#.......###....#" ++ "#..............#" ++
   "################").toList

/-- The number of passes of the body of the scan loop of `InsertOccList`
(`do ... while (!bFound && iterRght != lst.end())`), counted along `scanLoop`. -/
def scanLoopSteps (endRec : OcclusionRec) (lst : OccListType) (rec : OcclusionRec) :
    Nat → Nat → Nat → Nat
  | 0, _, _ => 0
  | fuel + 1, iterLeft, iterRght =>
    if scanTest endRec lst rec iterLeft iterRght then 1
    else if iterRght + 1 ≠ lst.length then
      1 + scanLoopSteps endRec lst rec fuel (iterLeft + 1) (iterRght + 1)
    else 1

/-- The number of passes of the body of the merge loop of `InsertOccList` (step 4b),
counted along `mergeLoop`. -/
def mergeLoopSteps (endRec : OcclusionRec) :
    Nat → OccListType → Nat → Nat → Nat
  | 0, _, _, _ => 0
  | fuel + 1, lst, iterLeft, iterRght =>
    if decide (wrapInt ((deref endRec lst iterLeft).rght + 1) ≥ (deref endRec lst iterRght).left)
        && decide (iterRght ≠ lst.length) then
      1 + mergeLoopSteps endRec fuel
        ((lst.set iterLeft
            ⟨min (deref endRec lst iterLeft).left (deref endRec lst iterRght).left,
             max (deref endRec lst iterLeft).rght (deref endRec lst iterRght).rght⟩).eraseIdx iterRght)
        iterLeft iterRght
    else 0

/-- Step 3 of `InsertOccList`, entered with the iterator pair `(iterLeft, iterRght)`
delivered by the scan: the list with the left element extended or the record
inserted, and the iterator pair with which steps 4a and 4b are entered. -/
def step3 (endRec : OcclusionRec) (lst : OccListType) (rec : OcclusionRec)
    (iterLeft iterRght : Nat) : OccListType × Nat × Nat :=
  if wrapInt ((deref endRec lst iterLeft).rght + 1) ≥ rec.left then
    (lst.set iterLeft ⟨(deref endRec lst iterLeft).left, max (deref endRec lst iterLeft).rght rec.rght⟩,
      iterLeft, iterRght)
  else (lst.insertIdx iterRght rec, iterRght, iterRght + 1)

/-- The routine `InsertOccList` with each of its two loops cut off after `fuel`
passes: the list it leaves behind, the number of passes of the scan loop and the
number of passes of the merge loop. -/
def InsertOccList_steps (endRec : OcclusionRec) (fuel : Nat) (lst : OccListType)
    (rec : OcclusionRec) : OccListType × Nat × Nat :=
  if lst.length < 2 then (lst, 0, 0)
  else if (lst.headD endRec).left ≠ INT_MIN ∨ (lst.getLastD endRec).rght ≠ INT_MAX then
    (lst, 0, 0)
  else
    let scan := scanLoop endRec lst rec fuel 0 1
    let nScan := scanLoopSteps endRec lst rec fuel 0 1
    if !scan.1 then (lst, nScan, 0)
    else
      let s := step3 endRec lst rec scan.2.1 scan.2.2
      (mergeLoop endRec fuel s.1 s.2.1 s.2.2, nScan, mergeLoopSteps endRec fuel s.1 s.2.1 s.2.2)

/-- The evaluations of the test of the merge loop of `InsertOccList`,
`(*iterLeft).rght + 1 >= (*iterRght).left && iterRght != lst.end()`, in order: for
each evaluation the value `(*iterLeft).rght` to which 1 is added, and whether
`iterRght` is `lst.end()` at the moment `*iterRght` is read. -/
def mergeLoopReads (endRec : OcclusionRec) :
    Nat → OccListType → Nat → Nat → List (Int × Bool)
  | 0, _, _, _ => []
  | fuel + 1, lst, iterLeft, iterRght =>
    ((deref endRec lst iterLeft).rght, decide (iterRght = lst.length)) ::
      (if decide (wrapInt ((deref endRec lst iterLeft).rght + 1) ≥ (deref endRec lst iterRght).left)
          && decide (iterRght ≠ lst.length) then
        mergeLoopReads endRec fuel
          ((lst.set iterLeft
              ⟨min (deref endRec lst iterLeft).left (deref endRec lst iterRght).left,
               max (deref endRec lst iterLeft).rght (deref endRec lst iterRght).rght⟩).eraseIdx iterRght)
          iterLeft iterRght
      else [])

/-- The lists handed to `InsertOccList` by the face loop of the paint pass, in call
order; the loop is entered with the occlusion list `lst` (see `paintLoop`). -/
def paintLoopCalls (endRec : OcclusionRec) : OccListType → List (Int × Int) → List OccListType
  | _, [] => []
  | lst, face :: faces =>
    if SizeOccList lst > 1 then
      lst :: paintLoopCalls endRec (InsertOccList endRec lst ⟨face.1, face.2⟩ 0 0).lst faces
    else []

/-- The outer bounds of the list are the sentinels and every bound is an `int`: the
first `left` is `INT_MIN`, the last `rght` is `INT_MAX`. -/
def OuterBounds (lst : OccListType) : Prop :=
  lst.head?.map OcclusionRec.left = some INT_MIN ∧
  lst.getLast?.map OcclusionRec.rght = some INT_MAX ∧
  ∀ r ∈ lst, INT_MIN ≤ r.left ∧ r.rght ≤ INT_MAX

/-- Spacing of the `float` values (IEEE binary32, 24 significant bits) at a magnitude
`a` of an `int`. -/
def floatUlp (a : Nat) : Nat :=
  if a < 2 ^ 24 then 1 else if a < 2 ^ 25 then 2 else if a < 2 ^ 26 then 4
  else if a < 2 ^ 27 then 8 else if a < 2 ^ 28 then 16 else if a < 2 ^ 29 then 32
  else if a < 2 ^ 30 then 64 else if a < 2 ^ 31 then 128 else 256

/-- The implicit conversion of an `int` argument to a `float` parameter: the nearest
`float`, a tie going to the even significand. -/
def intToFloat (n : Int) : ℚ :=
  let a := n.natAbs
  let q := a / floatUlp a
  let r := a % floatUlp a
  let m := if 2 * r > floatUlp a ∨ (2 * r = floatUlp a ∧ q % 2 = 1) then q + 1 else q
  if n < 0 then -((m * floatUlp a : Nat) : ℚ) else ((m * floatUlp a : Nat) : ℚ)

/-- The call `InBetween( n, n_low, n_hgh )` on three `int` values in the step 3c
file, which has only the `float` overload of `InBetween`. -/
def InBetween_step3c (n n_low n_hgh : Int) : Bool :=
  InBetweenF (intToFloat n) (intToFloat n_low) (intToFloat n_hgh)

/-- In `InsertOccList` of step 3c: the three-way test on the iterator pair, as in the
initialisation of `bFound`. -/
def scanCond_step3c (endRec : OcclusionRec) (lst : OccListType) (rec : OcclusionRec)
    (iterLeft iterRght : Nat) : Bool :=
  InBetween_step3c rec.left (deref endRec lst iterLeft).left (deref endRec lst iterLeft).rght ||
  InBetween_step3c rec.rght (deref endRec lst iterRght).left (deref endRec lst iterRght).rght ||
  (decide (rec.left > (deref endRec lst iterLeft).rght) &&
   decide (rec.rght < (deref endRec lst iterRght).left))

/-- In `InsertOccList` of step 3c: the scan
`while (!bFound && iterRght != lst.end())`, whose body advances both iterators and
assigns `bFound = iterRght != lst.end() && (...)`; returns `bFound` and the two
iterators at loop exit.  The first argument bounds the number of passes. -/
def scanLoop_step3c (endRec : OcclusionRec) (lst : OccListType) (rec : OcclusionRec) :
    Nat → Bool → Nat → Nat → Bool × Nat × Nat
  | 0, bFound, iterLeft, iterRght => (bFound, iterLeft, iterRght)
  | fuel + 1, bFound, iterLeft, iterRght =>
    if !bFound && decide (iterRght ≠ lst.length) then
      scanLoop_step3c endRec lst rec fuel
        (decide (iterRght + 1 ≠ lst.length) &&
          scanCond_step3c endRec lst rec (iterLeft + 1) (iterRght + 1))
        (iterLeft + 1) (iterRght + 1)
    else (bFound, iterLeft, iterRght)

/-- The routine `InsertOccList` of step 3c (`part_000`, lines 957-1052): no test of the
outer bounds, the scan above, `nClipLeft = nClipRght = -1` when no insertion point is
found, steps 3 and 4 with the statements of the final routine, and
`return nClipLeft < nClipRght`. -/
def InsertOccList_step3c (endRec : OcclusionRec) (lst : OccListType) (rec : OcclusionRec)
    (nClipLeft nClipRght : Int) : InsertResult :=
  if lst.length < 2 then ⟨false, lst, nClipLeft, nClipRght⟩
  else
    let scan := scanLoop_step3c endRec lst rec lst.length
      (scanCond_step3c endRec lst rec 0 1) 0 1
    if !scan.1 then ⟨decide ((-1 : Int) < -1), lst, -1, -1⟩
    else
      let r := insertAt endRec lst rec scan.2.1 scan.2.2
      ⟨decide (r.nClipLeft < r.nClipRght), r.lst, r.nClipLeft, r.nClipRght⟩

/-- The routine `InsertOccList` of step 4b (`part_000`, lines 2057-2163): the
statements of the final routine, except `nClipLeft = nClipRght = -1` when no
insertion point is found and `return nClipLeft < nClipRght`. -/
def InsertOccList_step4b (endRec : OcclusionRec) (lst : OccListType) (rec : OcclusionRec)
    (nClipLeft nClipRght : Int) : InsertResult :=
  if lst.length < 2 then ⟨false, lst, nClipLeft, nClipRght⟩
  else if (lst.headD endRec).left ≠ INT_MIN ∨ (lst.getLastD endRec).rght ≠ INT_MAX then
    ⟨false, lst, nClipLeft, nClipRght⟩
  else
    let scan := scanLoop endRec lst rec lst.length 0 1
    if !scan.1 then ⟨decide ((-1 : Int) < -1), lst, -1, -1⟩
    else
      let r := insertAt endRec lst rec scan.2.1 scan.2.2
      ⟨decide (r.nClipLeft < r.nClipRght), r.lst, r.nClipLeft, r.nClipRght⟩

/-- The `int` value converts to `float` without rounding and keeps its order: it is
one of the two sentinels or has a magnitude below `2^24`. -/
def FloatExact (v : Int) : Prop :=
  v = INT_MIN ∨ v = INT_MAX ∨ (-16777216 < v ∧ v < 16777216)

/-- The direction `θ` (degrees) lies in the FoV sector
`[facing - FoV / 2, facing + FoV / 2]` modulo 360. -/
def InFoVSector (fPlayerA_deg fPlayerFoV_deg θ : ℚ) : Prop :=
  ∃ k : Int, fPlayerA_deg - fPlayerFoV_deg / 2 ≤ θ + 360 * (k : ℚ) ∧
    θ + 360 * (k : ℚ) ≤ fPlayerA_deg + fPlayerFoV_deg / 2

/-- The map of `OnUserCreate` with the player at `(3.99, 4.9)` in the empty cell
`(3, 4)`, next to the lower end of the WEST face of the solid tile `(4, 4)`, facing 45
degrees with the 60 degree field of view of the program on a 1400 column screen. -/
def cornerGame : Game :=
  { sMap := sMapCreate
    nMapX := 16
    nMapY := 16
    fPlayerX := 399 / 100
    fPlayerY := 49 / 10
    fPlayerA_deg := 45
    fPlayerA_rad := Deg2Rad 45
    fPlayerFoV_deg := 60
    ScreenWidth := 1400 }

/-! ## Arithmetic of `float` (IEEE binary32) -/

/-- Rounding of a rational to the nearest integer, a tie going to the even integer. -/
def roundHalfEven (q : ℚ) : Int :=
  if q - (⌊q⌋ : ℚ) < 1 / 2 then ⌊q⌋
  else if q - (⌊q⌋ : ℚ) > 1 / 2 then ⌊q⌋ + 1
  else if ⌊q⌋ % 2 = 0 then ⌊q⌋ else ⌊q⌋ + 1

/-- Spacing of the `float` values at the magnitude `a >= 0`: `2^(e - 23)` for
`2^e <= a < 2^(e + 1)`, and `2^(-149)` below the smallest normal value `2^(-126)`. -/
def f32Ulp (a : ℚ) : ℚ :=
  if a < (2 : ℚ) ^ (-126 : Int) then (2 : ℚ) ^ (-149 : Int) else (2 : ℚ) ^ (Int.log 2 a - 23)

/-- The `float` nearest to the magnitude `a >= 0`, a tie going to the even significand. -/
def f32RoundMag (a : ℚ) : ℚ := (roundHalfEven (a / f32Ulp a) : ℚ) * f32Ulp a

/-- The value a real result takes when it is stored in a `float`: rounding to the
nearest binary32 value, ties to even.  Overflow to infinity (magnitudes from `2^128`)
is not modelled. -/
def toFloat (x : ℚ) : ℚ := if x < 0 then -f32RoundMag (-x) else f32RoundMag x

/-- The `float` sum `a + b`. -/
def f32add (a b : ℚ) : ℚ := toFloat (a + b)

/-- The `float` difference `a - b`. -/
def f32sub (a b : ℚ) : ℚ := toFloat (a - b)

/-- The `float` product `a * b`. -/
def f32mul (a b : ℚ) : ℚ := toFloat (a * b)

/-- The `float` quotient `a / b`. -/
def f32div (a b : ℚ) : ℚ := toFloat (a / b)

/-- The magnitude `a >= 0` lies in the binade of exponent `e`: `2^e <= a < 2^(e + 1)`
with `e >= -126`, the binade of `e = -126` taking the subnormal magnitudes too. -/
def InBinade (a : ℚ) (e : Int) : Prop :=
  -126 ≤ e ∧ a < (2 : ℚ) ^ (e + 1) ∧ ((2 : ℚ) ^ e ≤ a ∨ (e = -126 ∧ 0 ≤ a))

/-- The rational `x` is a `float` value: storing it in a `float` does not change it. -/
def IsF32 (x : ℚ) : Prop := toFloat x = x

/-! ## The angle routines in `float` arithmetic

The definitions with the suffix `_f32` are the routines of `main.cpp` with every
`float` operation rounded (`toFloat`); comparisons are exact.  Their arguments are
meant to be `float` values (`IsF32`). -/

/-- The constant `PI` of the `#define`: the `float` literal `3.1415926535f`. -/
def PI_f32 : ℚ := toFloat 3.1415926535

/-- The routine `Deg2Rad` in `float` arithmetic: `fDegAngle / 180.0f * PI`. -/
def Deg2Rad_f32 (fDegAngle : ℚ) : ℚ := f32mul (f32div fDegAngle 180) PI_f32

/-- The routine `Mod360_deg` in `float` arithmetic: one conditional `+= 360.0f`
followed by one conditional `-= 360.0f` (the range warning only prints). -/
def Mod360_deg_f32 (fDegAngle : ℚ) : ℚ :=
  let a1 := if fDegAngle < 0 then f32add fDegAngle 360 else fDegAngle
  if a1 ≥ 360 then f32sub a1 360 else a1

/-- The routine `Mod2Pi_rad` in `float` arithmetic: one conditional `+= 2.0f * PI`
followed by one conditional `-= 2.0f * PI` (the range warning only prints). -/
def Mod2Pi_rad_f32 (fRadAngle : ℚ) : ℚ :=
  let a1 := if fRadAngle < 0 then f32add fRadAngle (f32mul 2 PI_f32) else fRadAngle
  if a1 ≥ f32mul 2 PI_f32 then f32sub a1 (f32mul 2 PI_f32) else a1

/-- The routine `AngleInSector` in `float` arithmetic (its only operation is the
constant `2.0f * PI`). -/
def AngleInSector_f32 (fA fLeftA fRghtA : ℚ) : Bool :=
  if fLeftA > fRghtA then
    InBetweenF fA fLeftA (f32mul 2 PI_f32) || InBetweenF fA 0 fRghtA
  else InBetweenF fA fLeftA fRghtA

/-- The lambda `sync_angle_vars` of `OnUserUpdate`, in `float` arithmetic. -/
def sync_angle_vars (s : AngleState) : AngleState :=
  ⟨Mod360_deg_f32 s.fPlayerA_deg, Deg2Rad_f32 (Mod360_deg_f32 s.fPlayerA_deg)⟩

/-- The factor `fSpeedUp` of `OnUserUpdate` for the state of the SHIFT and CTRL keys:
`1.0f`, multiplied by `4.00f` if SHIFT is down and then by `0.10f` if CTRL is down. -/
def speedUp (bShift bCtrl : Bool) : ℚ :=
  let s1 := if bShift then f32mul 1 4 else 1
  if bCtrl then f32mul s1 (toFloat 0.10) else s1

/-- The rotation handling of `OnUserUpdate`: the two `if (GetKey( ... ).bHeld)`
statements for the keys D and A, for an elapsed time `fElapsedTime`; the products and
the `+=` and `-=` are `float` operations. -/
def rotateStep (bShift bCtrl bKeyD bKeyA : Bool) (fElapsedTime : ℚ) (s : AngleState) :
    AngleState :=
  let fSpeedUp := speedUp bShift bCtrl
  let s1 :=
    if bKeyD then
      sync_angle_vars
        ⟨f32add s.fPlayerA_deg (f32mul (f32mul fSpeedUp SPEED_ROTATE) fElapsedTime),
          s.fPlayerA_rad⟩
    else s
  if bKeyA then
    sync_angle_vars
      ⟨f32sub s1.fPlayerA_deg (f32mul (f32mul fSpeedUp SPEED_ROTATE) fElapsedTime),
        s1.fPlayerA_rad⟩
  else s1

/-- In `FaceVisible`: the left boundary `fFOVleft_rad` of the FoV cone, in `float`
arithmetic. -/
def FaceVisible_fFOVleft_rad (fPlayerA_deg fPlayerFoV_deg : ℚ) : ℚ :=
  Deg2Rad_f32 (Mod360_deg_f32 (f32sub fPlayerA_deg (f32div fPlayerFoV_deg 2)))

/-- In `FaceVisible`: the right boundary `fFOVrght_rad` of the FoV cone, in `float`
arithmetic. -/
def FaceVisible_fFOVrght_rad (fPlayerA_deg fPlayerFoV_deg : ℚ) : ℚ :=
  Deg2Rad_f32 (Mod360_deg_f32 (f32add fPlayerA_deg (f32div fPlayerFoV_deg 2)))

/-- In `FaceVisible`: the flag `bRt`, the player looks to the right. -/
def FaceVisible_bRt (fPlayerA_deg fPlayerFoV_deg : ℚ) : Bool :=
  AngleInSector_f32 (FaceVisible_fFOVleft_rad fPlayerA_deg fPlayerFoV_deg)
      (f32mul 1.5 PI_f32) (f32mul 0.5 PI_f32) ||
    AngleInSector_f32 (FaceVisible_fFOVrght_rad fPlayerA_deg fPlayerFoV_deg)
      (f32mul 1.5 PI_f32) (f32mul 0.5 PI_f32)

/-- In `FaceVisible`: the flag `bUp`, the player looks up (towards smaller `y`). -/
def FaceVisible_bUp (fPlayerA_deg fPlayerFoV_deg : ℚ) : Bool :=
  AngleInSector_f32 (FaceVisible_fFOVleft_rad fPlayerA_deg fPlayerFoV_deg)
      (f32mul 1.0 PI_f32) (f32mul 2.0 PI_f32) ||
    AngleInSector_f32 (FaceVisible_fFOVrght_rad fPlayerA_deg fPlayerFoV_deg)
      (f32mul 1.0 PI_f32) (f32mul 2.0 PI_f32)

/-- In `FaceVisible`: the flag `bDn`, the player looks down (towards larger `y`). -/
def FaceVisible_bDn (fPlayerA_deg fPlayerFoV_deg : ℚ) : Bool :=
  AngleInSector_f32 (FaceVisible_fFOVleft_rad fPlayerA_deg fPlayerFoV_deg)
      (f32mul 0.0 PI_f32) (f32mul 1.0 PI_f32) ||
    AngleInSector_f32 (FaceVisible_fFOVrght_rad fPlayerA_deg fPlayerFoV_deg)
      (f32mul 0.0 PI_f32) (f32mul 1.0 PI_f32)

/-- In `FaceVisible`: the flag `bLt`, the player looks to the left. -/
def FaceVisible_bLt (fPlayerA_deg fPlayerFoV_deg : ℚ) : Bool :=
  AngleInSector_f32 (FaceVisible_fFOVleft_rad fPlayerA_deg fPlayerFoV_deg)
      (f32mul 0.5 PI_f32) (f32mul 1.5 PI_f32) ||
    AngleInSector_f32 (FaceVisible_fFOVrght_rad fPlayerA_deg fPlayerFoV_deg)
      (f32mul 0.5 PI_f32) (f32mul 1.5 PI_f32)

/-- The routine `FaceVisible` with the direction flags computed in `float` arithmetic
and the tile coordinates converted by `float( ... )`; the member variables it reads are
the first seven arguments. -/
def FaceVisible_f32 (sMap : List Char) (nMapX nMapY : Int)
    (fPlayerX fPlayerY fPlayerA_deg fPlayerFoV_deg : ℚ) (nTileX nTileY nFace : Int) : Bool :=
  let bRt := FaceVisible_bRt fPlayerA_deg fPlayerFoV_deg
  let bUp := FaceVisible_bUp fPlayerA_deg fPlayerFoV_deg
  let bDn := FaceVisible_bDn fPlayerA_deg fPlayerFoV_deg
  let bLt := FaceVisible_bLt fPlayerA_deg fPlayerFoV_deg
  if nFace = EAST then
    decide (nTileX < nMapX - 1) && decide (mapAt sMap (nTileY * nMapX + (nTileX + 1)) ≠ '#')
      && bLt && decide (fPlayerX > intToFloat (nTileX + 1))
  else if nFace = WEST then
    decide (nTileX > 0) && decide (mapAt sMap (nTileY * nMapX + (nTileX - 1)) ≠ '#')
      && bRt && decide (fPlayerX < intToFloat nTileX)
  else if nFace = SOUTH then
    decide (nTileY < nMapY - 1) && decide (mapAt sMap ((nTileY + 1) * nMapX + nTileX) ≠ '#')
      && bUp && decide (fPlayerY > intToFloat (nTileY + 1))
  else if nFace = NORTH then
    decide (nTileY > 0) && decide (mapAt sMap ((nTileY - 1) * nMapX + nTileX) ≠ '#')
      && bDn && decide (fPlayerY < intToFloat nTileY)
  else false

/-- The columns of a `DrawLine` call between the x coordinates `x1` and `x2`: every
column from the smaller to the larger of the two (the routine belongs to the engine,
not to the program). -/
def lineColumns (x1 x2 : Int) : List Int :=
  (List.range (max x1 x2 - min x1 x2 + 1).toNat).map (fun i : Nat => min x1 x2 + (i : Int))

/-- The initial value of the member variable `bWireFrameMode`; the key B toggles it. -/
def bWireFrameMode_init : Bool := true

/-- In `RenderWallQuad_mono`: the x components of the wire frame points `wf_ul`, `wf_ll`
(first component) and `wf_ur`, `wf_lr` (second component) after the lerp loop.  The
points are default-constructed, `(0, 0)`, and are set to `float( x )` in the first and
in the last pass of the loop. -/
def RenderWallQuad_mono_wf (W leftX rghtX nLeftClip nRghtClip : Int) : ℚ × ℚ :=
  let nRenderStrt := max 0 (max leftX nLeftClip)
  let nRenderStop := min (W - 1) (min rghtX nRghtClip)
  if nRenderStrt ≤ nRenderStop then (intToFloat nRenderStrt, intToFloat nRenderStop)
  else (0, 0)

/-- In `RenderWallQuad_mono`: the columns of the four `DrawLine` calls of the branch
`if (bWireFrameMode)`, in order: the left column at `wf_ul.x + 1`, the right column at
`wf_ur.x - 1`, the top side and the floor side from `wf_ul.x` to `wf_ur.x`.  The sums
are `float` additions and the conversion of a point to integer coordinates
truncates. -/
def RenderWallQuad_mono_wire (bWireFrameMode : Bool) (W leftX rghtX nLeftClip nRghtClip : Int) :
    List Int :=
  if bWireFrameMode then
    lineColumns
        (floatToInt (f32add (RenderWallQuad_mono_wf W leftX rghtX nLeftClip nRghtClip).1 1))
        (floatToInt (f32add (RenderWallQuad_mono_wf W leftX rghtX nLeftClip nRghtClip).1 1)) ++
      lineColumns
        (floatToInt (f32add (RenderWallQuad_mono_wf W leftX rghtX nLeftClip nRghtClip).2 (-1)))
        (floatToInt (f32add (RenderWallQuad_mono_wf W leftX rghtX nLeftClip nRghtClip).2 (-1))) ++
      lineColumns
        (floatToInt (f32add (RenderWallQuad_mono_wf W leftX rghtX nLeftClip nRghtClip).1 0))
        (floatToInt (f32add (RenderWallQuad_mono_wf W leftX rghtX nLeftClip nRghtClip).2 0)) ++
      lineColumns
        (floatToInt (f32add (RenderWallQuad_mono_wf W leftX rghtX nLeftClip nRghtClip).1 0))
        (floatToInt (f32add (RenderWallQuad_mono_wf W leftX rghtX nLeftClip nRghtClip).2 0))
  else []

/-- The columns at which `RenderWallQuad_mono` calls `DrawLine`: the passes of the lerp
loop, followed by the lines of the wire frame. -/
def RenderWallQuad_mono_painted (bWireFrameMode : Bool)
    (W leftX rghtX nLeftClip nRghtClip : Int) : List Int :=
  RenderWallQuad_mono_columns W leftX rghtX nLeftClip nRghtClip ++
    RenderWallQuad_mono_wire bWireFrameMode W leftX rghtX nLeftClip nRghtClip

/-- The face loop of the paint pass in `OnUserUpdate` (monochrome mode), entered with
the occlusion list `lst`: for each face that `InsertOccList` accepts, while
`SizeOccList > 1`, the columns at which `RenderWallQuad_mono` calls `DrawLine`; one
list per rendered face, in the order of the calls. -/
def paintLoopFaces (bWireFrameMode : Bool) (endRec : OcclusionRec) (W : Int) :
    OccListType → List (Int × Int) → List (List Int)
  | _, [] => []
  | lst, face :: faces =>
    if SizeOccList lst > 1 then
      (if (InsertOccList endRec lst ⟨face.1, face.2⟩ 0 0).ret then
          [RenderWallQuad_mono_painted bWireFrameMode W face.1 face.2
            (InsertOccList endRec lst ⟨face.1, face.2⟩ 0 0).nClipLeft
            (InsertOccList endRec lst ⟨face.1, face.2⟩ 0 0).nClipRght]
        else [])
        ++ paintLoopFaces bWireFrameMode endRec W
          (InsertOccList endRec lst ⟨face.1, face.2⟩ 0 0).lst faces
    else []

/-! ## Theorems -/

/-! ### The iterator model against lists split at the iterator -/

theorem deref_left (e : OcclusionRec) (pre : List OcclusionRec) (L : OcclusionRec)
    (rest : List OcclusionRec) : deref e (pre ++ L :: rest) pre.length = L := by
  unfold deref
  rw [List.getD_append_right _ _ _ _ (le_refl _)]
  simp

theorem deref_rght (e : OcclusionRec) (pre : List OcclusionRec) (L R : OcclusionRec)
    (suf : List OcclusionRec) : deref e (pre ++ L :: R :: suf) (pre.length + 1) = R := by
  have h : pre ++ L :: R :: suf = (pre ++ [L]) ++ R :: suf := by simp
  have h2 : pre.length + 1 = (pre ++ [L]).length := by simp
  rw [h, h2]
  exact deref_left e (pre ++ [L]) R suf

theorem mergeLoop_eq (e : OcclusionRec) (pre : List OcclusionRec) :
    ∀ (suf : List OcclusionRec) (fuel : Nat) (L : OcclusionRec), suf.length ≤ fuel →
      mergeLoop e fuel (pre ++ L :: suf) pre.length (pre.length + 1) = pre ++ absorb L suf := by
  intro suf
  induction suf with
  | nil =>
    intro fuel L _
    cases fuel with
    | zero => simp [mergeLoop, absorb]
    | succ n => simp [mergeLoop, absorb]
  | cons R suf ih =>
    intro fuel L hf
    cases fuel with
    | zero => simp at hf
    | succ n =>
      have hn : suf.length ≤ n := by simpa using hf
      rw [mergeLoop, deref_left, deref_rght]
      by_cases h : wrapInt (L.rght + 1) ≥ R.left
      · have hs : ((pre ++ L :: R :: suf).set pre.length
            ⟨min L.left R.left, max L.rght R.rght⟩).eraseIdx (pre.length + 1)
            = pre ++ ⟨min L.left R.left, max L.rght R.rght⟩ :: suf := by
          simp [List.set_append, List.eraseIdx_append_of_length_le]
        simp only [h, decide_True, Bool.true_and, List.length_append, List.length_cons, ne_eq,
          absorb, if_true]
        rw [if_pos (by simp), hs]
        exact ih n _ hn
      · simp [h, absorb]

theorem exists_split (lst : List OcclusionRec) (i : Nat) (h : i + 1 < lst.length) :
    ∃ pre L R suf, lst = pre ++ L :: R :: suf ∧ pre.length = i := by
  refine ⟨lst.take i, lst[i], lst[i+1], lst.drop (i + 2), ?_, ?_⟩
  · have h1 : lst = lst.take i ++ lst.drop i := (List.take_append_drop i lst).symm
    have h2 : lst.drop i = lst[i] :: lst.drop (i + 1) := by
      rw [List.drop_eq_getElem_cons (by omega)]
    have h3 : lst.drop (i + 1) = lst[i + 1] :: lst.drop (i + 2) := by
      rw [List.drop_eq_getElem_cons (by omega)]
    rw [← h3, ← h2]
    exact h1
  · simp; omega

theorem scanTest_split (e : OcclusionRec) (pre : List OcclusionRec) (L R : OcclusionRec)
    (suf : List OcclusionRec) (rec : OcclusionRec) :
    scanTest e (pre ++ L :: R :: suf) rec pre.length (pre.length + 1) = foundAt rec L R := by
  unfold scanTest foundAt
  rw [deref_left, deref_rght]
  simp

theorem scanLoop_spec (e : OcclusionRec) (lst : OccListType) (rec : OcclusionRec) :
    ∀ (fuel iL : Nat), iL + 1 < lst.length → lst.length ≤ fuel + (iL + 1) →
      (∃ i, scanLoop e lst rec fuel iL (iL + 1) = (true, i, i + 1) ∧ iL ≤ i ∧
          i + 1 < lst.length ∧ scanTest e lst rec i (i + 1) = true ∧
          ∀ k, iL ≤ k → k < i → scanTest e lst rec k (k + 1) = false) ∨
      (scanLoop e lst rec fuel iL (iL + 1) = (false, lst.length - 1, lst.length) ∧
          ∀ k, iL ≤ k → k + 1 < lst.length → scanTest e lst rec k (k + 1) = false) := by
  intro fuel
  induction fuel with
  | zero => intro iL h1 h2; omega
  | succ n ih =>
    intro iL h1 h2
    rw [scanLoop]
    by_cases ht : scanTest e lst rec iL (iL + 1) = true
    · left
      refine ⟨iL, by simp [ht], le_refl _, h1, ht, ?_⟩
      intro k hk1 hk2; omega
    · have htf : scanTest e lst rec iL (iL + 1) = false := by simpa using ht
      rw [htf]
      simp only [Bool.false_eq_true, if_false]
      by_cases hend : iL + 1 + 1 = lst.length
      · right
        refine ⟨?_, ?_⟩
        · have h3 : iL + 1 = lst.length - 1 := by omega
          rw [if_neg (by simp [hend]), hend, h3]
        · intro k hk1 hk2
          have : k = iL := by omega
          rw [this]; exact htf
      · simp only [ne_eq, hend, not_false_eq_true, if_true]
        rcases ih (iL + 1) (by omega) (by omega) with ⟨i, hi1, hi2, hi3, hi4, hi5⟩ | ⟨hn1, hn2⟩
        · left
          refine ⟨i, hi1, by omega, hi3, hi4, ?_⟩
          intro k hk1 hk2
          by_cases hk : k = iL
          · rw [hk]; exact htf
          · exact hi5 k (by omega) hk2
        · right
          refine ⟨hn1, ?_⟩
          intro k hk1 hk2
          by_cases hk : k = iL
          · rw [hk]; exact htf
          · exact hn2 k (by omega) hk2

theorem insertIdx_append_length (pre : List OcclusionRec) (x : OcclusionRec)
    (rest : List OcclusionRec) : (pre ++ rest).insertIdx pre.length x = pre ++ x :: rest := by
  induction pre with
  | nil => simp
  | cons a pre ih => simp [List.insertIdx_succ_cons, ih]

theorem insertAt_split (e : OcclusionRec) (pre : List OcclusionRec) (L R : OcclusionRec)
    (suf : List OcclusionRec) (rec : OcclusionRec) :
    insertAt e (pre ++ L :: R :: suf) rec pre.length (pre.length + 1) =
      if wrapInt (L.rght + 1) ≥ rec.left then
        ⟨decide (wrapInt (L.rght + 1) ≤
            (if wrapInt (max L.rght rec.rght + 1) ≥ R.left then wrapInt (R.left - 1) else rec.rght)),
          pre ++ absorb ⟨L.left, max L.rght rec.rght⟩ (R :: suf),
          wrapInt (L.rght + 1),
          (if wrapInt (max L.rght rec.rght + 1) ≥ R.left then wrapInt (R.left - 1) else rec.rght)⟩
      else
        ⟨decide (rec.left ≤
            (if wrapInt (rec.rght + 1) ≥ R.left then wrapInt (R.left - 1) else rec.rght)),
          pre ++ L :: absorb rec (R :: suf),
          rec.left,
          (if wrapInt (rec.rght + 1) ≥ R.left then wrapInt (R.left - 1) else rec.rght)⟩ := by
  unfold insertAt
  rw [deref_left]
  by_cases h : wrapInt (L.rght + 1) ≥ rec.left
  · have hs : (pre ++ L :: R :: suf).set pre.length ⟨L.left, max L.rght rec.rght⟩
        = pre ++ ⟨L.left, max L.rght rec.rght⟩ :: R :: suf := by
      simp [List.set_append]
    simp only [h, decide_True, if_true, hs, deref_left, deref_rght]
    rw [mergeLoop_eq e pre (R :: suf) _ _ (by simp; omega)]
  · have hs : (pre ++ L :: R :: suf).insertIdx (pre.length + 1) rec
        = (pre ++ [L]) ++ rec :: R :: suf := by
      have h1 : pre ++ L :: R :: suf = (pre ++ [L]) ++ R :: suf := by simp
      have h2 : pre.length + 1 = (pre ++ [L]).length := by simp
      rw [h1, h2, insertIdx_append_length]
    have h2 : pre.length + 1 = (pre ++ [L]).length := by simp
    simp only [h, decide_False, if_false, hs, Bool.false_eq_true]
    rw [h2, deref_left, deref_rght, mergeLoop_eq e (pre ++ [L]) (R :: suf) _ _ (by simp; omega)]
    simp

theorem InsertOccList_cases (e : OcclusionRec) (lst : OccListType) (rec : OcclusionRec)
    (c1 c2 : Int) (hlen : 2 ≤ lst.length) (hhead : (lst.headD e).left = INT_MIN)
    (hlast : (lst.getLastD e).rght = INT_MAX) :
    (InsertOccList e lst rec c1 c2 = ⟨false, lst, -1, -2⟩ ∧
        scanLoop e lst rec lst.length 0 1 = (false, lst.length - 1, lst.length) ∧
        ∀ pre L R suf, lst = pre ++ L :: R :: suf → foundAt rec L R = false) ∨
    ∃ pre L R suf, lst = pre ++ L :: R :: suf ∧ foundAt rec L R = true ∧
        scanLoop e lst rec lst.length 0 1 = (true, pre.length, pre.length + 1) ∧
        (∀ pre1 L1 R1 suf1, lst = pre1 ++ L1 :: R1 :: suf1 → pre1.length < pre.length →
          foundAt rec L1 R1 = false) ∧
        InsertOccList e lst rec c1 c2 =
          insertAt e (pre ++ L :: R :: suf) rec pre.length (pre.length + 1) := by
  have hpre : InsertOccList e lst rec c1 c2 =
      if !(scanLoop e lst rec lst.length 0 1).1 then ⟨false, lst, -1, -2⟩
      else insertAt e lst rec (scanLoop e lst rec lst.length 0 1).2.1
        (scanLoop e lst rec lst.length 0 1).2.2 := by
    unfold InsertOccList
    rw [if_neg (by omega), if_neg (by rw [hhead, hlast]; simp)]
    simp
  rcases scanLoop_spec e lst rec lst.length 0 (by omega) (by omega) with
    ⟨i, hi1, _, hi3, hi4, hi5⟩ | ⟨hn1, hn2⟩
  · right
    obtain ⟨pre, L, R, suf, hsplit, hpl⟩ := exists_split lst i hi3
    refine ⟨pre, L, R, suf, hsplit, ?_, ?_, ?_, ?_⟩
    · rw [← scanTest_split e pre L R suf rec, ← hsplit, hpl]; exact hi4
    · rw [hpl]; exact hi1
    · intro pre1 L1 R1 suf1 hs1 hlt
      rw [← scanTest_split e pre1 L1 R1 suf1 rec, ← hs1]
      exact hi5 pre1.length (Nat.zero_le _) (by omega)
    · rw [hpre]
      simp only [Nat.zero_add] at hi1
      rw [hi1]
      simp only [Bool.not_true, Bool.false_eq_true, if_false]
      rw [← hsplit, hpl]
  · left
    simp only [Nat.zero_add] at hn1
    refine ⟨?_, hn1, ?_⟩
    · rw [hpre, hn1]; simp
    · intro pre L R suf hs
      rw [← scanTest_split e pre L R suf rec, ← hs]
      apply hn2 pre.length (Nat.zero_le _)
      rw [hs]; simp

/-! ### Arithmetic of the wrap and facts on well-formed lists -/

theorem wrapInt_eq (x : Int) (h1 : INT_MIN ≤ x) (h2 : x ≤ INT_MAX) : wrapInt x = x := by
  unfold wrapInt
  unfold INT_MIN at h1
  unfold INT_MAX at h2
  omega

theorem chain_pairwise : ∀ (lst : List OcclusionRec), lst.Chain' Gap →
    (∀ r ∈ lst, r.left ≤ r.rght) → lst.Pairwise Gap := by
  intro lst
  induction lst with
  | nil => intro _ _; exact List.Pairwise.nil
  | cons a l ih =>
    intro hc hle
    have hcl : l.Chain' Gap := (List.chain'_cons'.mp hc).2
    have hpl : l.Pairwise Gap := ih hcl (fun r hr => hle r (List.mem_cons_of_mem _ hr))
    refine List.pairwise_cons.mpr ⟨?_, hpl⟩
    intro c hc2
    cases l with
    | nil => simp at hc2
    | cons b l2 =>
      have hab : Gap a b := (List.chain'_cons.mp hc).1
      have hb : b.left ≤ b.rght := hle b (by simp)
      rcases List.mem_cons.mp hc2 with h | h
      · rw [h]; exact hab
      · have hbc : Gap b c := (List.pairwise_cons.mp hpl).1 c h
        unfold Gap at *
        omega

theorem wf_pairwise (lst : OccListType) (h : WellFormed lst) : lst.Pairwise Gap :=
  chain_pairwise lst h.2.2.2 h.2.2.1

theorem wf_of_parts (lst : OccListType)
    (hh : lst.head?.map OcclusionRec.left = some INT_MIN)
    (hl : lst.getLast?.map OcclusionRec.rght = some INT_MAX)
    (hle : ∀ r ∈ lst, r.left ≤ r.rght) (hp : lst.Pairwise Gap) : WellFormed lst :=
  ⟨hh, hl, hle, List.Pairwise.chain' hp⟩

theorem wf_range (lst : OccListType) (h : WellFormed lst) :
    ∀ r ∈ lst, INT_MIN ≤ r.left ∧ r.rght ≤ INT_MAX := by
  have hp := wf_pairwise lst h
  obtain ⟨hh, hl, hle, _⟩ := h
  intro r hr
  constructor
  · cases lst with
    | nil => simp at hr
    | cons a l =>
      have ha : a.left = INT_MIN := by simpa using hh
      rcases List.mem_cons.mp hr with h1 | h1
      · rw [h1, ha]
      · have hg : Gap a r := (List.pairwise_cons.mp hp).1 r h1
        have := hle a (by simp)
        unfold Gap at hg
        omega
  · rcases List.eq_nil_or_concat lst with h0 | ⟨l, z, h0⟩
    · rw [h0] at hr; simp at hr
    · rw [List.concat_eq_append] at h0
      subst h0
      have hz : z.rght = INT_MAX := by simpa using hl
      rcases List.mem_append.mp hr with h1 | h1
      · have hg : Gap r z := (List.pairwise_append.mp hp).2.2 r h1 z (by simp)
        have := hle z (by simp)
        unfold Gap at hg
        omega
      · have : r = z := by simpa using h1
        rw [this, hz]

/-- In a well-formed list only the last interval reaches `INT_MAX`. -/
theorem wf_not_last (pre : List OcclusionRec) (L R : OcclusionRec) (suf : List OcclusionRec)
    (h : WellFormed (pre ++ L :: R :: suf)) : L.rght + 1 < R.left ∧ R.left ≤ INT_MAX ∧
      INT_MIN ≤ L.left ∧ L.left ≤ L.rght ∧ R.left ≤ R.rght ∧ R.rght ≤ INT_MAX := by
  have hp := wf_pairwise _ h
  have hr := wf_range _ h
  have hL := hr L (by simp)
  have hR := hr R (by simp)
  have hLle := h.2.2.1 L (by simp)
  have hRle := h.2.2.1 R (by simp)
  have hg : Gap L R := by
    have := (List.pairwise_append.mp hp).2.1
    exact (List.pairwise_cons.mp this).1 R (by simp)
  unfold Gap at hg
  refine ⟨hg, by omega, hL.1, hLle, hRle, hR.2⟩

/-! ### The merge loop in closed form -/

theorem absorb_ne_nil : ∀ (suf : List OcclusionRec) (L : OcclusionRec), absorb L suf ≠ [] := by
  intro suf
  induction suf with
  | nil => intro L; simp [absorb]
  | cons R suf ih =>
    intro L
    rw [absorb]
    split
    · exact ih _
    · simp

theorem absorb_le : ∀ (suf : List OcclusionRec) (L : OcclusionRec), L.left ≤ L.rght →
    (∀ r ∈ suf, r.left ≤ r.rght) → ∀ b ∈ absorb L suf, b.left ≤ b.rght := by
  intro suf
  induction suf with
  | nil => intro L hL _ b hb; simp [absorb] at hb; rw [hb]; exact hL
  | cons R suf ih =>
    intro L hL hs b hb
    rw [absorb] at hb
    split at hb
    · refine ih _ ?_ (fun r hr => hs r (List.mem_cons_of_mem _ hr)) b hb
      have := hs R (by simp)
      simp only [min_le_iff, le_max_iff]
      omega
    · rcases List.mem_cons.mp hb with h | h
      · rw [h]; exact hL
      · exact hs b h

theorem absorb_lower : ∀ (suf : List OcclusionRec) (L : OcclusionRec) (lo : Int), lo < L.left →
    (∀ r ∈ suf, lo < r.left) → ∀ b ∈ absorb L suf, lo < b.left := by
  intro suf
  induction suf with
  | nil => intro L lo hL _ b hb; simp [absorb] at hb; rw [hb]; exact hL
  | cons R suf ih =>
    intro L lo hL hs b hb
    rw [absorb] at hb
    split at hb
    · refine ih _ lo ?_ (fun r hr => hs r (List.mem_cons_of_mem _ hr)) b hb
      have := hs R (by simp)
      simp only [lt_min_iff]
      omega
    · rcases List.mem_cons.mp hb with h | h
      · rw [h]; exact hL
      · exact hs b h

theorem absorb_head : ∀ (suf : List OcclusionRec) (L : OcclusionRec),
    (∀ r ∈ suf, L.left ≤ r.left) → (absorb L suf).head?.map OcclusionRec.left = some L.left := by
  intro suf
  induction suf with
  | nil => intro L _; simp [absorb]
  | cons R suf ih =>
    intro L hs
    rw [absorb]
    split
    · have hR := hs R (by simp)
      have := ih ⟨min L.left R.left, max L.rght R.rght⟩
        (fun r hr => by
          have := hs r (List.mem_cons_of_mem _ hr)
          simp only [min_le_iff]
          omega)
      rw [this]
      simp only [Option.some.injEq, min_eq_left_iff]
      exact hR
    · simp

theorem absorb_last : ∀ (suf : List OcclusionRec) (L : OcclusionRec), L.rght ≤ INT_MAX →
    (∀ r ∈ suf, r.rght ≤ INT_MAX) →
    (L :: suf).getLast?.map OcclusionRec.rght = some INT_MAX →
    (absorb L suf).getLast?.map OcclusionRec.rght = some INT_MAX := by
  intro suf
  induction suf with
  | nil => intro L _ _ h; simpa [absorb] using h
  | cons R suf ih =>
    intro L hL hs h
    rw [absorb]
    have hR := hs R (by simp)
    split
    · apply ih _ (by simp only [max_le_iff]; omega) (fun r hr => hs r (List.mem_cons_of_mem _ hr))
      cases suf with
      | nil =>
        have : R.rght = INT_MAX := by simpa using h
        simp only [List.getLast?_singleton, Option.map_some', Option.some.injEq, max_eq_right_iff]
        rw [this]
        simp only [max_eq_right_iff]
        exact hL
      | cons c suf2 =>
        rw [List.getLast?_cons_cons] at h
        rw [List.getLast?_cons_cons] at h
        rw [List.getLast?_cons_cons]
        exact h
    · exact h

theorem absorb_covered : ∀ (suf : List OcclusionRec) (L : OcclusionRec) (x : Int),
    Covered (L :: suf) x → Covered (absorb L suf) x := by
  intro suf
  induction suf with
  | nil => intro L x h; simpa [absorb] using h
  | cons R suf ih =>
    intro L x h
    rw [absorb]
    split
    · apply ih
      obtain ⟨r, hr, hx⟩ := h
      unfold InRec at hx
      rcases List.mem_cons.mp hr with h1 | h1
      · refine ⟨_, List.mem_cons_self _ _, ?_⟩
        subst h1
        unfold InRec
        simp only [min_le_iff, le_max_iff]
        omega
      · rcases List.mem_cons.mp h1 with h2 | h2
        · refine ⟨_, List.mem_cons_self _ _, ?_⟩
          subst h2
          unfold InRec
          simp only [min_le_iff, le_max_iff]
          omega
        · exact ⟨r, List.mem_cons_of_mem _ h2, hx⟩
    · exact h

theorem absorb_pairwise : ∀ (suf : List OcclusionRec) (L : OcclusionRec),
    INT_MIN ≤ L.rght + 1 → (suf ≠ [] → L.rght < INT_MAX) → L.rght ≤ INT_MAX →
    (∀ r ∈ suf, r.left ≤ r.rght ∧ r.rght ≤ INT_MAX) → suf.Pairwise Gap →
    (absorb L suf).Pairwise Gap := by
  intro suf
  induction suf with
  | nil => intro L _ _ _ _ _; simp [absorb]
  | cons R suf ih =>
    intro L hmin hlt hmax hs hp
    have hLlt : L.rght < INT_MAX := hlt (by simp)
    have hw : wrapInt (L.rght + 1) = L.rght + 1 := wrapInt_eq _ hmin (by omega)
    have hR := hs R (by simp)
    have hRs : ∀ r ∈ suf, Gap R r := (List.pairwise_cons.mp hp).1
    rw [absorb, hw]
    split
    · apply ih
      · simp only [le_max_iff]; omega
      · intro hne
        obtain ⟨c, hc⟩ := List.exists_mem_of_ne_nil suf hne
        have h1 := hRs c hc
        have h2 := hs c (List.mem_cons_of_mem _ hc)
        unfold Gap at h1
        simp only [max_lt_iff]
        omega
      · simp only [max_le_iff]; omega
      · exact fun r hr => hs r (List.mem_cons_of_mem _ hr)
      · exact (List.pairwise_cons.mp hp).2
    · rename_i hno
      refine List.pairwise_cons.mpr ⟨?_, hp⟩
      intro c hc
      rcases List.mem_cons.mp hc with h | h
      · rw [h]; unfold Gap; omega
      · have := hRs c h
        unfold Gap at *
        omega

/-! ### `InsertOccList` keeps the list well-formed -/

theorem wf_absorb (P : List OcclusionRec) (M : OcclusionRec) (T : List OcclusionRec)
    (hP : P.Pairwise Gap) (hPle : ∀ r ∈ P, r.left ≤ r.rght)
    (hT : T.Pairwise Gap) (hTle : ∀ r ∈ T, r.left ≤ r.rght ∧ r.rght ≤ INT_MAX)
    (hPT : ∀ a ∈ P, ∀ r ∈ T, Gap a r) (hPM : ∀ a ∈ P, Gap a M)
    (hM : M.left ≤ M.rght) (hMmin : INT_MIN ≤ M.rght + 1) (hMmax : M.rght < INT_MAX)
    (hlast : T.getLast?.map OcclusionRec.rght = some INT_MAX) (hne : T ≠ [])
    (hhead : (P ≠ [] ∧ P.head?.map OcclusionRec.left = some INT_MIN) ∨
      (P = [] ∧ M.left = INT_MIN ∧ ∀ r ∈ T, M.left ≤ r.left)) :
    WellFormed (P ++ absorb M T) := by
  apply wf_of_parts
  · rcases hhead with ⟨h1, h2⟩ | ⟨h1, h2, h3⟩
    · rw [List.head?_append_of_ne_nil _ h1]; exact h2
    · rw [h1, List.nil_append, absorb_head T M h3, h2]
  · rw [List.getLast?_append_of_ne_nil _ (absorb_ne_nil T M)]
    apply absorb_last T M (by omega) (fun r hr => (hTle r hr).2)
    obtain ⟨c, T2, hc⟩ := List.exists_cons_of_ne_nil hne
    rw [hc, List.getLast?_cons_cons, ← hc]
    exact hlast
  · intro r hr
    rcases List.mem_append.mp hr with h | h
    · exact hPle r h
    · exact absorb_le T M hM (fun r hr => (hTle r hr).1) r h
  · refine List.pairwise_append.mpr ⟨hP, ?_, ?_⟩
    · exact absorb_pairwise T M hMmin (fun _ => hMmax) (by omega) hTle hT
    · intro a ha b hb
      have h1 : a.rght + 1 < M.left := hPM a ha
      have h2 : ∀ r ∈ T, a.rght + 1 < r.left := fun r hr => hPT a ha r hr
      exact absorb_lower T M (a.rght + 1) h1 h2 b hb

theorem headD_of_wf (e : OcclusionRec) (lst : OccListType) (h : WellFormed lst) :
    (lst.headD e).left = INT_MIN ∧ (lst.getLastD e).rght = INT_MAX := by
  obtain ⟨hh, hl, _, _⟩ := h
  constructor
  · cases lst with
    | nil => simp at hh
    | cons a l => simpa using hh
  · rcases List.eq_nil_or_concat lst with h0 | ⟨l, z, h0⟩
    · rw [h0] at hl; simp at hl
    · rw [List.concat_eq_append] at h0
      subst h0
      have hz : z.rght = INT_MAX := by simpa using hl
      rw [List.getLastD_eq_getLast?]
      simpa using hz

/-- The facts a well-formed list gives at a pair of neighbours `(L, R)`. -/
theorem wf_split_facts (pre : List OcclusionRec) (L R : OcclusionRec) (suf : List OcclusionRec)
    (h : WellFormed (pre ++ L :: R :: suf)) :
    pre.Pairwise Gap ∧ (∀ r ∈ pre, r.left ≤ r.rght) ∧ (R :: suf).Pairwise Gap ∧
    (∀ r ∈ R :: suf, r.left ≤ r.rght ∧ r.rght ≤ INT_MAX) ∧
    (∀ a ∈ pre, ∀ r ∈ R :: suf, Gap a r) ∧ (∀ a ∈ pre, Gap a L) ∧
    (∀ r ∈ R :: suf, Gap L r) ∧
    (R :: suf).getLast?.map OcclusionRec.rght = some INT_MAX ∧
    (pre = [] → L.left = INT_MIN) ∧
    (pre ≠ [] → pre.head?.map OcclusionRec.left = some INT_MIN) := by
  have hp := wf_pairwise _ h
  have hr := wf_range _ h
  obtain ⟨hh, hl, hle, _⟩ := h
  have hpa := List.pairwise_append.mp hp
  have hpc := List.pairwise_cons.mp hpa.2.1
  refine ⟨hpa.1, fun r hr => hle r (by simp [hr]), hpc.2, ?_, ?_, ?_, hpc.1, ?_, ?_, ?_⟩
  · intro r hr1
    have hm : r ∈ pre ++ L :: R :: suf := by
      simp only [List.mem_append, List.mem_cons] at hr1 ⊢
      tauto
    exact ⟨hle r hm, (hr r hm).2⟩
  · intro a ha r hr1
    exact hpa.2.2 a ha r (List.mem_cons_of_mem _ hr1)
  · intro a ha
    exact hpa.2.2 a ha L (by simp)
  · have : pre ++ L :: R :: suf = (pre ++ [L]) ++ (R :: suf) := by simp
    rw [this, List.getLast?_append_of_ne_nil _ (by simp)] at hl
    exact hl
  · intro h0
    subst h0
    simpa using hh
  · intro h0
    rw [List.head?_append_of_ne_nil _ h0] at hh
    exact hh

theorem insertAt_wellFormed (e : OcclusionRec) (pre : List OcclusionRec) (L R : OcclusionRec)
    (suf : List OcclusionRec) (rec : OcclusionRec)
    (hwf : WellFormed (pre ++ L :: R :: suf)) (hrec : ProperRec rec) :
    WellFormed (insertAt e (pre ++ L :: R :: suf) rec pre.length (pre.length + 1)).lst := by
  obtain ⟨hP, hPle, hT, hTle, hPT, hPL, hLT, hlast, hh1, hh2⟩ := wf_split_facts pre L R suf hwf
  obtain ⟨hg, _, hLmin, hLle, _, _⟩ := wf_not_last pre L R suf hwf
  obtain ⟨hr1, hr2, hr3⟩ := hrec
  have hTle2 := hTle R (by simp)
  have hw : wrapInt (L.rght + 1) = L.rght + 1 := wrapInt_eq _ (by omega) (by omega)
  rw [insertAt_split, hw]
  by_cases hx : L.rght + 1 ≥ rec.left
  · rw [if_pos hx]
    apply wf_absorb pre _ (R :: suf) hP hPle hT hTle hPT
    · intro a ha; exact hPL a ha
    · show L.left ≤ max L.rght rec.rght
      simp only [le_max_iff]; omega
    · show INT_MIN ≤ max L.rght rec.rght + 1
      have : L.rght ≤ max L.rght rec.rght := le_max_left _ _
      omega
    · show max L.rght rec.rght < INT_MAX
      simp only [max_lt_iff]; omega
    · exact hlast
    · simp
    · by_cases hpre : pre = []
      · right
        refine ⟨hpre, hh1 hpre, ?_⟩
        intro r hr
        have := hLT r hr
        unfold Gap at this
        show L.left ≤ r.left
        omega
      · left; exact ⟨hpre, hh2 hpre⟩
  · rw [if_neg hx]
    have hsplit : pre ++ L :: absorb rec (R :: suf) = (pre ++ [L]) ++ absorb rec (R :: suf) := by
      simp
    show WellFormed (pre ++ L :: absorb rec (R :: suf))
    rw [hsplit]
    apply wf_absorb (pre ++ [L]) rec (R :: suf) _ _ hT hTle _ _ hr2 (by omega) hr3 hlast (by simp)
    · left
      refine ⟨by simp, ?_⟩
      by_cases hpre : pre = []
      · subst hpre; simpa using hh1 rfl
      · rw [List.head?_append_of_ne_nil _ hpre]; exact hh2 hpre
    · refine List.pairwise_append.mpr ⟨hP, by simp, ?_⟩
      intro a ha b hb
      have : b = L := by simpa using hb
      rw [this]; exact hPL a ha
    · intro r hr
      rcases List.mem_append.mp hr with h | h
      · exact hPle r h
      · have : r = L := by simpa using h
        rw [this]; exact hLle
    · intro a ha r hr
      rcases List.mem_append.mp ha with h | h
      · exact hPT a h r hr
      · have : a = L := by simpa using h
        rw [this]; exact hLT r hr
    · intro a ha
      rcases List.mem_append.mp ha with h | h
      · have := hPL a h
        unfold Gap at *
        omega
      · have : a = L := by simpa using h
        rw [this]; unfold Gap; omega

/-- A call of `InsertOccList` with a record `left <= rght < INT_MAX` keeps a
well-formed list well-formed. -/
theorem InsertOccList_wellFormed (e : OcclusionRec) (lst : OccListType) (rec : OcclusionRec)
    (c1 c2 : Int) (hwf : WellFormed lst) (hrec : ProperRec rec) :
    WellFormed (InsertOccList e lst rec c1 c2).lst := by
  by_cases hlen : lst.length < 2
  · unfold InsertOccList
    rw [if_pos hlen]
    exact hwf
  · obtain ⟨hh, hl⟩ := headD_of_wf e lst hwf
    rcases InsertOccList_cases e lst rec c1 c2 (by omega) hh hl with
      ⟨h1, _, _⟩ | ⟨pre, L, R, suf, hs, _, _, _, h4⟩
    · rw [h1]; exact hwf
    · rw [h4]
      rw [hs] at hwf
      exact insertAt_wellFormed e pre L R suf rec hwf hrec

/-! ### Runs of calls -/

theorem InitOccList_wellFormed (W : Int) (hW1 : 1 ≤ W) (hW2 : W ≤ INT_MAX) :
    WellFormed (InitOccList W) := by
  unfold InitOccList WellFormed
  refine ⟨by simp, by simp, ?_, ?_⟩
  · intro r hr
    simp only [List.mem_cons, List.mem_singleton, List.not_mem_nil, or_false] at hr
    rcases hr with h | h
    · rw [h]; simp [INT_MIN]
    · rw [h]; exact hW2
  · simp only [List.chain'_cons, List.chain'_singleton, and_true]
    unfold Gap
    simp only
    omega

theorem insertAll_wellFormed (e : OcclusionRec) : ∀ (recs : List OcclusionRec) (lst : OccListType),
    WellFormed lst → (∀ r ∈ recs, ProperRec r) → WellFormed (insertAll e lst recs).1 := by
  intro recs
  induction recs with
  | nil => intro lst h _; exact h
  | cons rec recs ih =>
    intro lst h hr
    rw [insertAll]
    exact ih _ (InsertOccList_wellFormed e lst rec 0 0 h (hr rec (by simp)))
      (fun r hr2 => hr r (List.mem_cons_of_mem _ hr2))

theorem wf_sorted (lst : OccListType) (h : WellFormed lst) :
    SortedLR lst ∧ PairwiseDisjoint lst ∧ NonAdjacent lst := by
  have hp := wf_pairwise lst h
  obtain ⟨_, _, hle, hc⟩ := h
  refine ⟨?_, ?_, ?_⟩
  · unfold SortedLR
    refine List.Pairwise.imp_of_mem ?_ hp
    intro a b ha hb hg
    have h1 := hle a ha
    have h2 := hle b hb
    unfold Gap at hg
    constructor <;> omega
  · unfold PairwiseDisjoint
    refine List.Pairwise.imp ?_ hp
    intro a b hg x hx
    unfold Gap at hg
    unfold InRec at hx
    omega
  · unfold NonAdjacent
    refine List.Chain'.imp ?_ hc
    intro a b hg
    unfold Gap at hg
    omega

/-- A two-interval list `(INT_MIN, a)`, `(b, INT_MAX)` with a free column between
the two is well-formed. -/
theorem InitOccList_wellFormed_at (a b : Int) (ha : INT_MIN ≤ a) (hab : a + 1 < b)
    (hb : b ≤ INT_MAX) : WellFormed [⟨INT_MIN, a⟩, ⟨b, INT_MAX⟩] := by
  unfold WellFormed
  refine ⟨by simp, by simp, ?_, ?_⟩
  · intro r hr
    simp only [List.mem_cons, List.mem_singleton, List.not_mem_nil, or_false] at hr
    rcases hr with h | h
    · rw [h]; exact ha
    · rw [h]; exact hb
  · simp only [List.chain'_cons, List.chain'_singleton, and_true]
    exact hab

/-! ### Columns covered by the list and clip ranges -/

theorem covered_append (l1 l2 : List OcclusionRec) (x : Int) :
    Covered (l1 ++ l2) x ↔ Covered l1 x ∨ Covered l2 x := by
  unfold Covered
  constructor
  · rintro ⟨r, hr, hx⟩
    rcases List.mem_append.mp hr with h | h
    · exact Or.inl ⟨r, h, hx⟩
    · exact Or.inr ⟨r, h, hx⟩
  · rintro (⟨r, hr, hx⟩ | ⟨r, hr, hx⟩)
    · exact ⟨r, List.mem_append_left _ hr, hx⟩
    · exact ⟨r, List.mem_append_right _ hr, hx⟩

theorem covered_cons (a : OcclusionRec) (l : List OcclusionRec) (x : Int) :
    Covered (a :: l) x ↔ InRec a x ∨ Covered l x := by
  unfold Covered
  simp

/-- Steps 3 and 4 never take a column out of the list. -/
theorem insertAt_covered_mono (e : OcclusionRec) (pre : List OcclusionRec) (L R : OcclusionRec)
    (suf : List OcclusionRec) (rec : OcclusionRec) (x : Int)
    (h : Covered (pre ++ L :: R :: suf) x) :
    Covered (insertAt e (pre ++ L :: R :: suf) rec pre.length (pre.length + 1)).lst x := by
  rw [insertAt_split]
  rw [covered_append, covered_cons] at h
  split
  · show Covered (pre ++ absorb _ (R :: suf)) x
    rw [covered_append]
    rcases h with h | h | h
    · exact Or.inl h
    · right
      apply absorb_covered
      rw [covered_cons]
      left
      unfold InRec at *
      simp only [le_max_iff]
      omega
    · right
      apply absorb_covered
      rw [covered_cons]
      exact Or.inr h
  · show Covered (pre ++ L :: absorb rec (R :: suf)) x
    rw [covered_append, covered_cons]
    rcases h with h | h | h
    · exact Or.inl h
    · exact Or.inr (Or.inl h)
    · right; right
      apply absorb_covered
      rw [covered_cons]
      exact Or.inr h

/-- A call of `InsertOccList` never takes a column out of the list. -/
theorem InsertOccList_covered_mono (e : OcclusionRec) (lst : OccListType) (rec : OcclusionRec)
    (c1 c2 : Int) (x : Int) (h : Covered lst x) :
    Covered (InsertOccList e lst rec c1 c2).lst x := by
  by_cases hlen : lst.length < 2
  · unfold InsertOccList
    rw [if_pos hlen]; exact h
  · by_cases hb : (lst.headD e).left ≠ INT_MIN ∨ (lst.getLastD e).rght ≠ INT_MAX
    · unfold InsertOccList
      rw [if_neg hlen, if_pos hb]; exact h
    · have hh : (lst.headD e).left = INT_MIN := by
        by_contra h0; exact hb (Or.inl h0)
      have hl : (lst.getLastD e).rght = INT_MAX := by
        by_contra h0; exact hb (Or.inr h0)
      rcases InsertOccList_cases e lst rec c1 c2 (by omega) hh hl with
        ⟨h1, _, _⟩ | ⟨pre, L, R, suf, hs, _, _, _, h4⟩
      · rw [h1]; exact h
      · rw [h4]
        rw [hs] at h
        exact insertAt_covered_mono e pre L R suf rec x h

/-- Between two neighbours of a well-formed list no column is covered. -/
theorem gap_not_covered (pre : List OcclusionRec) (L R : OcclusionRec) (suf : List OcclusionRec)
    (hwf : WellFormed (pre ++ L :: R :: suf)) (x : Int) (h1 : L.rght < x) (h2 : x < R.left) :
    ¬ Covered (pre ++ L :: R :: suf) x := by
  obtain ⟨_, _, _, hTle, _, hPL, hLT, _, _, _⟩ := wf_split_facts pre L R suf hwf
  obtain ⟨_, _, _, hLle, hRle, _⟩ := wf_not_last pre L R suf hwf
  rintro ⟨r, hr, hx⟩
  unfold InRec at hx
  rcases List.mem_append.mp hr with h | h
  · have := hPL r h
    unfold Gap at this
    omega
  · rcases List.mem_cons.mp h with h | h
    · rw [h] at hx; omega
    · rcases List.mem_cons.mp h with h | h
      · rw [h] at hx; omega
      · have hg : Gap R r := (List.pairwise_cons.mp
          (wf_split_facts pre L R suf hwf).2.2.1).1 r h
        unfold Gap at hg
        omega

/-- The clip range returned by steps 3 and 4 lies inside the record and strictly
between the two neighbours found by the scan. -/
theorem insertAt_clip_bounds (e : OcclusionRec) (pre : List OcclusionRec) (L R : OcclusionRec)
    (suf : List OcclusionRec) (rec : OcclusionRec)
    (hwf : WellFormed (pre ++ L :: R :: suf)) (hrec : ProperRec rec) :
    L.rght < (insertAt e (pre ++ L :: R :: suf) rec pre.length (pre.length + 1)).nClipLeft ∧
    rec.left ≤ (insertAt e (pre ++ L :: R :: suf) rec pre.length (pre.length + 1)).nClipLeft ∧
    (insertAt e (pre ++ L :: R :: suf) rec pre.length (pre.length + 1)).nClipRght < R.left ∧
    (insertAt e (pre ++ L :: R :: suf) rec pre.length (pre.length + 1)).nClipRght ≤ rec.rght ∧
    ((insertAt e (pre ++ L :: R :: suf) rec pre.length (pre.length + 1)).nClipLeft = L.rght + 1 ∧
        (insertAt e (pre ++ L :: R :: suf) rec pre.length (pre.length + 1)).lst =
          pre ++ absorb ⟨L.left, max L.rght rec.rght⟩ (R :: suf) ∨
      (insertAt e (pre ++ L :: R :: suf) rec pre.length (pre.length + 1)).lst =
          pre ++ L :: absorb rec (R :: suf)) := by
  obtain ⟨hg, hRmax, hLmin, hLle, hRle, _⟩ := wf_not_last pre L R suf hwf
  obtain ⟨hr1, hr2, hr3⟩ := hrec
  have hw : wrapInt (L.rght + 1) = L.rght + 1 := wrapInt_eq _ (by omega) (by omega)
  have hw2 : wrapInt (R.left - 1) = R.left - 1 := wrapInt_eq _ (by omega) (by omega)
  have hw3 : wrapInt (rec.rght + 1) = rec.rght + 1 := wrapInt_eq _ (by omega) (by omega)
  have hw4 : wrapInt (max L.rght rec.rght + 1) = max L.rght rec.rght + 1 := by
    apply wrapInt_eq
    · have := le_max_left L.rght rec.rght; omega
    · have : max L.rght rec.rght < INT_MAX := by simp only [max_lt_iff]; omega
      omega
  rw [insertAt_split, hw, hw2, hw3, hw4]
  by_cases hx : L.rght + 1 ≥ rec.left
  · rw [if_pos hx]
    by_cases hy : max L.rght rec.rght + 1 ≥ R.left
    · rw [if_pos hy]
      have hy2 : rec.rght + 1 ≥ R.left := by
        rcases le_total L.rght rec.rght with h | h
        · rw [max_eq_right h] at hy; exact hy
        · rw [max_eq_left h] at hy; omega
      refine ⟨?_, ?_, ?_, ?_, Or.inl ⟨rfl, rfl⟩⟩
      · show L.rght < L.rght + 1; omega
      · show rec.left ≤ L.rght + 1; omega
      · show R.left - 1 < R.left; omega
      · show R.left - 1 ≤ rec.rght; omega
    · rw [if_neg hy]
      have hy2 : rec.rght + 1 < R.left := by
        have := le_max_right L.rght rec.rght
        omega
      refine ⟨?_, ?_, ?_, ?_, Or.inl ⟨rfl, rfl⟩⟩
      · show L.rght < L.rght + 1; omega
      · show rec.left ≤ L.rght + 1; omega
      · show rec.rght < R.left; omega
      · show rec.rght ≤ rec.rght; omega
  · rw [if_neg hx]
    by_cases hy : rec.rght + 1 ≥ R.left
    · rw [if_pos hy]
      refine ⟨?_, ?_, ?_, ?_, Or.inr rfl⟩
      · show L.rght < rec.left; omega
      · show rec.left ≤ rec.left; omega
      · show R.left - 1 < R.left; omega
      · show R.left - 1 ≤ rec.rght; omega
    · rw [if_neg hy]
      refine ⟨?_, ?_, ?_, ?_, Or.inr rfl⟩
      · show L.rght < rec.left; omega
      · show rec.left ≤ rec.left; omega
      · show rec.rght < R.left; omega
      · show rec.rght ≤ rec.rght; omega

/-- The clip range of an accepted call was free before the call and is covered
after it. -/
theorem InsertOccList_clip (e : OcclusionRec) (lst : OccListType) (rec : OcclusionRec)
    (c1 c2 : Int) (hwf : WellFormed lst) (hrec : ProperRec rec)
    (hret : (InsertOccList e lst rec c1 c2).ret = true) (x : Int)
    (h1 : (InsertOccList e lst rec c1 c2).nClipLeft ≤ x)
    (h2 : x ≤ (InsertOccList e lst rec c1 c2).nClipRght) :
    ¬ Covered lst x ∧ Covered (InsertOccList e lst rec c1 c2).lst x := by
  by_cases hlen : lst.length < 2
  · unfold InsertOccList at hret
    rw [if_pos hlen] at hret
    simp at hret
  · obtain ⟨hh, hl⟩ := headD_of_wf e lst hwf
    rcases InsertOccList_cases e lst rec c1 c2 (by omega) hh hl with
      ⟨h3, _, _⟩ | ⟨pre, L, R, suf, hs, _, _, _, h4⟩
    · rw [h3] at hret; simp at hret
    · rw [h4] at h1 h2 ⊢
      rw [hs] at hwf ⊢
      obtain ⟨b1, b2, b3, b4, b5⟩ := insertAt_clip_bounds e pre L R suf rec hwf hrec
      obtain ⟨_, _, _, hLle, _, _⟩ := wf_not_last pre L R suf hwf
      refine ⟨gap_not_covered pre L R suf hwf x (by omega) (by omega), ?_⟩
      rcases b5 with ⟨b6, b7⟩ | b7
      · rw [b7, covered_append]
        right
        apply absorb_covered
        rw [covered_cons]
        left
        unfold InRec
        show L.left ≤ x ∧ x ≤ max L.rght rec.rght
        simp only [le_max_iff]
        omega
      · rw [b7, covered_append, covered_cons]
        right; right
        apply absorb_covered
        rw [covered_cons]
        left
        unfold InRec
        omega

theorem insertAll_clips (e : OcclusionRec) : ∀ (recs : List OcclusionRec) (lst : OccListType),
    WellFormed lst → (∀ r ∈ recs, ProperRec r) →
    (∀ c ∈ (insertAll e lst recs).2, ∀ x : Int, c.1 ≤ x → x ≤ c.2 → ¬ Covered lst x) ∧
    ClipsDisjoint (insertAll e lst recs).2 := by
  intro recs
  induction recs with
  | nil =>
    intro lst _ _
    simp [insertAll, ClipsDisjoint]
  | cons rec recs ih =>
    intro lst hwf hr
    have hrec : ProperRec rec := hr rec (by simp)
    have hwf2 := InsertOccList_wellFormed e lst rec 0 0 hwf hrec
    obtain ⟨ih1, ih2⟩ := ih _ hwf2 (fun r hr2 => hr r (List.mem_cons_of_mem _ hr2))
    have hfree : ∀ c ∈ (insertAll e (InsertOccList e lst rec 0 0).lst recs).2,
        ∀ x : Int, c.1 ≤ x → x ≤ c.2 → ¬ Covered lst x := by
      intro c hc x hx1 hx2 hcov
      exact ih1 c hc x hx1 hx2 (InsertOccList_covered_mono e lst rec 0 0 x hcov)
    rw [insertAll]
    by_cases hret : (InsertOccList e lst rec 0 0).ret = true
    · simp only [hret, if_true]
      constructor
      · intro c hc x hx1 hx2
        rcases List.mem_cons.mp hc with h | h
        · rw [h] at hx1 hx2
          exact (InsertOccList_clip e lst rec 0 0 hwf hrec hret x hx1 hx2).1
        · exact hfree c h x hx1 hx2
      · unfold ClipsDisjoint
        refine List.pairwise_cons.mpr ⟨?_, ih2⟩
        intro c hc x hx
        have h3 := (InsertOccList_clip e lst rec 0 0 hwf hrec hret x hx.1.1 hx.1.2).2
        exact ih1 c hc x hx.2.1 hx.2.2 h3
    · simp only [hret, Bool.false_eq_true, if_false]
      exact ⟨hfree, ih2⟩

/-! ### Claims on the occlusion list -/

/-- C1 (amended): starting from the list built by `InitOccList` for a screen width
`1 <= W`, after any finite run of `InsertOccList` calls whose records satisfy
`left <= rght < INT_MAX`, the list is sorted left to right, its intervals are pairwise
disjoint, no neighbouring pair has `next.left <= prev.rght + 1`, and every interval has
`left <= rght`. -/
theorem C1_invariant_after_inserts (e : OcclusionRec) (W : Int) (recs : List OcclusionRec)
    (hW1 : 1 ≤ W) (hW2 : W ≤ INT_MAX) (hrecs : ∀ r ∈ recs, ProperRec r) :
    SortedLR (insertAll e (InitOccList W) recs).1 ∧
    PairwiseDisjoint (insertAll e (InitOccList W) recs).1 ∧
    NonAdjacent (insertAll e (InitOccList W) recs).1 ∧
    (∀ r ∈ (insertAll e (InitOccList W) recs).1, r.left ≤ r.rght) := by
  have hwf := insertAll_wellFormed e recs (InitOccList W) (InitOccList_wellFormed W hW1 hW2) hrecs
  obtain ⟨h1, h2, h3⟩ := wf_sorted _ hwf
  exact ⟨h1, h2, h3, hwf.2.2.1⟩

/-- C1 witness: the run `[0,100]`, `[50,150]`, `[200,300]` on a width-400 list. -/
theorem C1_invariant_after_inserts_witness :
    ((1 : Int) ≤ 400 ∧ (400 : Int) ≤ INT_MAX ∧
      ∀ r ∈ [(⟨0, 100⟩ : OcclusionRec), ⟨50, 150⟩, ⟨200, 300⟩], ProperRec r) ∧
    (SortedLR (insertAll ⟨0, 0⟩ (InitOccList 400) [⟨0, 100⟩, ⟨50, 150⟩, ⟨200, 300⟩]).1 ∧
     PairwiseDisjoint (insertAll ⟨0, 0⟩ (InitOccList 400) [⟨0, 100⟩, ⟨50, 150⟩, ⟨200, 300⟩]).1 ∧
     NonAdjacent (insertAll ⟨0, 0⟩ (InitOccList 400) [⟨0, 100⟩, ⟨50, 150⟩, ⟨200, 300⟩]).1 ∧
     (∀ r ∈ (insertAll ⟨0, 0⟩ (InitOccList 400) [⟨0, 100⟩, ⟨50, 150⟩, ⟨200, 300⟩]).1,
        r.left ≤ r.rght)) :=
  ⟨⟨by decide, by decide, by decide⟩,
   C1_invariant_after_inserts ⟨0, 0⟩ 400 [⟨0, 100⟩, ⟨50, 150⟩, ⟨200, 300⟩]
     (by decide) (by decide) (by decide)⟩

/-- C1 counterexample: with arbitrary records the invariant is lost.  On a width-400
list the run `[10,3]`, `[5,20]`, `[4,8]` (the first record has `left > rght`) leaves
`(4,8)` before `(10,3)` before `(5,20)`: not sorted, and `(4,8)`, `(5,20)` share the
columns 5..8.  The single record `[0,INT_MAX]` leaves `(INT_MIN,INT_MAX)` followed by
`(400,INT_MAX)`: overlapping neighbours. -/
theorem C1_counterexample :
    (insertAll ⟨0, 0⟩ (InitOccList 400) [⟨10, 3⟩, ⟨5, 20⟩, ⟨4, 8⟩]).1 =
      [⟨INT_MIN, -1⟩, ⟨4, 8⟩, ⟨10, 3⟩, ⟨5, 20⟩, ⟨400, INT_MAX⟩] ∧
    ¬ SortedLR (insertAll ⟨0, 0⟩ (InitOccList 400) [⟨10, 3⟩, ⟨5, 20⟩, ⟨4, 8⟩]).1 ∧
    ¬ PairwiseDisjoint (insertAll ⟨0, 0⟩ (InitOccList 400) [⟨10, 3⟩, ⟨5, 20⟩, ⟨4, 8⟩]).1 ∧
    (insertAll ⟨0, 0⟩ (InitOccList 400) [⟨0, INT_MAX⟩]).1 =
      [⟨INT_MIN, INT_MAX⟩, ⟨400, INT_MAX⟩] ∧
    ¬ NonAdjacent (insertAll ⟨0, 0⟩ (InitOccList 400) [⟨0, INT_MAX⟩]).1 ∧
    ¬ PairwiseDisjoint (insertAll ⟨0, 0⟩ (InitOccList 400) [⟨0, INT_MAX⟩]).1 := by
  have h1 : (insertAll ⟨0, 0⟩ (InitOccList 400) [⟨10, 3⟩, ⟨5, 20⟩, ⟨4, 8⟩]).1 =
      [⟨INT_MIN, -1⟩, ⟨4, 8⟩, ⟨10, 3⟩, ⟨5, 20⟩, ⟨400, INT_MAX⟩] := by rfl
  have h2 : (insertAll ⟨0, 0⟩ (InitOccList 400) [⟨0, INT_MAX⟩]).1 =
      [⟨INT_MIN, INT_MAX⟩, ⟨400, INT_MAX⟩] := by rfl
  refine ⟨h1, ?_, ?_, h2, ?_, ?_⟩
  · rw [h1]; decide
  · rw [h1]
    intro h
    unfold PairwiseDisjoint at h
    have h3 := (List.pairwise_cons.mp (List.pairwise_cons.mp h).2).1 ⟨5, 20⟩ (by simp)
    exact h3 5 (by decide)
  · rw [h2]
    intro h
    unfold NonAdjacent at h
    have h3 := (List.chain'_cons.mp h).1
    exact h3 (by decide)
  · rw [h2]
    intro h
    unfold PairwiseDisjoint at h
    have h3 := (List.pairwise_cons.mp h).1 ⟨400, INT_MAX⟩ (by simp)
    exact h3 400 (by decide)

theorem scanLoop_short (e : OcclusionRec) (lst : OccListType) (rec : OcclusionRec)
    (h : lst.length < 2) : (scanLoop e lst rec lst.length 0 1).1 = false := by
  cases lst with
  | nil => simp [scanLoop]
  | cons a l =>
    cases l with
    | nil => simp [scanLoop, scanTest]
    | cons b l2 => simp only [List.length_cons] at h; omega

/-- C3 (amended): for a well-formed list and a record with `left <= rght < INT_MAX`,
when the scan of `InsertOccList` finds the insertion pair `(prev, next)` at the
iterators `(i, i + 1)`, the call returns `nClipLeft = max(rec.left, prev.rght + 1)` and
`nClipRght = min(rec.rght, next.left - 1)` (`prev`, `next` read before the call), the
clip range is exactly the part of `rec` strictly between `prev` and `next`, and the call
returns `true` iff that range is non-empty. -/
theorem C3_clip_values (e : OcclusionRec) (lst : OccListType) (rec : OcclusionRec)
    (c1 c2 : Int) (i : Nat) (hwf : WellFormed lst) (hrec : ProperRec rec)
    (hfound : scanLoop e lst rec lst.length 0 1 = (true, i, i + 1)) :
    (InsertOccList e lst rec c1 c2).nClipLeft = max rec.left ((deref e lst i).rght + 1) ∧
    (InsertOccList e lst rec c1 c2).nClipRght = min rec.rght ((deref e lst (i + 1)).left - 1) ∧
    (∀ x : Int, ((InsertOccList e lst rec c1 c2).nClipLeft ≤ x ∧
        x ≤ (InsertOccList e lst rec c1 c2).nClipRght) ↔
      (InRec rec x ∧ (deref e lst i).rght < x ∧ x < (deref e lst (i + 1)).left)) ∧
    ((InsertOccList e lst rec c1 c2).ret = true ↔
      (InsertOccList e lst rec c1 c2).nClipLeft ≤ (InsertOccList e lst rec c1 c2).nClipRght) := by
  have hlen : ¬ lst.length < 2 := by
    intro h
    have := scanLoop_short e lst rec h
    rw [hfound] at this
    simp at this
  obtain ⟨hh, hl⟩ := headD_of_wf e lst hwf
  rcases InsertOccList_cases e lst rec c1 c2 (by omega) hh hl with
    ⟨_, h2, _⟩ | ⟨pre, L, R, suf, hs, _, h2, _, h4⟩
  · rw [hfound] at h2; simp at h2
  · rw [hfound] at h2
    have hi : i = pre.length := by
      have := congrArg (fun p => p.2.1) h2
      simpa using this
    rw [hs] at hwf
    obtain ⟨hg, hRmax, hLmin, hLle, hRle, _⟩ := wf_not_last pre L R suf hwf
    obtain ⟨hr1, hr2, hr3⟩ := hrec
    have hw : wrapInt (L.rght + 1) = L.rght + 1 := wrapInt_eq _ (by omega) (by omega)
    have hw2 : wrapInt (R.left - 1) = R.left - 1 := wrapInt_eq _ (by omega) (by omega)
    have hw3 : wrapInt (rec.rght + 1) = rec.rght + 1 := wrapInt_eq _ (by omega) (by omega)
    have hw4 : wrapInt (max L.rght rec.rght + 1) = max L.rght rec.rght + 1 := by
      apply wrapInt_eq
      · have := le_max_left L.rght rec.rght; omega
      · have : max L.rght rec.rght < INT_MAX := by simp only [max_lt_iff]; omega
        omega
    have hL : deref e lst i = L := by rw [hs, hi]; exact deref_left e pre L (R :: suf)
    have hR : deref e lst (i + 1) = R := by rw [hs, hi]; exact deref_rght e pre L R suf
    rw [h4, insertAt_split, hL, hR, hw, hw2, hw3, hw4]
    unfold InRec
    by_cases hx : L.rght + 1 ≥ rec.left
    · rw [if_pos hx]
      by_cases hy : max L.rght rec.rght + 1 ≥ R.left
      · rw [if_pos hy]
        have hy2 : rec.rght + 1 ≥ R.left := by
          rcases le_total L.rght rec.rght with h | h
          · rw [max_eq_right h] at hy; exact hy
          · rw [max_eq_left h] at hy; omega
        refine ⟨?_, ?_, ?_, ?_⟩
        · show L.rght + 1 = max rec.left (L.rght + 1)
          rw [max_eq_right hx]
        · show R.left - 1 = min rec.rght (R.left - 1)
          rw [min_eq_right (by omega)]
        · intro x
          show (L.rght + 1 ≤ x ∧ x ≤ R.left - 1) ↔ _
          constructor <;> intro h <;> omega
        · simp
      · rw [if_neg hy]
        have hy2 : rec.rght + 1 < R.left := by
          have := le_max_right L.rght rec.rght
          omega
        refine ⟨?_, ?_, ?_, ?_⟩
        · show L.rght + 1 = max rec.left (L.rght + 1)
          rw [max_eq_right hx]
        · show rec.rght = min rec.rght (R.left - 1)
          rw [min_eq_left (by omega)]
        · intro x
          show (L.rght + 1 ≤ x ∧ x ≤ rec.rght) ↔ _
          constructor <;> intro h <;> omega
        · simp
    · rw [if_neg hx]
      by_cases hy : rec.rght + 1 ≥ R.left
      · rw [if_pos hy]
        refine ⟨?_, ?_, ?_, ?_⟩
        · show rec.left = max rec.left (L.rght + 1)
          rw [max_eq_left (by omega)]
        · show R.left - 1 = min rec.rght (R.left - 1)
          rw [min_eq_right (by omega)]
        · intro x
          show (rec.left ≤ x ∧ x ≤ R.left - 1) ↔ _
          constructor <;> intro h <;> omega
        · simp
      · rw [if_neg hy]
        refine ⟨?_, ?_, ?_, ?_⟩
        · show rec.left = max rec.left (L.rght + 1)
          rw [max_eq_left (by omega)]
        · show rec.rght = min rec.rght (R.left - 1)
          rw [min_eq_left (by omega)]
        · intro x
          show (rec.left ≤ x ∧ x ≤ rec.rght) ↔ _
          constructor <;> intro h <;> omega
        · simp

/-- C3 witness: the second call of the run `[0,100]`, `[50,150]`, `[200,300]` on a
width-400 list, and the whole run: clips `[0,100]`, `[101,150]`, `[200,300]`, final list
`(INT_MIN,150)`, `(200,300)`, `(400,INT_MAX)`. -/
theorem C3_clip_values_witness :
    (WellFormed [⟨INT_MIN, 100⟩, ⟨400, INT_MAX⟩] ∧ ProperRec ⟨50, 150⟩ ∧
      scanLoop ⟨0, 0⟩ [⟨INT_MIN, 100⟩, ⟨400, INT_MAX⟩] ⟨50, 150⟩
        ([⟨INT_MIN, 100⟩, ⟨400, INT_MAX⟩] : OccListType).length 0 1 = (true, 0, 0 + 1)) ∧
    ((InsertOccList ⟨0, 0⟩ [⟨INT_MIN, 100⟩, ⟨400, INT_MAX⟩] ⟨50, 150⟩ 0 0).nClipLeft =
        max (50 : Int) ((deref ⟨0, 0⟩ [⟨INT_MIN, 100⟩, ⟨400, INT_MAX⟩] 0).rght + 1) ∧
      (InsertOccList ⟨0, 0⟩ [⟨INT_MIN, 100⟩, ⟨400, INT_MAX⟩] ⟨50, 150⟩ 0 0).nClipRght =
        min (150 : Int) ((deref ⟨0, 0⟩ [⟨INT_MIN, 100⟩, ⟨400, INT_MAX⟩] (0 + 1)).left - 1) ∧
      (∀ x : Int,
        ((InsertOccList ⟨0, 0⟩ [⟨INT_MIN, 100⟩, ⟨400, INT_MAX⟩] ⟨50, 150⟩ 0 0).nClipLeft ≤ x ∧
          x ≤ (InsertOccList ⟨0, 0⟩ [⟨INT_MIN, 100⟩, ⟨400, INT_MAX⟩] ⟨50, 150⟩ 0 0).nClipRght) ↔
        (InRec ⟨50, 150⟩ x ∧ (deref ⟨0, 0⟩ [⟨INT_MIN, 100⟩, ⟨400, INT_MAX⟩] 0).rght < x ∧
          x < (deref ⟨0, 0⟩ [⟨INT_MIN, 100⟩, ⟨400, INT_MAX⟩] (0 + 1)).left)) ∧
      ((InsertOccList ⟨0, 0⟩ [⟨INT_MIN, 100⟩, ⟨400, INT_MAX⟩] ⟨50, 150⟩ 0 0).ret = true ↔
        (InsertOccList ⟨0, 0⟩ [⟨INT_MIN, 100⟩, ⟨400, INT_MAX⟩] ⟨50, 150⟩ 0 0).nClipLeft ≤
          (InsertOccList ⟨0, 0⟩ [⟨INT_MIN, 100⟩, ⟨400, INT_MAX⟩] ⟨50, 150⟩ 0 0).nClipRght)) ∧
    insertAll ⟨0, 0⟩ (InitOccList 400) [⟨0, 100⟩, ⟨50, 150⟩, ⟨200, 300⟩] =
      ([⟨INT_MIN, 150⟩, ⟨200, 300⟩, ⟨400, INT_MAX⟩], [(0, 100), (101, 150), (200, 300)]) :=
  ⟨⟨InitOccList_wellFormed_at 100 400 (by decide) (by decide) (by decide), by decide, by decide⟩,
   C3_clip_values ⟨0, 0⟩ [⟨INT_MIN, 100⟩, ⟨400, INT_MAX⟩] ⟨50, 150⟩ 0 0 0
     (InitOccList_wellFormed_at 100 400 (by decide) (by decide) (by decide)) (by decide)
     (by decide),
   by rfl⟩

/-- C3 counterexample: the list of `InitOccList` for width 400 is well-formed and the
record `[0, INT_MAX]` has `left <= rght`; the scan finds the pair at `(0, 1)`, but
`(INT_MIN, INT_MAX) .rght + 1` wraps in step 4a and the call returns
`nClipRght = INT_MAX`, not `min(INT_MAX, 400 - 1) = 399`. -/
theorem C3_counterexample :
    WellFormed (InitOccList 400) ∧ (0 : Int) ≤ INT_MAX ∧
    scanLoop ⟨0, 0⟩ (InitOccList 400) ⟨0, INT_MAX⟩ (InitOccList 400).length 0 1 = (true, 0, 1) ∧
    (InsertOccList ⟨0, 0⟩ (InitOccList 400) ⟨0, INT_MAX⟩ 0 0).nClipRght = INT_MAX ∧
    ¬ ((InsertOccList ⟨0, 0⟩ (InitOccList 400) ⟨0, INT_MAX⟩ 0 0).nClipRght =
        min INT_MAX ((deref ⟨0, 0⟩ (InitOccList 400) 1).left - 1)) :=
  ⟨InitOccList_wellFormed 400 (by decide) (by decide), by decide, by decide, by decide,
   by decide⟩

theorem InsertOccList_single (e : OcclusionRec) (a rec : OcclusionRec) (c1 c2 : Int) :
    InsertOccList e [a] rec c1 c2 = ⟨false, [a], c1, c2⟩ := by
  unfold InsertOccList
  simp

theorem insertAll_single (e : OcclusionRec) (a : OcclusionRec) :
    ∀ recs : List OcclusionRec, insertAll e [a] recs = ([a], []) := by
  intro recs
  induction recs with
  | nil => rfl
  | cons rec recs ih =>
    rw [insertAll, InsertOccList_single]
    simp [ih]

/-- C4: for every screen width `1 <= W` (an `int`), inserting `[0, W-1]` into the
freshly initialised list is accepted with clip range `[0, W-1]` and collapses the list
to the single interval `(INT_MIN, INT_MAX)`, so `SizeOccList` returns 1; every call
made after that returns `false` and leaves the list (and the clip arguments) as they
were, whatever the record. -/
theorem C4_full_occlusion (e : OcclusionRec) (W c1 c2 : Int) (hW1 : 1 ≤ W)
    (hW2 : W ≤ INT_MAX) :
    InsertOccList e (InitOccList W) ⟨0, W - 1⟩ c1 c2 =
      ⟨true, [⟨INT_MIN, INT_MAX⟩], 0, W - 1⟩ ∧
    SizeOccList (InsertOccList e (InitOccList W) ⟨0, W - 1⟩ c1 c2).lst = 1 ∧
    (∀ (e1 rec1 : OcclusionRec) (d1 d2 : Int),
      InsertOccList e1 (InsertOccList e (InitOccList W) ⟨0, W - 1⟩ c1 c2).lst rec1 d1 d2 =
        ⟨false, (InsertOccList e (InitOccList W) ⟨0, W - 1⟩ c1 c2).lst, d1, d2⟩) ∧
    (∀ (e1 : OcclusionRec) (recs : List OcclusionRec),
      insertAll e1 (InsertOccList e (InitOccList W) ⟨0, W - 1⟩ c1 c2).lst recs =
        ((InsertOccList e (InitOccList W) ⟨0, W - 1⟩ c1 c2).lst, [])) := by
  have hmain : InsertOccList e (InitOccList W) ⟨0, W - 1⟩ c1 c2 =
      ⟨true, [⟨INT_MIN, INT_MAX⟩], 0, W - 1⟩ := by
    have hmin : INT_MIN = -2147483648 := rfl
    have hmax : INT_MAX = 2147483647 := rfl
    have hsplit : InitOccList W = [] ++ ⟨INT_MIN, -1⟩ :: ⟨W, INT_MAX⟩ :: [] := rfl
    have htest : scanTest e (InitOccList W) ⟨0, W - 1⟩ 0 1 = true := by
      have := scanTest_split e [] ⟨INT_MIN, -1⟩ ⟨W, INT_MAX⟩ [] ⟨0, W - 1⟩
      rw [hsplit]
      simp only [List.length_nil, Nat.zero_add] at this
      rw [this]
      simp [foundAt, InBetween]
    have hscan : scanLoop e (InitOccList W) ⟨0, W - 1⟩ (InitOccList W).length 0 1
        = (true, 0, 1) := by
      show scanLoop e (InitOccList W) ⟨0, W - 1⟩ 2 0 1 = (true, 0, 1)
      rw [scanLoop, if_pos htest]
    have hw0 : wrapInt ((-1 : Int) + 1) = 0 := by decide
    have hw1 : wrapInt (W - 1 + 1) = W := by
      rw [wrapInt_eq _ (by omega) (by omega)]; omega
    have hw2 : wrapInt (W - 1) = W - 1 := wrapInt_eq _ (by omega) (by omega)
    have hmx : max (-1 : Int) (W - 1) = W - 1 := max_eq_right (by omega)
    unfold InsertOccList
    rw [if_neg (by simp [InitOccList]), if_neg (by simp [InitOccList]), hscan]
    simp only [Bool.not_true, Bool.false_eq_true, if_false]
    have := insertAt_split e [] ⟨INT_MIN, -1⟩ ⟨W, INT_MAX⟩ [] ⟨0, W - 1⟩
    simp only [List.length_nil, Nat.zero_add, List.nil_append] at this
    rw [hsplit, List.nil_append, this]
    simp only [hw0, hmx, hw1, hw2, ge_iff_le, le_refl, if_true]
    have habs : absorb ⟨INT_MIN, W - 1⟩ [⟨W, INT_MAX⟩] = [⟨INT_MIN, INT_MAX⟩] := by
      simp only [absorb, hw1, ge_iff_le, le_refl, if_true]
      rw [min_eq_left (by omega), max_eq_right (by omega)]
    rw [habs]
    simp
    omega
  rw [hmain]
  refine ⟨rfl, rfl, ?_, ?_⟩
  · intro e1 rec1 d1 d2
    exact InsertOccList_single e1 _ rec1 d1 d2
  · intro e1 recs
    exact insertAll_single e1 _ recs

/-- C4 witness: the record `[0, 399]` for `W = 400`. -/
theorem C4_full_occlusion_witness :
    ((1 : Int) ≤ 400 ∧ (400 : Int) ≤ INT_MAX) ∧
    (InsertOccList ⟨0, 0⟩ (InitOccList 400) ⟨0, 400 - 1⟩ 0 0 =
      ⟨true, [⟨INT_MIN, INT_MAX⟩], 0, 400 - 1⟩ ∧
    SizeOccList (InsertOccList ⟨0, 0⟩ (InitOccList 400) ⟨0, 400 - 1⟩ 0 0).lst = 1 ∧
    (∀ (e1 rec1 : OcclusionRec) (d1 d2 : Int),
      InsertOccList e1 (InsertOccList ⟨0, 0⟩ (InitOccList 400) ⟨0, 400 - 1⟩ 0 0).lst rec1 d1 d2 =
        ⟨false, (InsertOccList ⟨0, 0⟩ (InitOccList 400) ⟨0, 400 - 1⟩ 0 0).lst, d1, d2⟩) ∧
    (∀ (e1 : OcclusionRec) (recs : List OcclusionRec),
      insertAll e1 (InsertOccList ⟨0, 0⟩ (InitOccList 400) ⟨0, 400 - 1⟩ 0 0).lst recs =
        ((InsertOccList ⟨0, 0⟩ (InitOccList 400) ⟨0, 400 - 1⟩ 0 0).lst, []))) :=
  ⟨⟨by decide, by decide⟩, C4_full_occlusion ⟨0, 0⟩ 400 0 0 (by decide) (by decide)⟩

/-- When the scan of `InsertOccList` matches no pair of neighbours of a well-formed
list (at least two intervals) for a record with `left <= rght`, neither end of the
record is covered by the list: the branch `!bFound` is never taken for a record that is
already occluded. -/
theorem scan_not_found_free (lst : OccListType) (rec : OcclusionRec)
    (hwf : WellFormed lst) (hlen : 2 ≤ lst.length) (hle : rec.left ≤ rec.rght)
    (hmin : INT_MIN ≤ rec.left) (hmax : rec.rght ≤ INT_MAX)
    (hnf : ∀ pre L R suf, lst = pre ++ L :: R :: suf → foundAt rec L R = false) :
    ¬ Covered lst rec.left ∧ ¬ Covered lst rec.rght := by
  constructor
  · rintro ⟨r, hr, hx⟩
    unfold InRec at hx
    obtain ⟨pre, rest, hs⟩ := List.append_of_mem hr
    cases rest with
    | cons R suf =>
      have := hnf pre r R suf hs
      simp only [foundAt, InBetween, Bool.or_eq_false_iff, Bool.and_eq_false_iff,
        decide_eq_false_iff_not] at this
      omega
    | nil =>
      rcases List.eq_nil_or_concat pre with h0 | ⟨p2, L, h0⟩
      · subst h0; rw [hs] at hlen; simp at hlen
      · rw [List.concat_eq_append] at h0
        subst h0
        have hs2 : lst = p2 ++ L :: r :: [] := by rw [hs]; simp
        have hlast : r.rght = INT_MAX := by
          have := hwf.2.1
          rw [hs] at this
          simpa using this
        have := hnf p2 L r [] hs2
        simp only [foundAt, InBetween, Bool.or_eq_false_iff, Bool.and_eq_false_iff,
          decide_eq_false_iff_not] at this
        omega
  · rintro ⟨r, hr, hx⟩
    unfold InRec at hx
    obtain ⟨pre, rest, hs⟩ := List.append_of_mem hr
    rcases List.eq_nil_or_concat pre with h0 | ⟨p2, L, h0⟩
    · subst h0
      have hfirst : r.left = INT_MIN := by
        have := hwf.1
        rw [hs] at this
        simpa using this
      cases rest with
      | nil => rw [hs] at hlen; simp at hlen
      | cons R suf =>
        have := hnf [] r R suf (by rw [hs])
        simp only [foundAt, InBetween, Bool.or_eq_false_iff, Bool.and_eq_false_iff,
          decide_eq_false_iff_not] at this
        omega
    · rw [List.concat_eq_append] at h0
      subst h0
      have hs2 : lst = p2 ++ L :: r :: rest := by rw [hs]; simp
      have := hnf p2 L r rest hs2
      simp only [foundAt, InBetween, Bool.or_eq_false_iff, Bool.and_eq_false_iff,
        decide_eq_false_iff_not] at this
      omega

/-- C5 (the code at the failing input): the list left by inserting `[10,20]` into a
fresh width-400 list is well-formed; for the record `[5,25]` the scan finds no
insertion point and the call returns `false` with the list unchanged, although the
columns 5 and 25 of the record lie in no interval of the list. -/
theorem C5_not_found_not_occluded :
    (insertAll ⟨0, 0⟩ (InitOccList 400) [⟨10, 20⟩]).1 =
      [⟨INT_MIN, -1⟩, ⟨10, 20⟩, ⟨400, INT_MAX⟩] ∧
    WellFormed [⟨INT_MIN, -1⟩, ⟨10, 20⟩, ⟨400, INT_MAX⟩] ∧
    (scanLoop ⟨0, 0⟩ [⟨INT_MIN, -1⟩, ⟨10, 20⟩, ⟨400, INT_MAX⟩] ⟨5, 25⟩ 3 0 1).1 = false ∧
    InsertOccList ⟨0, 0⟩ [⟨INT_MIN, -1⟩, ⟨10, 20⟩, ⟨400, INT_MAX⟩] ⟨5, 25⟩ 0 0 =
      ⟨false, [⟨INT_MIN, -1⟩, ⟨10, 20⟩, ⟨400, INT_MAX⟩], -1, -2⟩ ∧
    InRec ⟨5, 25⟩ 5 ∧ ¬ Covered [⟨INT_MIN, -1⟩, ⟨10, 20⟩, ⟨400, INT_MAX⟩] 5 ∧
    InRec ⟨5, 25⟩ 25 ∧ ¬ Covered [⟨INT_MIN, -1⟩, ⟨10, 20⟩, ⟨400, INT_MAX⟩] 25 := by
  refine ⟨by rfl, ?_, by decide, by decide, by decide, by decide, by decide, by decide⟩
  have h := InsertOccList_wellFormed ⟨0, 0⟩ (InitOccList 400) ⟨10, 20⟩ 0 0
    (InitOccList_wellFormed 400 (by decide) (by decide)) (by decide)
  exact h

/-- C6 (the code at the failing input): on a fresh width-400 list the run `[10,20]`,
`[-5,30]` is accepted with the clip ranges `[10,20]` and `[0,9]` and leaves the list
`(INT_MIN,30)`, `(400,INT_MAX)`: column 25 is on the screen and marked as occluded, and
lies in neither clip range. -/
theorem C6_occluded_not_painted :
    insertAll ⟨0, 0⟩ (InitOccList 400) [⟨10, 20⟩, ⟨-5, 30⟩] =
      ([⟨INT_MIN, 30⟩, ⟨400, INT_MAX⟩], [(10, 20), (0, 9)]) ∧
    (0 : Int) ≤ 25 ∧ (25 : Int) ≤ 400 - 1 ∧
    Covered (insertAll ⟨0, 0⟩ (InitOccList 400) [⟨10, 20⟩, ⟨-5, 30⟩]).1 25 ∧
    ∀ c ∈ (insertAll ⟨0, 0⟩ (InitOccList 400) [⟨10, 20⟩, ⟨-5, 30⟩]).2,
      ¬ (c.1 ≤ 25 ∧ 25 ≤ c.2) := by
  have h : insertAll ⟨0, 0⟩ (InitOccList 400) [⟨10, 20⟩, ⟨-5, 30⟩] =
      ([⟨INT_MIN, 30⟩, ⟨400, INT_MAX⟩], [(10, 20), (0, 9)]) := by rfl
  rw [h]
  exact ⟨rfl, by decide, by decide, by decide, by decide⟩

/-! ### Angles and the column projection -/

theorem PI_pos : 0 < PI := by
  unfold PI; norm_num

theorem Mod2Pi_rad_of_nonneg (x : ℚ) (h1 : 0 ≤ x) (h2 : x < 2 * PI) : Mod2Pi_rad x = x := by
  unfold Mod2Pi_rad
  simp only
  rw [if_neg (not_lt.mpr h1), if_neg (not_le.mpr h2)]

theorem Mod2Pi_rad_of_neg (x : ℚ) (h2 : x < 0) :
    Mod2Pi_rad x = x + 2 * PI := by
  unfold Mod2Pi_rad
  simp only
  rw [if_pos h2, if_neg (by linarith)]

theorem modTwoPi_of_nonneg (x : ℚ) (h1 : 0 ≤ x) (h2 : x < 2 * PI) : modTwoPi x = x := by
  unfold modTwoPi
  have hpi := PI_pos
  have hf : ⌊x / (2 * PI)⌋ = 0 := by
    rw [Int.floor_eq_iff]
    constructor
    · simp only [Int.cast_zero]
      exact div_nonneg h1 (by linarith)
    · simp only [Int.cast_zero, zero_add]
      rw [div_lt_one (by linarith)]
      exact h2
  rw [hf]
  simp

theorem modTwoPi_of_neg (x : ℚ) (h1 : -(2 * PI) ≤ x) (h2 : x < 0) :
    modTwoPi x = x + 2 * PI := by
  unfold modTwoPi
  have hpi := PI_pos
  have hf : ⌊x / (2 * PI)⌋ = -1 := by
    rw [Int.floor_eq_iff]
    constructor
    · simp only [Int.cast_neg, Int.cast_one]
      rw [le_div_iff₀ (by linarith)]
      linarith
    · simp only [Int.cast_neg, Int.cast_one, neg_add_cancel]
      exact div_neg_of_neg_of_pos h2 (by linarith)
  rw [hf]
  simp only [Int.cast_neg, Int.cast_one]
  ring

/-- C9: whatever the map, the player position, the facing angle and the field of
view, `FaceVisible` returns `false` for a face on the map boundary: the WEST face of a
tile with `x = 0`, the EAST face of a tile with `x = nMapX - 1`, the NORTH face of a tile
with `y = 0` and the SOUTH face of a tile with `y = nMapY - 1`. -/
theorem C9_boundary_face_not_visible (sMap : List Char) (nMapX nMapY : Int)
    (fPlayerX fPlayerY fPlayerA_deg fPlayerFoV_deg : ℚ) (nTileX nTileY : Int) :
    FaceVisible sMap nMapX nMapY fPlayerX fPlayerY fPlayerA_deg fPlayerFoV_deg
      0 nTileY WEST = false ∧
    FaceVisible sMap nMapX nMapY fPlayerX fPlayerY fPlayerA_deg fPlayerFoV_deg
      (nMapX - 1) nTileY EAST = false ∧
    FaceVisible sMap nMapX nMapY fPlayerX fPlayerY fPlayerA_deg fPlayerFoV_deg
      nTileX 0 NORTH = false ∧
    FaceVisible sMap nMapX nMapY fPlayerX fPlayerY fPlayerA_deg fPlayerFoV_deg
      nTileX (nMapY - 1) SOUTH = false := by
  refine ⟨?_, ?_, ?_, ?_⟩ <;> simp [FaceVisible, EAST, WEST, SOUTH, NORTH]

/-- The index of a cell inside the map lies inside the map string. -/
theorem cell_index_range (nMapX nMapY x y : Int) (hx1 : 0 ≤ x) (hx2 : x < nMapX)
    (hy1 : 0 ≤ y) (hy2 : y < nMapY) : 0 ≤ y * nMapX + x ∧ y * nMapX + x < nMapX * nMapY := by
  have h1 : 0 ≤ y * nMapX := mul_nonneg hy1 (by omega)
  have h2 : (y + 1) * nMapX ≤ nMapY * nMapX :=
    mul_le_mul_of_nonneg_right (by omega) (by omega)
  constructor
  · omega
  · have h3 : (y + 1) * nMapX = y * nMapX + nMapX := by ring
    have h4 : nMapY * nMapX = nMapX * nMapY := by ring
    omega

/-- C10: whenever `FaceVisible` returns `true` for a tile inside the map, the
neighbouring cell in the direction of the side lies inside the map (its index lies
inside the map string), it is not `'#'`, and the player is strictly on the outward side
of the face plane (EAST: `fPlayerX > x + 1`, WEST: `fPlayerX < x`, SOUTH:
`fPlayerY > y + 1`, NORTH: `fPlayerY < y`). -/
theorem C10_visible_face_facts (sMap : List Char) (nMapX nMapY : Int)
    (fPlayerX fPlayerY fPlayerA_deg fPlayerFoV_deg : ℚ) (nTileX nTileY nFace : Int)
    (hx1 : 0 ≤ nTileX) (hx2 : nTileX < nMapX) (hy1 : 0 ≤ nTileY) (hy2 : nTileY < nMapY)
    (hvis : FaceVisible sMap nMapX nMapY fPlayerX fPlayerY fPlayerA_deg fPlayerFoV_deg
      nTileX nTileY nFace = true) :
    (nFace = EAST ∧ nTileX + 1 < nMapX ∧
      0 ≤ nTileY * nMapX + (nTileX + 1) ∧ nTileY * nMapX + (nTileX + 1) < nMapX * nMapY ∧
      mapAt sMap (nTileY * nMapX + (nTileX + 1)) ≠ '#' ∧
      fPlayerX > (nTileX : ℚ) + 1) ∨
    (nFace = WEST ∧ 0 ≤ nTileX - 1 ∧
      0 ≤ nTileY * nMapX + (nTileX - 1) ∧ nTileY * nMapX + (nTileX - 1) < nMapX * nMapY ∧
      mapAt sMap (nTileY * nMapX + (nTileX - 1)) ≠ '#' ∧
      fPlayerX < (nTileX : ℚ)) ∨
    (nFace = SOUTH ∧ nTileY + 1 < nMapY ∧
      0 ≤ (nTileY + 1) * nMapX + nTileX ∧ (nTileY + 1) * nMapX + nTileX < nMapX * nMapY ∧
      mapAt sMap ((nTileY + 1) * nMapX + nTileX) ≠ '#' ∧
      fPlayerY > (nTileY : ℚ) + 1) ∨
    (nFace = NORTH ∧ 0 ≤ nTileY - 1 ∧
      0 ≤ (nTileY - 1) * nMapX + nTileX ∧ (nTileY - 1) * nMapX + nTileX < nMapX * nMapY ∧
      mapAt sMap ((nTileY - 1) * nMapX + nTileX) ≠ '#' ∧
      fPlayerY < (nTileY : ℚ)) := by
  unfold FaceVisible at hvis
  simp only at hvis
  by_cases hE : nFace = EAST
  · rw [if_pos hE] at hvis
    simp only [Bool.and_eq_true, decide_eq_true_eq] at hvis
    obtain ⟨⟨⟨h1, h2⟩, _⟩, h4⟩ := hvis
    have hr := cell_index_range nMapX nMapY (nTileX + 1) nTileY (by omega) (by omega) hy1 hy2
    left
    refine ⟨hE, by omega, hr.1, hr.2, h2, ?_⟩
    push_cast at h4
    exact h4
  · rw [if_neg hE] at hvis
    by_cases hWe : nFace = WEST
    · rw [if_pos hWe] at hvis
      simp only [Bool.and_eq_true, decide_eq_true_eq] at hvis
      obtain ⟨⟨⟨h1, h2⟩, _⟩, h4⟩ := hvis
      have hr := cell_index_range nMapX nMapY (nTileX - 1) nTileY (by omega) (by omega) hy1 hy2
      right; left
      exact ⟨hWe, by omega, hr.1, hr.2, h2, h4⟩
    · rw [if_neg hWe] at hvis
      by_cases hS : nFace = SOUTH
      · rw [if_pos hS] at hvis
        simp only [Bool.and_eq_true, decide_eq_true_eq] at hvis
        obtain ⟨⟨⟨h1, h2⟩, _⟩, h4⟩ := hvis
        have hr := cell_index_range nMapX nMapY nTileX (nTileY + 1) hx1 hx2 (by omega) (by omega)
        right; right; left
        refine ⟨hS, by omega, hr.1, hr.2, h2, ?_⟩
        push_cast at h4
        exact h4
      · rw [if_neg hS] at hvis
        by_cases hN : nFace = NORTH
        · rw [if_pos hN] at hvis
          simp only [Bool.and_eq_true, decide_eq_true_eq] at hvis
          obtain ⟨⟨⟨h1, h2⟩, _⟩, h4⟩ := hvis
          have hr := cell_index_range nMapX nMapY nTileX (nTileY - 1) hx1 hx2 (by omega) (by omega)
          right; right; right
          exact ⟨hN, by omega, hr.1, hr.2, h2, h4⟩
        · rw [if_neg hN] at hvis
          simp at hvis

/-- C10 witness: the 4 x 3 map `####`, `#..#`, `####`, the player at `(1.5, 1.5)`
looking along `+x` with a 60 degree field of view, and the WEST face of the tile
`(3, 1)`. -/
theorem C10_visible_face_facts_witness :
    ((0 : Int) ≤ 3 ∧ (3 : Int) < 4 ∧ (0 : Int) ≤ 1 ∧ (1 : Int) < 3 ∧
      FaceVisible ['#', '#', '#', '#', '#', '.', '.', '#', '#', '#', '#', '#'] 4 3
        (3 / 2) (3 / 2) 0 60 3 1 WEST = true) ∧
    ((WEST = EAST ∧ (3 : Int) + 1 < 4 ∧
      0 ≤ (1 : Int) * 4 + (3 + 1) ∧ (1 : Int) * 4 + (3 + 1) < 4 * 3 ∧
      mapAt ['#', '#', '#', '#', '#', '.', '.', '#', '#', '#', '#', '#']
        (1 * 4 + (3 + 1)) ≠ '#' ∧
      (3 / 2 : ℚ) > ((3 : Int) : ℚ) + 1) ∨
    (WEST = WEST ∧ 0 ≤ (3 : Int) - 1 ∧
      0 ≤ (1 : Int) * 4 + (3 - 1) ∧ (1 : Int) * 4 + (3 - 1) < 4 * 3 ∧
      mapAt ['#', '#', '#', '#', '#', '.', '.', '#', '#', '#', '#', '#']
        (1 * 4 + (3 - 1)) ≠ '#' ∧
      (3 / 2 : ℚ) < ((3 : Int) : ℚ)) ∨
    (WEST = SOUTH ∧ (1 : Int) + 1 < 3 ∧
      0 ≤ ((1 : Int) + 1) * 4 + 3 ∧ ((1 : Int) + 1) * 4 + 3 < 4 * 3 ∧
      mapAt ['#', '#', '#', '#', '#', '.', '.', '#', '#', '#', '#', '#']
        ((1 + 1) * 4 + 3) ≠ '#' ∧
      (3 / 2 : ℚ) > ((1 : Int) : ℚ) + 1) ∨
    (WEST = NORTH ∧ 0 ≤ (1 : Int) - 1 ∧
      0 ≤ ((1 : Int) - 1) * 4 + 3 ∧ ((1 : Int) - 1) * 4 + 3 < 4 * 3 ∧
      mapAt ['#', '#', '#', '#', '#', '.', '.', '#', '#', '#', '#', '#']
        ((1 - 1) * 4 + 3) ≠ '#' ∧
      (3 / 2 : ℚ) < ((1 : Int) : ℚ))) := by
  have hm : Mod360_deg (0 - 60 / 2) = 330 := by unfold Mod360_deg; norm_num
  have hs : AngleInSector (Deg2Rad 330) (1.5 * PI) (0.5 * PI) = true := by
    unfold AngleInSector InBetweenF Deg2Rad PI; norm_num
  have hc : mapAt ['#', '#', '#', '#', '#', '.', '.', '#', '#', '#', '#', '#']
      (1 * 4 + (3 - 1)) = '.' := by decide
  have hvis : FaceVisible ['#', '#', '#', '#', '#', '.', '.', '#', '#', '#', '#', '#'] 4 3
      (3 / 2) (3 / 2) 0 60 3 1 WEST = true := by
    unfold FaceVisible
    simp only [hm, hs, hc]
    simp [EAST, WEST]
  exact ⟨⟨by decide, by decide, by decide, by decide, hvis⟩,
    C10_visible_face_facts _ 4 3 (3 / 2) (3 / 2) 0 60 3 1 WEST (by decide) (by decide)
      (by decide) (by decide) hvis⟩

/-! ### Angle utilities -/

/-- C11: for angles `a`, `left`, `right` in `[0, 2 PI)`, `AngleInSector(a, left, right)`
is true iff `a` lies on the arc swept by increasing angle from `left` to `right`
(through the seam when `left > right`): iff
`(a - left) mod 2 PI <= (right - left) mod 2 PI`. -/
theorem C11_angle_in_sector (a l r : ℚ) (ha1 : 0 ≤ a) (ha2 : a < 2 * PI)
    (hl1 : 0 ≤ l) (hl2 : l < 2 * PI) (hr1 : 0 ≤ r) (hr2 : r < 2 * PI) :
    AngleInSector a l r = true ↔ modTwoPi (a - l) ≤ modTwoPi (r - l) := by
  have hpi := PI_pos
  unfold AngleInSector InBetweenF
  by_cases hlr : l > r
  · rw [if_pos hlr, modTwoPi_of_neg (r - l) (by linarith) (by linarith)]
    by_cases hal : l ≤ a
    · rw [modTwoPi_of_nonneg (a - l) (by linarith) (by linarith)]
      simp only [Bool.or_eq_true, Bool.and_eq_true, decide_eq_true_eq]
      constructor
      · intro _; linarith
      · intro _; exact Or.inl ⟨hal, by linarith⟩
    · rw [modTwoPi_of_neg (a - l) (by linarith) (by linarith)]
      simp only [Bool.or_eq_true, Bool.and_eq_true, decide_eq_true_eq]
      constructor
      · rintro (⟨h1, _⟩ | ⟨_, h2⟩)
        · exact absurd h1 hal
        · linarith
      · intro h; exact Or.inr ⟨ha1, by linarith⟩
  · rw [if_neg hlr, modTwoPi_of_nonneg (r - l) (by linarith) (by linarith)]
    by_cases hal : l ≤ a
    · rw [modTwoPi_of_nonneg (a - l) (by linarith) (by linarith)]
      simp only [Bool.and_eq_true, decide_eq_true_eq]
      constructor
      · rintro ⟨_, h2⟩; linarith
      · intro h; exact ⟨hal, by linarith⟩
    · rw [modTwoPi_of_neg (a - l) (by linarith) (by linarith)]
      simp only [Bool.and_eq_true, decide_eq_true_eq]
      constructor
      · rintro ⟨h1, _⟩; exact absurd h1 hal
      · intro h; linarith

/-- C11 witness: the cone from 340 to 20 degrees, which straddles the seam, with the
angles 350 degrees (inside) and 180 degrees (outside). -/
theorem C11_angle_in_sector_witness :
    ((0 : ℚ) ≤ Deg2Rad 350 ∧ Deg2Rad 350 < 2 * PI ∧ 0 ≤ Deg2Rad 340 ∧ Deg2Rad 340 < 2 * PI ∧
      0 ≤ Deg2Rad 20 ∧ Deg2Rad 20 < 2 * PI) ∧
    (AngleInSector (Deg2Rad 350) (Deg2Rad 340) (Deg2Rad 20) = true ↔
      modTwoPi (Deg2Rad 350 - Deg2Rad 340) ≤ modTwoPi (Deg2Rad 20 - Deg2Rad 340)) ∧
    AngleInSector (Deg2Rad 350) (Deg2Rad 340) (Deg2Rad 20) = true ∧
    AngleInSector (Deg2Rad 180) (Deg2Rad 340) (Deg2Rad 20) = false := by
  have c1 : (0 : ℚ) ≤ Deg2Rad 350 := by unfold Deg2Rad PI; norm_num
  have c2 : Deg2Rad 350 < 2 * PI := by unfold Deg2Rad PI; norm_num
  have c3 : (0 : ℚ) ≤ Deg2Rad 340 := by unfold Deg2Rad PI; norm_num
  have c4 : Deg2Rad 340 < 2 * PI := by unfold Deg2Rad PI; norm_num
  have c5 : (0 : ℚ) ≤ Deg2Rad 20 := by unfold Deg2Rad PI; norm_num
  have c6 : Deg2Rad 20 < 2 * PI := by unfold Deg2Rad PI; norm_num
  refine ⟨⟨c1, c2, c3, c4, c5, c6⟩,
    C11_angle_in_sector (Deg2Rad 350) (Deg2Rad 340) (Deg2Rad 20) c1 c2 c3 c4 c5 c6, ?_, ?_⟩
  · unfold AngleInSector InBetweenF Deg2Rad PI; norm_num
  · unfold AngleInSector InBetweenF Deg2Rad PI; norm_num

/-! ### Precondition of `InsertOccList` and the well-formed list -/

/-- C16: if the list passed to `InsertOccList` has fewer than two elements, or its
first interval's left bound is not `INT_MIN`, or its last interval's right bound is not
`INT_MAX`, the call returns `false` and leaves the list and both clip arguments
unchanged. -/
theorem C16_precondition_violation (e : OcclusionRec) (lst : OccListType) (rec : OcclusionRec)
    (c1 c2 : Int)
    (h : lst.length < 2 ∨ lst.head?.map OcclusionRec.left ≠ some INT_MIN ∨
      lst.getLast?.map OcclusionRec.rght ≠ some INT_MAX) :
    InsertOccList e lst rec c1 c2 = ⟨false, lst, c1, c2⟩ := by
  unfold InsertOccList
  by_cases hlen : lst.length < 2
  · rw [if_pos hlen]
  · rw [if_neg hlen]
    have hb : (lst.headD e).left ≠ INT_MIN ∨ (lst.getLastD e).rght ≠ INT_MAX := by
      rcases h with h | h | h
      · exact absurd h hlen
      · left
        cases lst with
        | nil => simp at hlen
        | cons a l => simpa using h
      · right
        rcases List.eq_nil_or_concat lst with h0 | ⟨l, z, h0⟩
        · subst h0; simp at hlen
        · rw [List.concat_eq_append] at h0
          subst h0
          rw [List.getLastD_eq_getLast?]
          simpa using h
    rw [if_pos hb]

/-- C16 witness: a call on the empty (uninitialised) list, and a call on a list whose
first interval does not start at `INT_MIN`. -/
theorem C16_precondition_violation_witness :
    ((([] : OccListType).length < 2 ∨
        ([] : OccListType).head?.map OcclusionRec.left ≠ some INT_MIN ∨
        ([] : OccListType).getLast?.map OcclusionRec.rght ≠ some INT_MAX) ∧
      InsertOccList ⟨0, 0⟩ [] ⟨3, 7⟩ 11 12 = ⟨false, [], 11, 12⟩) ∧
    ((([⟨0, 5⟩, ⟨400, INT_MAX⟩] : OccListType).length < 2 ∨
        ([⟨0, 5⟩, ⟨400, INT_MAX⟩] : OccListType).head?.map OcclusionRec.left ≠ some INT_MIN ∨
        ([⟨0, 5⟩, ⟨400, INT_MAX⟩] : OccListType).getLast?.map OcclusionRec.rght ≠
          some INT_MAX) ∧
      InsertOccList ⟨0, 0⟩ [⟨0, 5⟩, ⟨400, INT_MAX⟩] ⟨10, 20⟩ 11 12 =
        ⟨false, [⟨0, 5⟩, ⟨400, INT_MAX⟩], 11, 12⟩) :=
  ⟨⟨Or.inl (by decide), C16_precondition_violation ⟨0, 0⟩ [] ⟨3, 7⟩ 11 12 (Or.inl (by decide))⟩,
   ⟨Or.inr (Or.inl (by decide)),
    C16_precondition_violation ⟨0, 0⟩ [⟨0, 5⟩, ⟨400, INT_MAX⟩] ⟨10, 20⟩ 11 12
      (Or.inr (Or.inl (by decide)))⟩⟩

/-- C18: if the list is well-formed (at least two intervals, first left bound
`INT_MIN`, last right bound `INT_MAX`, every interval `left <= rght`, and
`next.left > prev.rght + 1` for every neighbouring pair) and the record satisfies
`INT_MIN < rec.left <= rec.rght < INT_MAX`, then after `InsertOccList` the list is
non-empty, keeps the `INT_MIN` and `INT_MAX` outer bounds, every interval has
`left <= rght`, and `next.left > prev.rght + 1` holds for every neighbouring pair. -/
theorem C18_insert_keeps_well_formed (e : OcclusionRec) (lst : OccListType)
    (rec : OcclusionRec) (c1 c2 : Int) (_hlen : 2 ≤ lst.length)
    (hhead : lst.head?.map OcclusionRec.left = some INT_MIN)
    (hlast : lst.getLast?.map OcclusionRec.rght = some INT_MAX)
    (hle : ∀ r ∈ lst, r.left ≤ r.rght)
    (hgap : lst.Chain' (fun p n => n.left > p.rght + 1))
    (hr1 : INT_MIN < rec.left) (hr2 : rec.left ≤ rec.rght) (hr3 : rec.rght < INT_MAX) :
    (InsertOccList e lst rec c1 c2).lst ≠ [] ∧
    (InsertOccList e lst rec c1 c2).lst.head?.map OcclusionRec.left = some INT_MIN ∧
    (InsertOccList e lst rec c1 c2).lst.getLast?.map OcclusionRec.rght = some INT_MAX ∧
    (∀ r ∈ (InsertOccList e lst rec c1 c2).lst, r.left ≤ r.rght) ∧
    (InsertOccList e lst rec c1 c2).lst.Chain' (fun p n => n.left > p.rght + 1) := by
  have hwf : WellFormed lst := ⟨hhead, hlast, hle, hgap⟩
  have h := InsertOccList_wellFormed e lst rec c1 c2 hwf ⟨le_of_lt hr1, hr2, hr3⟩
  obtain ⟨a, b, c, d⟩ := h
  refine ⟨?_, a, b, c, d⟩
  intro h0
  rw [h0] at a
  simp at a

/-- C18 witness: the record `[50, 150]` on the list `(INT_MIN,100)`, `(400,INT_MAX)`. -/
theorem C18_insert_keeps_well_formed_witness :
    (2 ≤ ([⟨INT_MIN, 100⟩, ⟨400, INT_MAX⟩] : OccListType).length ∧
      ([⟨INT_MIN, 100⟩, ⟨400, INT_MAX⟩] : OccListType).head?.map OcclusionRec.left =
        some INT_MIN ∧
      ([⟨INT_MIN, 100⟩, ⟨400, INT_MAX⟩] : OccListType).getLast?.map OcclusionRec.rght =
        some INT_MAX ∧
      (∀ r ∈ ([⟨INT_MIN, 100⟩, ⟨400, INT_MAX⟩] : OccListType), r.left ≤ r.rght) ∧
      ([⟨INT_MIN, 100⟩, ⟨400, INT_MAX⟩] : OccListType).Chain'
        (fun p n => n.left > p.rght + 1) ∧
      INT_MIN < (50 : Int) ∧ (50 : Int) ≤ 150 ∧ (150 : Int) < INT_MAX) ∧
    ((InsertOccList ⟨0, 0⟩ [⟨INT_MIN, 100⟩, ⟨400, INT_MAX⟩] ⟨50, 150⟩ 0 0).lst ≠ [] ∧
    (InsertOccList ⟨0, 0⟩ [⟨INT_MIN, 100⟩, ⟨400, INT_MAX⟩] ⟨50, 150⟩ 0 0).lst.head?.map
      OcclusionRec.left = some INT_MIN ∧
    (InsertOccList ⟨0, 0⟩ [⟨INT_MIN, 100⟩, ⟨400, INT_MAX⟩] ⟨50, 150⟩ 0 0).lst.getLast?.map
      OcclusionRec.rght = some INT_MAX ∧
    (∀ r ∈ (InsertOccList ⟨0, 0⟩ [⟨INT_MIN, 100⟩, ⟨400, INT_MAX⟩] ⟨50, 150⟩ 0 0).lst,
      r.left ≤ r.rght) ∧
    (InsertOccList ⟨0, 0⟩ [⟨INT_MIN, 100⟩, ⟨400, INT_MAX⟩] ⟨50, 150⟩ 0 0).lst.Chain'
      (fun p n => n.left > p.rght + 1)) := by
  have hc : ([⟨INT_MIN, 100⟩, ⟨400, INT_MAX⟩] : OccListType).Chain'
      (fun p n => n.left > p.rght + 1) := by
    simp only [List.chain'_cons, List.chain'_singleton, and_true]
    decide
  exact ⟨⟨by decide, by decide, by decide, by decide, hc, by decide, by decide, by decide⟩,
    C18_insert_keeps_well_formed ⟨0, 0⟩ [⟨INT_MIN, 100⟩, ⟨400, INT_MAX⟩] ⟨50, 150⟩ 0 0
      (by decide) (by decide) (by decide) (by decide) hc (by decide) (by decide) (by decide)⟩

/-! ### The face collector -/

theorem GetVisibleFaces_perm (m : LibM) (g : Game) (tiles : List TileInfo)
    (faces0 : List FaceInfo) :
    (GetVisibleFaces m g tiles faces0).Perm (faces0 ++ collectFaces m g tiles) :=
  List.mergeSort_perm _ _

theorem mem_GetVisibleFaces (m : LibM) (g : Game) (tiles : List TileInfo) (f : FaceInfo) :
    f ∈ GetVisibleFaces m g tiles [] ↔
      ∃ t ∈ tiles, ∃ face ∈ [EAST, SOUTH, WEST, NORTH],
        FaceVisible g.sMap g.nMapX g.nMapY g.fPlayerX g.fPlayerY g.fPlayerA_deg
          g.fPlayerFoV_deg t.TileID.x t.TileID.y face = true ∧ f = makeFace m g t face := by
  rw [(GetVisibleFaces_perm m g tiles []).mem_iff]
  simp only [List.nil_append, collectFaces, tileFaces, List.mem_flatMap, List.mem_map,
    List.mem_filter]
  constructor
  · rintro ⟨t, ht, face, ⟨hf1, hf2⟩, rfl⟩
    exact ⟨t, ht, face, hf1, hf2, rfl⟩
  · rintro ⟨t, ht, face, hf1, hf2, rfl⟩
    exact ⟨t, ht, face, ⟨hf1, hf2⟩, rfl⟩

theorem collectFaces_keys (m : LibM) (g : Game) (tiles : List TileInfo) :
    (collectFaces m g tiles).map (fun f => (f.TileID, f.nSide)) =
      (tiles.flatMap (fun t => [EAST, SOUTH, WEST, NORTH].map (fun s => (t.TileID, s)))).filter
        (fun p => FaceVisible g.sMap g.nMapX g.nMapY g.fPlayerX g.fPlayerY g.fPlayerA_deg
          g.fPlayerFoV_deg p.1.x p.1.y p.2) := by
  unfold collectFaces
  induction tiles with
  | nil => simp
  | cons t tiles ih =>
    rw [List.flatMap_cons, List.flatMap_cons, List.map_append, List.filter_append, ih]
    congr 1
    unfold tileFaces
    rw [List.map_map, List.filter_map]
    rfl

/-- C15: for every input tile list, the face list produced by `GetVisibleFaces` (called
with an empty face list) is a permutation of the faces collected, it holds exactly one
entry for each `(tile, side)` of the input tiles for which `FaceVisible` holds, and it is
ordered near-to-far: the mean of the raw distances of the two columns is non-decreasing
along the list. -/
theorem C15_faces_collected_and_sorted (m : LibM) (g : Game) (tiles : List TileInfo) :
    (GetVisibleFaces m g tiles []).Perm (collectFaces m g tiles) ∧
    ((GetVisibleFaces m g tiles []).map (fun f => (f.TileID, f.nSide))).Perm
      ((tiles.flatMap (fun t =>
          [EAST, SOUTH, WEST, NORTH].map (fun s => (t.TileID, s)))).filter
        (fun p => FaceVisible g.sMap g.nMapX g.nMapY g.fPlayerX g.fPlayerY g.fPlayerA_deg
          g.fPlayerFoV_deg p.1.x p.1.y p.2)) ∧
    (GetVisibleFaces m g tiles []).Pairwise
      (fun a b => meanRawDistance a ≤ meanRawDistance b) := by
  have hp : (GetVisibleFaces m g tiles []).Perm (collectFaces m g tiles) := by
    have := GetVisibleFaces_perm m g tiles []
    simpa using this
  refine ⟨hp, ?_, ?_⟩
  · rw [← collectFaces_keys m g tiles]
    exact hp.map _
  · unfold GetVisibleFaces
    have hs := @List.sorted_mergeSort FaceInfo
      (fun a b : FaceInfo => !faces_sort_small2large b a)
      (by
        intro a b c hab hbc
        simp only [faces_sort_small2large, Bool.not_eq_true', decide_eq_false_iff_not,
          not_lt] at hab hbc ⊢
        exact le_trans hab hbc)
      (by
        intro a b
        simp only [faces_sort_small2large, Bool.or_eq_true, Bool.not_eq_true',
          decide_eq_false_iff_not, not_lt]
        exact le_total _ _)
      ([] ++ collectFaces m g tiles)
    refine List.Pairwise.imp ?_ hs
    intro a b hab
    simpa [faces_sort_small2large] using hab

theorem sampleGame_west_visible :
    FaceVisible sampleGame.sMap sampleGame.nMapX sampleGame.nMapY sampleGame.fPlayerX
      sampleGame.fPlayerY sampleGame.fPlayerA_deg sampleGame.fPlayerFoV_deg 3 1 WEST = true := by
  have hm : Mod360_deg (0 - 60 / 2) = 330 := by unfold Mod360_deg; norm_num
  have hs : AngleInSector (Deg2Rad 330) (1.5 * PI) (0.5 * PI) = true := by
    unfold AngleInSector InBetweenF Deg2Rad PI; norm_num
  have hc : mapAt ['#', '#', '#', '#', '#', '.', '.', '#', '#', '.', '.', '#', '#', '#', '#', '#']
      (1 * 4 + (3 - 1)) = '.' := by decide
  unfold FaceVisible sampleGame
  simp only [hm, hs, hc]
  simp [EAST, WEST]

theorem sampleGame_west_mem :
    makeFace sampleLibM sampleGame ⟨⟨3, 1⟩⟩ WEST ∈
      GetVisibleFaces sampleLibM sampleGame [⟨⟨3, 1⟩⟩] [] := by
  rw [mem_GetVisibleFaces]
  exact ⟨⟨⟨3, 1⟩⟩, by simp, WEST, by simp, sampleGame_west_visible, rfl⟩

/-- C17: for every column built by `GetVisibleFaces`, the corrected distance
`fDistFromPlayer` is the raw distance `fDistFromPlayer_raw` times
`|cos(fPlayerA_rad - fAngleFromPlayer)|`; in particular, for a column directly ahead of
the player (`fAngleFromPlayer = fPlayerA_rad`) the corrected distance is the raw distance
(`cosf( 0 ) = 1`). -/
theorem C17_fisheye_correction (m : LibM) (g : Game) (tiles : List TileInfo) (f : FaceInfo)
    (hf : f ∈ GetVisibleFaces m g tiles []) :
    f.leftCol.fDistFromPlayer =
      f.leftCol.fDistFromPlayer_raw * |m.cosf (g.fPlayerA_rad - f.leftCol.fAngleFromPlayer)| ∧
    f.rghtCol.fDistFromPlayer =
      f.rghtCol.fDistFromPlayer_raw * |m.cosf (g.fPlayerA_rad - f.rghtCol.fAngleFromPlayer)| ∧
    (m.cosf 0 = 1 →
      (f.leftCol.fAngleFromPlayer = g.fPlayerA_rad →
        f.leftCol.fDistFromPlayer = f.leftCol.fDistFromPlayer_raw) ∧
      (f.rghtCol.fAngleFromPlayer = g.fPlayerA_rad →
        f.rghtCol.fDistFromPlayer = f.rghtCol.fDistFromPlayer_raw)) := by
  obtain ⟨t, _, face, _, _, rfl⟩ := (mem_GetVisibleFaces m g tiles f).mp hf
  refine ⟨rfl, rfl, fun hcos => ⟨fun h => ?_, fun h => ?_⟩⟩
  · have e : (makeFace m g t face).leftCol.fDistFromPlayer =
        (makeFace m g t face).leftCol.fDistFromPlayer_raw *
          |m.cosf (g.fPlayerA_rad - (makeFace m g t face).leftCol.fAngleFromPlayer)| := rfl
    rw [e, h, sub_self, hcos]
    simp
  · have e : (makeFace m g t face).rghtCol.fDistFromPlayer =
        (makeFace m g t face).rghtCol.fDistFromPlayer_raw *
          |m.cosf (g.fPlayerA_rad - (makeFace m g t face).rghtCol.fAngleFromPlayer)| := rfl
    rw [e, h, sub_self, hcos]
    simp

/-- C17 witness: in the sample scene the WEST face of the tile `(3, 1)` is collected;
its right column `(3, 2)` is directly ahead of the player. -/
theorem C17_fisheye_correction_witness :
    (makeFace sampleLibM sampleGame ⟨⟨3, 1⟩⟩ WEST ∈
        GetVisibleFaces sampleLibM sampleGame [⟨⟨3, 1⟩⟩] [] ∧
      sampleLibM.cosf 0 = 1 ∧
      (makeFace sampleLibM sampleGame ⟨⟨3, 1⟩⟩ WEST).rghtCol.fAngleFromPlayer =
        sampleGame.fPlayerA_rad) ∧
    ((makeFace sampleLibM sampleGame ⟨⟨3, 1⟩⟩ WEST).leftCol.fDistFromPlayer =
      (makeFace sampleLibM sampleGame ⟨⟨3, 1⟩⟩ WEST).leftCol.fDistFromPlayer_raw *
        |sampleLibM.cosf (sampleGame.fPlayerA_rad -
          (makeFace sampleLibM sampleGame ⟨⟨3, 1⟩⟩ WEST).leftCol.fAngleFromPlayer)| ∧
    (makeFace sampleLibM sampleGame ⟨⟨3, 1⟩⟩ WEST).rghtCol.fDistFromPlayer =
      (makeFace sampleLibM sampleGame ⟨⟨3, 1⟩⟩ WEST).rghtCol.fDistFromPlayer_raw *
        |sampleLibM.cosf (sampleGame.fPlayerA_rad -
          (makeFace sampleLibM sampleGame ⟨⟨3, 1⟩⟩ WEST).rghtCol.fAngleFromPlayer)| ∧
    (sampleLibM.cosf 0 = 1 →
      ((makeFace sampleLibM sampleGame ⟨⟨3, 1⟩⟩ WEST).leftCol.fAngleFromPlayer =
          sampleGame.fPlayerA_rad →
        (makeFace sampleLibM sampleGame ⟨⟨3, 1⟩⟩ WEST).leftCol.fDistFromPlayer =
          (makeFace sampleLibM sampleGame ⟨⟨3, 1⟩⟩ WEST).leftCol.fDistFromPlayer_raw) ∧
      ((makeFace sampleLibM sampleGame ⟨⟨3, 1⟩⟩ WEST).rghtCol.fAngleFromPlayer =
          sampleGame.fPlayerA_rad →
        (makeFace sampleLibM sampleGame ⟨⟨3, 1⟩⟩ WEST).rghtCol.fDistFromPlayer =
          (makeFace sampleLibM sampleGame ⟨⟨3, 1⟩⟩ WEST).rghtCol.fDistFromPlayer_raw))) := by
  have hcos : sampleLibM.cosf 0 = 1 := by
    show cosfApprox 0 = 1
    unfold cosfApprox; norm_num
  have hang : (makeFace sampleLibM sampleGame ⟨⟨3, 1⟩⟩ WEST).rghtCol.fAngleFromPlayer =
      sampleGame.fPlayerA_rad := by
    simp only [makeFace, makeColumn, GetAngle_PlayerToLocation, GetColumnCoordinates,
      sampleLibM, sampleGame, EAST, SOUTH, WEST]
    norm_num [atan2fApprox, atanApprox, Mod2Pi_rad, PI]
  exact ⟨⟨sampleGame_west_mem, hcos, hang⟩,
    C17_fisheye_correction sampleLibM sampleGame [⟨⟨3, 1⟩⟩]
      (makeFace sampleLibM sampleGame ⟨⟨3, 1⟩⟩ WEST) sampleGame_west_mem⟩

/-! ### Projection of the two columns of a face -/

/-- C20 (the code at the failing input): for a face whose left and right column both
project to the screen column 10, on a 400 column screen with nothing painted yet,
`InsertOccList` accepts the record `[10, 10]` with the clip range `[10, 10]`, and the lerp
loop of `RenderWallQuad_mono` runs once, for `x = 10`, with the numerator 0 and the
denominator `rghtCol.nScreenX - leftCol.nScreenX = 0` of the fraction `t`. -/
theorem C20_degenerate_face_painted :
    InsertOccList ⟨0, 0⟩ (InitOccList 400) ⟨10, 10⟩ 0 0 =
      ⟨true, [⟨INT_MIN, -1⟩, ⟨10, 10⟩, ⟨400, INT_MAX⟩], 10, 10⟩ ∧
    RenderWallQuad_mono_columns 400 10 10 10 10 = [10] ∧
    RenderWallQuad_mono_lerp 400 10 10 10 10 = [(10, 0, 0)] ∧
    paintPass ⟨0, 0⟩ 400 [(10, 10)] = [(10, 0, 0)] := by
  refine ⟨by rfl, by rfl, by rfl, by rfl⟩

/-! ### Columns painted by `RenderWallQuad_mono` -/

theorem range_map_mem (s t x : Int) :
    x ∈ (List.range (t - s + 1).toNat).map (fun i : Nat => s + (i : Int)) ↔ s ≤ x ∧ x ≤ t := by
  simp only [List.mem_map, List.mem_range]
  constructor
  · rintro ⟨i, hi, rfl⟩
    omega
  · rintro ⟨h1, h2⟩
    exact ⟨(x - s).toNat, by omega, by omega⟩

theorem range_map_nodup (s : Int) (n : Nat) :
    ((List.range n).map (fun i : Nat => s + (i : Int))).Nodup := by
  refine List.Nodup.map ?_ (List.nodup_range n)
  intro a b hab
  simpa using hab

theorem RenderWallQuad_mono_columns_eq (W leftX rghtX nLeftClip nRghtClip : Int) :
    RenderWallQuad_mono_columns W leftX rghtX nLeftClip nRghtClip =
      (List.range (min (W - 1) (min rghtX nRghtClip) - max 0 (max leftX nLeftClip) + 1).toNat).map
        (fun i : Nat => max 0 (max leftX nLeftClip) + (i : Int)) := by
  unfold RenderWallQuad_mono_columns
  simp only [bind_pure_comp, List.map_eq_map, List.map_map]
  rfl

/-- The columns at which `RenderWallQuad_mono` runs the body of its lerp loop are
exactly the integers `x` with
`max(0, leftX, nLeftClip) <= x <= min(ScreenWidth - 1, rghtX, nRghtClip)`, each once;
they lie in `[nLeftClip, nRghtClip]` and in `[0, ScreenWidth - 1]`. -/
theorem RenderWallQuad_mono_columns_spec (W leftX rghtX nLeftClip nRghtClip : Int) :
    (∀ x : Int, x ∈ RenderWallQuad_mono_columns W leftX rghtX nLeftClip nRghtClip ↔
      max 0 (max leftX nLeftClip) ≤ x ∧ x ≤ min (W - 1) (min rghtX nRghtClip)) ∧
    (∀ x ∈ RenderWallQuad_mono_columns W leftX rghtX nLeftClip nRghtClip,
      (nLeftClip ≤ x ∧ x ≤ nRghtClip) ∧ (0 ≤ x ∧ x ≤ W - 1) ∧ (leftX ≤ x ∧ x ≤ rghtX)) ∧
    (RenderWallQuad_mono_columns W leftX rghtX nLeftClip nRghtClip).Nodup ∧
    (RenderWallQuad_mono_lerp W leftX rghtX nLeftClip nRghtClip).map (fun p => p.1) =
      RenderWallQuad_mono_columns W leftX rghtX nLeftClip nRghtClip := by
  refine ⟨?_, ?_, ?_, ?_⟩
  · intro x
    rw [RenderWallQuad_mono_columns_eq, range_map_mem]
  · intro x hx
    rw [RenderWallQuad_mono_columns_eq, range_map_mem] at hx
    simp only [max_le_iff, le_min_iff] at hx
    omega
  · rw [RenderWallQuad_mono_columns_eq]
    exact range_map_nodup _ _
  · unfold RenderWallQuad_mono_lerp
    simp [List.map_map, Function.comp_def]

/-! ### Corners of a tile -/

/-- C27: for every tile `(x, y)` and each side, `GetColumnCoordinates` returns as left
and right column two distinct points one unit apart, both on the boundary line of the
side (EAST `X = x + 1`, SOUTH `Y = y + 1`, WEST `X = x`, NORTH `Y = y`); the right
column of each side is the left column of the next side in the cycle EAST, NORTH,
WEST, SOUTH; and the four left columns are the four corners of the unit square of the
tile, each once. -/
theorem C27_column_coordinates (nTileX nTileY : Int) :
    ((GetColumnCoordinates nTileX nTileY EAST true).1 = (nTileX : ℚ) + 1 ∧
      (GetColumnCoordinates nTileX nTileY EAST false).1 = (nTileX : ℚ) + 1 ∧
      (GetColumnCoordinates nTileX nTileY SOUTH true).2 = (nTileY : ℚ) + 1 ∧
      (GetColumnCoordinates nTileX nTileY SOUTH false).2 = (nTileY : ℚ) + 1 ∧
      (GetColumnCoordinates nTileX nTileY WEST true).1 = (nTileX : ℚ) ∧
      (GetColumnCoordinates nTileX nTileY WEST false).1 = (nTileX : ℚ) ∧
      (GetColumnCoordinates nTileX nTileY NORTH true).2 = (nTileY : ℚ) ∧
      (GetColumnCoordinates nTileX nTileY NORTH false).2 = (nTileY : ℚ)) ∧
    (∀ f ∈ [EAST, SOUTH, WEST, NORTH],
      GetColumnCoordinates nTileX nTileY f true ≠ GetColumnCoordinates nTileX nTileY f false ∧
      |(GetColumnCoordinates nTileX nTileY f true).1 -
          (GetColumnCoordinates nTileX nTileY f false).1| +
        |(GetColumnCoordinates nTileX nTileY f true).2 -
          (GetColumnCoordinates nTileX nTileY f false).2| = 1) ∧
    (GetColumnCoordinates nTileX nTileY EAST false = GetColumnCoordinates nTileX nTileY NORTH true ∧
      GetColumnCoordinates nTileX nTileY NORTH false = GetColumnCoordinates nTileX nTileY WEST true ∧
      GetColumnCoordinates nTileX nTileY WEST false = GetColumnCoordinates nTileX nTileY SOUTH true ∧
      GetColumnCoordinates nTileX nTileY SOUTH false = GetColumnCoordinates nTileX nTileY EAST true) ∧
    [GetColumnCoordinates nTileX nTileY EAST true, GetColumnCoordinates nTileX nTileY SOUTH true,
      GetColumnCoordinates nTileX nTileY WEST true, GetColumnCoordinates nTileX nTileY NORTH true] =
      [((nTileX : ℚ) + 1, (nTileY : ℚ) + 1), ((nTileX : ℚ), (nTileY : ℚ) + 1),
        ((nTileX : ℚ), (nTileY : ℚ)), ((nTileX : ℚ) + 1, (nTileY : ℚ))] ∧
    [GetColumnCoordinates nTileX nTileY EAST true, GetColumnCoordinates nTileX nTileY SOUTH true,
      GetColumnCoordinates nTileX nTileY WEST true,
      GetColumnCoordinates nTileX nTileY NORTH true].Nodup := by
  refine ⟨?_, ?_, ?_, ?_, ?_⟩
  · simp [GetColumnCoordinates, EAST, SOUTH, WEST, NORTH]
  · intro f hf
    simp only [List.mem_cons, List.mem_singleton, List.not_mem_nil, or_false] at hf
    rcases hf with rfl | rfl | rfl | rfl <;>
      simp [GetColumnCoordinates, EAST, SOUTH, WEST, NORTH]
  · simp [GetColumnCoordinates, EAST, SOUTH, WEST, NORTH]
  · simp [GetColumnCoordinates, EAST, SOUTH, WEST, NORTH]
  · simp [GetColumnCoordinates, EAST, SOUTH, WEST, NORTH]

/-! ### Termination and step counts of `InsertOccList` -/

theorem step3_split (e : OcclusionRec) (pre : List OcclusionRec) (L R : OcclusionRec)
    (suf : List OcclusionRec) (rec : OcclusionRec) :
    step3 e (pre ++ L :: R :: suf) rec pre.length (pre.length + 1) =
      if wrapInt (L.rght + 1) ≥ rec.left then
        (pre ++ ⟨L.left, max L.rght rec.rght⟩ :: R :: suf, pre.length, pre.length + 1)
      else ((pre ++ [L]) ++ rec :: R :: suf, (pre ++ [L]).length, (pre ++ [L]).length + 1) := by
  unfold step3
  rw [deref_left]
  by_cases h : wrapInt (L.rght + 1) ≥ rec.left
  · simp [h, List.set_append]
  · have h1 : pre ++ L :: R :: suf = (pre ++ [L]) ++ R :: suf := by simp
    have h2 : pre.length + 1 = (pre ++ [L]).length := by simp
    rw [if_neg h, if_neg h, h1, h2, insertIdx_append_length]

theorem insertAt_lst_step3 (e : OcclusionRec) (lst : OccListType) (rec : OcclusionRec)
    (iL iR : Nat) :
    (insertAt e lst rec iL iR).lst =
      mergeLoop e (step3 e lst rec iL iR).1.length (step3 e lst rec iL iR).1
        (step3 e lst rec iL iR).2.1 (step3 e lst rec iL iR).2.2 := by
  unfold insertAt step3
  by_cases h : wrapInt ((deref e lst iL).rght + 1) ≥ rec.left
  · simp [h]
  · simp [h]

theorem mergeLoopSteps_eq (e : OcclusionRec) (pre : List OcclusionRec) :
    ∀ (suf : List OcclusionRec) (fuel : Nat) (L : OcclusionRec), suf.length ≤ fuel →
      mergeLoopSteps e fuel (pre ++ L :: suf) pre.length (pre.length + 1) +
        (absorb L suf).length = suf.length + 1 := by
  intro suf
  induction suf with
  | nil =>
    intro fuel L _
    cases fuel with
    | zero => simp [mergeLoopSteps, absorb]
    | succ n => simp [mergeLoopSteps, absorb]
  | cons R suf ih =>
    intro fuel L hf
    cases fuel with
    | zero => simp at hf
    | succ n =>
      have hn : suf.length ≤ n := by simpa using hf
      rw [mergeLoopSteps, deref_left, deref_rght]
      by_cases h : wrapInt (L.rght + 1) ≥ R.left
      · have hs : ((pre ++ L :: R :: suf).set pre.length
            ⟨min L.left R.left, max L.rght R.rght⟩).eraseIdx (pre.length + 1)
            = pre ++ ⟨min L.left R.left, max L.rght R.rght⟩ :: suf := by
          simp [List.set_append, List.eraseIdx_append_of_length_le]
        simp only [h, decide_True, Bool.true_and, List.length_append, List.length_cons, ne_eq,
          absorb, if_true]
        rw [if_pos (by simp), hs]
        have := ih n ⟨min L.left R.left, max L.rght R.rght⟩ hn
        omega
      · simp [h, absorb]

theorem scanLoopSteps_le (e : OcclusionRec) (lst : OccListType) (rec : OcclusionRec) :
    ∀ (fuel iL : Nat), iL + 1 < lst.length →
      scanLoopSteps e lst rec fuel iL (iL + 1) + (iL + 1) ≤ lst.length := by
  intro fuel
  induction fuel with
  | zero => intro iL h; simp [scanLoopSteps]; omega
  | succ n ih =>
    intro iL h
    rw [scanLoopSteps]
    by_cases ht : scanTest e lst rec iL (iL + 1) = true
    · rw [if_pos ht]; omega
    · rw [if_neg ht]
      by_cases hend : iL + 1 + 1 = lst.length
      · rw [if_neg (by simp [hend])]; omega
      · rw [if_pos hend]
        have := ih (iL + 1) (by omega)
        omega

theorem scanLoop_stable (e : OcclusionRec) (lst : OccListType) (rec : OcclusionRec) :
    ∀ (fuel1 fuel2 iL : Nat), iL + 1 < lst.length → lst.length ≤ fuel1 + (iL + 1) →
      lst.length ≤ fuel2 + (iL + 1) →
      scanLoop e lst rec fuel1 iL (iL + 1) = scanLoop e lst rec fuel2 iL (iL + 1) ∧
      scanLoopSteps e lst rec fuel1 iL (iL + 1) = scanLoopSteps e lst rec fuel2 iL (iL + 1) := by
  intro fuel1
  induction fuel1 with
  | zero => intro fuel2 iL h1 h2 _; omega
  | succ n ih =>
    intro fuel2 iL h1 h2 h3
    cases fuel2 with
    | zero => omega
    | succ k =>
      rw [scanLoop, scanLoop, scanLoopSteps, scanLoopSteps]
      by_cases ht : scanTest e lst rec iL (iL + 1) = true
      · simp [ht]
      · rw [if_neg ht, if_neg ht, if_neg ht, if_neg ht]
        by_cases hend : iL + 1 + 1 = lst.length
        · simp [hend]
        · rw [if_pos hend, if_pos hend, if_pos hend, if_pos hend]
          have := ih k (iL + 1) (by omega) (by omega) (by omega)
          exact ⟨this.1, by rw [this.2]⟩

theorem absorb_length_le (L : OcclusionRec) (suf : List OcclusionRec) :
    (absorb L suf).length ≤ suf.length + 1 := by
  have := mergeLoopSteps_eq ⟨0, 0⟩ [] suf suf.length L (le_refl _)
  omega

theorem InsertOccList_length (e : OcclusionRec) (lst : OccListType) (rec : OcclusionRec)
    (c1 c2 : Int) : (InsertOccList e lst rec c1 c2).lst.length ≤ lst.length + 1 := by
  by_cases hlen : lst.length < 2
  · simp [InsertOccList, hlen]
  by_cases hb : (lst.headD e).left ≠ INT_MIN ∨ (lst.getLastD e).rght ≠ INT_MAX
  · unfold InsertOccList
    rw [if_neg hlen, if_pos hb]
    simp
  have hb1 : (lst.headD e).left = INT_MIN := by
    by_contra h; exact hb (Or.inl h)
  have hb2 : (lst.getLastD e).rght = INT_MAX := by
    by_contra h; exact hb (Or.inr h)
  rcases InsertOccList_cases e lst rec c1 c2 (by omega) hb1 hb2 with
    ⟨h, _, _⟩ | ⟨pre, L, R, suf, hs, _, _, _, h⟩
  · rw [h]; simp
  · rw [h, insertAt_split]
    have h1 := absorb_length_le ⟨L.left, max L.rght rec.rght⟩ (R :: suf)
    have h2 := absorb_length_le rec (R :: suf)
    rw [hs]
    split
    · simp only [List.length_append, List.length_cons] at *; omega
    · simp only [List.length_append, List.length_cons] at *; omega

/-- C30: `InsertOccList` terminates for every list and every record.  On a list of
`n` intervals, cutting each loop off after `fuel >= n` passes changes nothing: the
routine leaves the list of `InsertOccList` behind after a number of passes of the scan
loop and a number of passes of the merge loop that do not depend on `fuel` and are at
most `n` each; and the resulting list has at most `n + 1` intervals. -/
theorem C30_termination_and_steps (e : OcclusionRec) (lst : OccListType) (rec : OcclusionRec)
    (c1 c2 : Int) :
    (∃ nScan nMerge : Nat, nScan ≤ lst.length ∧ nMerge ≤ lst.length ∧
      ∀ fuel, lst.length ≤ fuel →
        InsertOccList_steps e fuel lst rec = ((InsertOccList e lst rec c1 c2).lst, nScan, nMerge)) ∧
    (InsertOccList e lst rec c1 c2).lst.length ≤ lst.length + 1 := by
  refine ⟨?_, InsertOccList_length e lst rec c1 c2⟩
  by_cases hlen : lst.length < 2
  · exact ⟨0, 0, Nat.zero_le _, Nat.zero_le _, fun fuel _ => by
      simp [InsertOccList_steps, InsertOccList, hlen]⟩
  by_cases hb : (lst.headD e).left ≠ INT_MIN ∨ (lst.getLastD e).rght ≠ INT_MAX
  · exact ⟨0, 0, Nat.zero_le _, Nat.zero_le _, fun fuel _ => by
      unfold InsertOccList_steps InsertOccList
      rw [if_neg hlen, if_neg hlen, if_pos hb, if_pos hb]⟩
  have hb1 : (lst.headD e).left = INT_MIN := by
    by_contra h; exact hb (Or.inl h)
  have hb2 : (lst.getLastD e).rght = INT_MAX := by
    by_contra h; exact hb (Or.inr h)
  have hstep : ∀ fuel, InsertOccList_steps e fuel lst rec =
      if !(scanLoop e lst rec fuel 0 1).1 then (lst, scanLoopSteps e lst rec fuel 0 1, 0)
      else
        (mergeLoop e fuel (step3 e lst rec (scanLoop e lst rec fuel 0 1).2.1
            (scanLoop e lst rec fuel 0 1).2.2).1
          (step3 e lst rec (scanLoop e lst rec fuel 0 1).2.1 (scanLoop e lst rec fuel 0 1).2.2).2.1
          (step3 e lst rec (scanLoop e lst rec fuel 0 1).2.1 (scanLoop e lst rec fuel 0 1).2.2).2.2,
          scanLoopSteps e lst rec fuel 0 1,
          mergeLoopSteps e fuel (step3 e lst rec (scanLoop e lst rec fuel 0 1).2.1
            (scanLoop e lst rec fuel 0 1).2.2).1
          (step3 e lst rec (scanLoop e lst rec fuel 0 1).2.1 (scanLoop e lst rec fuel 0 1).2.2).2.1
          (step3 e lst rec (scanLoop e lst rec fuel 0 1).2.1
            (scanLoop e lst rec fuel 0 1).2.2).2.2) := by
    intro fuel
    unfold InsertOccList_steps
    rw [if_neg hlen, if_neg hb]
  have hstab : ∀ fuel, lst.length ≤ fuel →
      scanLoop e lst rec fuel 0 1 = scanLoop e lst rec lst.length 0 1 ∧
      scanLoopSteps e lst rec fuel 0 1 = scanLoopSteps e lst rec lst.length 0 1 := by
    intro fuel hf
    exact scanLoop_stable e lst rec fuel lst.length 0 (by omega) (by omega) (by omega)
  have hsc := scanLoopSteps_le e lst rec lst.length 0 (by omega)
  simp only [Nat.zero_add] at hsc
  rcases InsertOccList_cases e lst rec c1 c2 (by omega) hb1 hb2 with
    ⟨h, hscan, _⟩ | ⟨pre, L, R, suf, hs, _, hscan, _, h⟩
  · refine ⟨scanLoopSteps e lst rec lst.length 0 1, 0, by omega, Nat.zero_le _, ?_⟩
    intro fuel hf
    rw [hstep, (hstab fuel hf).1, (hstab fuel hf).2, hscan, h]
    simp
  · by_cases hx : wrapInt (L.rght + 1) ≥ rec.left
    · refine ⟨scanLoopSteps e lst rec lst.length 0 1,
        (suf.length + 2) - (absorb ⟨L.left, max L.rght rec.rght⟩ (R :: suf)).length,
        by omega, ?_, ?_⟩
      · rw [hs]; simp only [List.length_append, List.length_cons]; omega
      · intro fuel hf
        have hf2 : (R :: suf).length ≤ fuel := by
          rw [hs] at hf; simp only [List.length_append, List.length_cons] at hf ⊢; omega
        rw [hstep, (hstab fuel hf).1, (hstab fuel hf).2, hscan, h, insertAt_split]
        simp only [Bool.not_true, Bool.false_eq_true, if_false]
        rw [hs, step3_split, if_pos hx, if_pos hx]
        simp only []
        rw [mergeLoop_eq e pre (R :: suf) fuel _ hf2]
        have := mergeLoopSteps_eq e pre (R :: suf) fuel ⟨L.left, max L.rght rec.rght⟩ hf2
        simp only [List.length_cons] at this
        congr 2
        omega
    · refine ⟨scanLoopSteps e lst rec lst.length 0 1,
        (suf.length + 2) - (absorb rec (R :: suf)).length,
        by omega, ?_, ?_⟩
      · rw [hs]; simp only [List.length_append, List.length_cons]; omega
      · intro fuel hf
        have hf2 : (R :: suf).length ≤ fuel := by
          rw [hs] at hf; simp only [List.length_append, List.length_cons] at hf ⊢; omega
        rw [hstep, (hstab fuel hf).1, (hstab fuel hf).2, hscan, h, insertAt_split]
        simp only [Bool.not_true, Bool.false_eq_true, if_false]
        rw [hs, step3_split, if_neg hx, if_neg hx]
        simp only []
        rw [mergeLoop_eq e (pre ++ [L]) (R :: suf) fuel _ hf2]
        have := mergeLoopSteps_eq e (pre ++ [L]) (R :: suf) fuel rec hf2
        simp only [List.length_cons, List.append_assoc, List.singleton_append,
          List.length_append, List.length_nil] at this
        simp only [List.append_assoc, List.singleton_append, List.length_append,
          List.length_cons, List.length_nil]
        congr 2
        omega

/-! ### The merge test at the end of the list -/

/-- C21 (the code at the failing input): the freshly initialised list of a 400 column
screen is well-formed and the record `[0, 399]` satisfies
`INT_MIN < left <= rght < INT_MAX`.  The scan finds the first pair, step 3 extends the
left interval to `(INT_MIN, 399)`, and the test of the merge loop is evaluated twice:
the second time after the last interval has been erased, with `(*iterLeft).rght`
equal to `INT_MAX`, so that `rght + 1` overflows, and with `iterRght` equal to
`lst.end()` when `*iterRght` is read. -/
theorem C21_merge_test_reads_end :
    WellFormed (InitOccList 400) ∧
    (INT_MIN < (⟨0, 399⟩ : OcclusionRec).left ∧
      (⟨0, 399⟩ : OcclusionRec).left ≤ (⟨0, 399⟩ : OcclusionRec).rght ∧
      (⟨0, 399⟩ : OcclusionRec).rght < INT_MAX) ∧
    wrapInt (INT_MAX + 1) = INT_MIN ∧
    (∀ e : OcclusionRec,
      scanLoop e (InitOccList 400) ⟨0, 399⟩ (InitOccList 400).length 0 1 = (true, 0, 1) ∧
      step3 e (InitOccList 400) ⟨0, 399⟩ 0 1 = ([⟨INT_MIN, 399⟩, ⟨400, INT_MAX⟩], 0, 1) ∧
      mergeLoopReads e 2 [⟨INT_MIN, 399⟩, ⟨400, INT_MAX⟩] 0 1 =
        [(399, false), (INT_MAX, true)] ∧
      (InsertOccList e (InitOccList 400) ⟨0, 399⟩ 0 0).lst = [⟨INT_MIN, INT_MAX⟩]) := by
  refine ⟨InitOccList_wellFormed 400 (by norm_num) (by unfold INT_MAX; norm_num), by decide,
    by decide, ?_⟩
  intro e
  refine ⟨?_, ?_, ?_, ?_⟩
  · simp [InitOccList, scanLoop, scanTest, deref, InBetween, INT_MIN, INT_MAX]
  · simp [InitOccList, step3, deref, wrapInt, INT_MIN, INT_MAX]
  · simp [mergeLoopReads, deref, wrapInt, INT_MIN, INT_MAX]
  · simp [InsertOccList, InitOccList, scanLoop, scanTest, insertAt, mergeLoop, deref, InBetween,
      wrapInt, INT_MIN, INT_MAX]

/-! ### The precondition of `InsertOccList` in the paint loop -/

theorem absorb_range : ∀ (suf : List OcclusionRec) (L : OcclusionRec),
    (INT_MIN ≤ L.left ∧ L.rght ≤ INT_MAX) → (∀ r ∈ suf, INT_MIN ≤ r.left ∧ r.rght ≤ INT_MAX) →
    ∀ b ∈ absorb L suf, INT_MIN ≤ b.left ∧ b.rght ≤ INT_MAX := by
  intro suf
  induction suf with
  | nil =>
    intro L hL _ b hb
    simp only [absorb, List.mem_singleton] at hb
    rw [hb]; exact hL
  | cons R suf ih =>
    intro L hL hs b hb
    have hR := hs R (List.mem_cons_self _ _)
    rw [absorb] at hb
    split at hb
    · refine ih _ ⟨le_min hL.1 hR.1, max_le hL.2 hR.2⟩ ?_ b hb
      intro r hr
      exact hs r (List.mem_cons_of_mem _ hr)
    · rcases List.mem_cons.mp hb with h | h
      · rw [h]; exact hL
      · exact hs b h

theorem outerBounds_facts (e : OcclusionRec) (lst : OccListType) (h : OuterBounds lst) :
    (lst.headD e).left = INT_MIN ∧ (lst.getLastD e).rght = INT_MAX := by
  obtain ⟨h1, h2, _⟩ := h
  constructor
  · cases lst with
    | nil => simp at h1
    | cons a t => simpa using h1
  · cases hl : lst.getLast? with
    | none => rw [hl] at h2; simp at h2
    | some b =>
      rw [hl] at h2
      have : lst.getLastD e = b := by
        rw [List.getLastD_eq_getLast?, hl]; rfl
      rw [this]; simpa using h2

theorem InitOccList_outerBounds (W : Int) (h1 : INT_MIN ≤ W) (_h2 : W ≤ INT_MAX) :
    OuterBounds (InitOccList W) := by
  refine ⟨rfl, rfl, ?_⟩
  intro r hr
  simp only [InitOccList, List.mem_cons, List.mem_singleton, List.not_mem_nil, or_false] at hr
  rcases hr with rfl | rfl
  · exact ⟨le_refl _, by unfold INT_MAX; norm_num⟩
  · exact ⟨h1, le_refl _⟩

theorem InsertOccList_outerBounds (e : OcclusionRec) (lst : OccListType) (rec : OcclusionRec)
    (c1 c2 : Int) (h : OuterBounds lst) (h1 : INT_MIN ≤ rec.left) (h2 : rec.rght ≤ INT_MAX) :
    OuterBounds (InsertOccList e lst rec c1 c2).lst := by
  by_cases hlen : lst.length < 2
  · simpa [InsertOccList, hlen] using h
  obtain ⟨hh, hl⟩ := outerBounds_facts e lst h
  rcases InsertOccList_cases e lst rec c1 c2 (by omega) hh hl with
    ⟨hr, _, _⟩ | ⟨pre, L, R, suf, hs, _, _, _, hr⟩
  · rw [hr]; exact h
  · obtain ⟨b1, b2, b3⟩ := h
    rw [hs] at b1 b2 b3
    have hL := b3 L (by simp)
    have hsuf : ∀ r ∈ R :: suf, INT_MIN ≤ r.left ∧ r.rght ≤ INT_MAX := by
      intro r hr; apply b3 r
      simp only [List.mem_append, List.mem_cons] at hr ⊢
      rcases hr with h | h
      · exact Or.inr (Or.inr (Or.inl h))
      · exact Or.inr (Or.inr (Or.inr h))
    have hpre : ∀ r ∈ pre, INT_MIN ≤ r.left ∧ r.rght ≤ INT_MAX := by
      intro r hr; apply b3 r; simp [hr]
    have hlastRS : (R :: suf).getLast?.map OcclusionRec.rght = some INT_MAX := by
      have : (pre ++ L :: R :: suf).getLast? = (R :: suf).getLast? := by
        have h1 : pre ++ L :: R :: suf = (pre ++ [L]) ++ (R :: suf) := by simp
        rw [h1, List.getLast?_append_of_ne_nil _ (by simp)]
      rw [← this]; exact b2
    rw [hr, insertAt_split]
    split
    · -- the left element is extended
      have hM : INT_MIN ≤ (⟨L.left, max L.rght rec.rght⟩ : OcclusionRec).left ∧
          (⟨L.left, max L.rght rec.rght⟩ : OcclusionRec).rght ≤ INT_MAX :=
        ⟨hL.1, max_le hL.2 h2⟩
      have hne := absorb_ne_nil (R :: suf) ⟨L.left, max L.rght rec.rght⟩
      refine ⟨?_, ?_, ?_⟩
      · cases pre with
        | nil =>
          simp only [List.nil_append] at b1 ⊢
          have hLl : L.left = INT_MIN := by simpa using b1
          rw [absorb_head (R :: suf) ⟨L.left, max L.rght rec.rght⟩ (by
            intro r hr; show L.left ≤ r.left; rw [hLl]; exact (hsuf r hr).1)]
          simp [hLl]
        | cons a t => simpa using b1
      · show (pre ++ absorb ⟨L.left, max L.rght rec.rght⟩ (R :: suf)).getLast?.map
            OcclusionRec.rght = some INT_MAX
        rw [List.getLast?_append_of_ne_nil _ hne]
        exact absorb_last (R :: suf) _ hM.2 (fun r hr => (hsuf r hr).2) (by
          rw [List.getLast?_cons_cons]; exact hlastRS)
      · intro r hr
        rcases List.mem_append.mp hr with h | h
        · exact hpre r h
        · exact absorb_range (R :: suf) _ hM hsuf r h
    · -- the record is inserted
      have hne := absorb_ne_nil (R :: suf) rec
      refine ⟨?_, ?_, ?_⟩
      · cases pre with
        | nil => simpa using b1
        | cons a t => simpa using b1
      · show (pre ++ L :: absorb rec (R :: suf)).getLast?.map OcclusionRec.rght = some INT_MAX
        have h1 : pre ++ L :: absorb rec (R :: suf) = (pre ++ [L]) ++ absorb rec (R :: suf) := by
          simp
        rw [h1, List.getLast?_append_of_ne_nil _ hne]
        exact absorb_last (R :: suf) _ h2 (fun r hr => (hsuf r hr).2) (by
          rw [List.getLast?_cons_cons]; exact hlastRS)
      · intro r hr
        rcases List.mem_append.mp hr with h | h
        · exact hpre r h
        · rcases List.mem_cons.mp h with h | h
          · rw [h]; exact hL
          · exact absorb_range (R :: suf) _ ⟨h1, h2⟩ hsuf r h

theorem paintLoopCalls_outerBounds (e : OcclusionRec) :
    ∀ (faces : List (Int × Int)) (lst : OccListType), OuterBounds lst →
      (∀ f ∈ faces, (INT_MIN ≤ f.1 ∧ f.1 ≤ INT_MAX) ∧ (INT_MIN ≤ f.2 ∧ f.2 ≤ INT_MAX)) →
      ∀ l ∈ paintLoopCalls e lst faces, 1 < SizeOccList l ∧ OuterBounds l := by
  intro faces
  induction faces with
  | nil => intro lst _ _ l hl; simp [paintLoopCalls] at hl
  | cons f faces ih =>
    intro lst hb hf l hl
    rw [paintLoopCalls] at hl
    split at hl
    · rename_i hsz
      rcases List.mem_cons.mp hl with h | h
      · rw [h]; exact ⟨hsz, hb⟩
      · have hf0 := hf f (List.mem_cons_self _ _)
        exact ih _ (InsertOccList_outerBounds e lst ⟨f.1, f.2⟩ 0 0 hb hf0.1.1 hf0.2.2)
          (fun g hg => hf g (List.mem_cons_of_mem _ hg)) l h
    · simp at hl

/-- C25: in the face loop of the paint pass, entered with the list of `InitOccList`,
for every list of faces (whose projected columns are arbitrary `int` values, and for
every `int` screen width) each call of `InsertOccList` receives a list with at least
two intervals whose first `left` is `INT_MIN` and whose last `rght` is `INT_MAX`: the
conditions of the two ERROR branches of `InsertOccList` are false at every call. -/
theorem C25_paint_loop_precondition (e : OcclusionRec) (W : Int) (faces : List (Int × Int))
    (hW : INT_MIN ≤ W ∧ W ≤ INT_MAX)
    (hf : ∀ f ∈ faces, (INT_MIN ≤ f.1 ∧ f.1 ≤ INT_MAX) ∧ (INT_MIN ≤ f.2 ∧ f.2 ≤ INT_MAX)) :
    ∀ l ∈ paintLoopCalls e (InitOccList W) faces,
      (2 ≤ l.length ∧ (l.headD e).left = INT_MIN ∧ (l.getLastD e).rght = INT_MAX) ∧
      ¬ (l.length < 2) ∧ ¬ ((l.headD e).left ≠ INT_MIN ∨ (l.getLastD e).rght ≠ INT_MAX) := by
  intro l hl
  obtain ⟨h1, h2⟩ := paintLoopCalls_outerBounds e faces (InitOccList W)
    (InitOccList_outerBounds W hW.1 hW.2) hf l hl
  obtain ⟨h3, h4⟩ := outerBounds_facts e l h2
  have h5 : 2 ≤ l.length := by
    unfold SizeOccList at h1; omega
  refine ⟨⟨h5, h3, h4⟩, by omega, ?_⟩
  rintro (h | h)
  · exact h h3
  · exact h h4

/-- C25 witness: four faces on a 400 column screen, one of them with its columns in
reverse order and one covering the whole screen. -/
theorem C25_paint_loop_precondition_witness :
    (INT_MIN ≤ (400 : Int) ∧ (400 : Int) ≤ INT_MAX) ∧
    ∀ l ∈ paintLoopCalls ⟨0, 0⟩ (InitOccList 400) [(10, 20), (30, 5), (0, 399), (7, 8)],
      (2 ≤ l.length ∧ (l.headD ⟨0, 0⟩).left = INT_MIN ∧ (l.getLastD ⟨0, 0⟩).rght = INT_MAX) ∧
      ¬ (l.length < 2) ∧
      ¬ ((l.headD ⟨0, 0⟩).left ≠ INT_MIN ∨ (l.getLastD ⟨0, 0⟩).rght ≠ INT_MAX) :=
  ⟨by decide, C25_paint_loop_precondition ⟨0, 0⟩ 400 [(10, 20), (30, 5), (0, 399), (7, 8)]
    (by decide) (by decide)⟩

/-! ### A rejected record leaves the list as it is -/

theorem absorb_head_bounds : ∀ (suf : List OcclusionRec) (M : OcclusionRec),
    ∃ b t, absorb M suf = b :: t ∧ b.left ≤ M.left ∧ M.rght ≤ b.rght := by
  intro suf
  induction suf with
  | nil => intro M; exact ⟨M, [], rfl, le_refl _, le_refl _⟩
  | cons R suf ih =>
    intro M
    rw [absorb]
    split
    · obtain ⟨b, t, h1, h2, h3⟩ := ih ⟨min M.left R.left, max M.rght R.rght⟩
      exact ⟨b, t, h1, le_trans h2 (min_le_left _ _), le_trans (le_max_left _ _) h3⟩
    · exact ⟨M, R :: suf, rfl, le_refl _, le_refl _⟩

theorem absorb_no_merge (R : OcclusionRec) (suf : List OcclusionRec)
    (hp : (R :: suf).Pairwise Gap) (hr : ∀ r ∈ R :: suf, r.left ≤ r.rght ∧ r.rght ≤ INT_MAX)
    (hR : INT_MIN ≤ R.left) : absorb R suf = R :: suf := by
  cases suf with
  | nil => rfl
  | cons S t =>
    have hg : Gap R S := (List.pairwise_cons.mp hp).1 S (List.mem_cons_self _ _)
    have hS := hr S (by simp)
    have hR2 := hr R (by simp)
    unfold Gap at hg
    rw [absorb, wrapInt_eq _ (by omega) (by omega), if_neg (by omega)]

theorem insertAt_ret (e : OcclusionRec) (lst : OccListType) (rec : OcclusionRec) (iL iR : Nat) :
    (insertAt e lst rec iL iR).ret =
      decide ((insertAt e lst rec iL iR).nClipLeft ≤ (insertAt e lst rec iL iR).nClipRght) := rfl

theorem InsertOccList_reject_iff (e : OcclusionRec) (lst : OccListType) (rec : OcclusionRec)
    (c1 c2 : Int) (hwf : WellFormed lst) (h2 : rec.left ≤ rec.rght) :
    (InsertOccList e lst rec c1 c2).ret = false ↔ (InsertOccList e lst rec c1 c2).lst = lst := by
  by_cases hlen : lst.length < 2
  · simp [InsertOccList, hlen]
  obtain ⟨hh, hl⟩ := headD_of_wf e lst hwf
  rcases InsertOccList_cases e lst rec c1 c2 (by omega) hh hl with
    ⟨hr, _, _⟩ | ⟨pre, L, R, suf, hs, hfound, _, _, hr⟩
  · rw [hr]; simp
  · rw [hs] at hwf
    obtain ⟨g1, g2, g3, g4, g5, g6⟩ := wf_not_last pre L R suf hwf
    obtain ⟨_, _, f3, f4, _, _, _, _, _, _⟩ := wf_split_facts pre L R suf hwf
    have hw1 : wrapInt (L.rght + 1) = L.rght + 1 :=
      wrapInt_eq _ (by omega) (by omega)
    have hw2 : wrapInt (R.left - 1) = R.left - 1 :=
      wrapInt_eq _ (by omega) (by omega)
    rw [hr, insertAt_split, hs, hw1, hw2]
    by_cases hx : L.rght + 1 ≥ rec.left
    · rw [if_pos hx]
      by_cases hle : rec.rght ≤ L.rght
      · -- the record lies inside the left element
        have hmax : max L.rght rec.rght = L.rght := max_eq_left hle
        have hLeta : (⟨L.left, L.rght⟩ : OcclusionRec) = L := rfl
        simp only [hmax, hw1, hLeta]
        rw [if_neg (by omega), absorb, hw1, if_neg (by omega)]
        simp only [decide_eq_false_iff_not, not_le, iff_true]
        omega
      · -- the left element grows
        have hmax : max L.rght rec.rght = rec.rght := max_eq_right (by omega)
        simp only [hmax]
        have hret : (L.rght + 1 ≤ if wrapInt (rec.rght + 1) ≥ R.left then R.left - 1
            else rec.rght) := by
          split <;> omega
        obtain ⟨b, t, hb1, _, hb3⟩ := absorb_head_bounds (R :: suf) ⟨L.left, rec.rght⟩
        constructor
        · intro hf
          simp only [decide_eq_false_iff_not] at hf
          exact absurd hret hf
        · intro heq
          rw [hb1] at heq
          have := List.append_cancel_left heq
          have hbL : b = L := (List.cons.inj this).1
          rw [hbL] at hb3
          simp only at hb3
          omega
    · rw [if_neg hx]
      have hA : ¬ InBetween rec.left L.left L.rght = true := by
        unfold InBetween
        simp only [Bool.and_eq_true, decide_eq_true_eq, not_and, not_le]
        intro _; omega
      by_cases hm : wrapInt (rec.rght + 1) ≥ R.left
      · rw [if_pos hm]
        by_cases hlt : rec.left ≤ R.left - 1
        · -- accepted, merged with the right element
          obtain ⟨b, t, hb1, hb2, _⟩ :=
            absorb_head_bounds suf ⟨min rec.left R.left, max rec.rght R.rght⟩
          constructor
          · intro hf
            simp only [decide_eq_false_iff_not] at hf
            exact absurd hlt hf
          · intro heq
            have h5 := List.append_cancel_left heq
            have h6 := (List.cons.inj h5).2
            rw [absorb, if_pos hm, hb1] at h6
            have hbR : b = R := (List.cons.inj h6).1
            rw [hbR] at hb2
            simp only at hb2
            have := min_le_left rec.left R.left
            omega
        · -- rejected: the record lies inside the right element
          have hB : rec.rght ≤ R.rght := by
            unfold foundAt at hfound
            simp only [Bool.or_eq_true, Bool.and_eq_true, decide_eq_true_eq] at hfound
            rcases hfound with (hfa | hfb) | hfc
            · exact absurd hfa hA
            · unfold InBetween at hfb
              simp only [Bool.and_eq_true, decide_eq_true_eq] at hfb
              exact hfb.2
            · omega
          have hmin : min rec.left R.left = R.left := min_eq_right (by omega)
          have hmax : max rec.rght R.rght = R.rght := max_eq_right hB
          have hReta : (⟨R.left, R.rght⟩ : OcclusionRec) = R := rfl
          rw [absorb, if_pos hm, hmin, hmax, hReta,
            absorb_no_merge R suf f3 f4 (by omega)]
          simp only [decide_eq_false_iff_not, iff_true]
          exact hlt
      · -- accepted, inserted without a merge
        rw [if_neg hm, absorb, if_neg hm]
        constructor
        · intro hf
          simp only [decide_eq_false_iff_not] at hf
          exact absurd h2 hf
        · intro heq
          have := congrArg List.length heq
          simp only [List.length_append, List.length_cons] at this
          omega

/-- C22 (amended): for every well-formed list and every record with `left <= rght`,
`InsertOccList` returns `false` if and only if the list is the same after the call as
before it; no call uncovers a column; and an accepted record with
`INT_MIN <= left` and `rght < INT_MAX` adds at least one column to the set of occluded
columns. -/
theorem C22_reject_iff_unchanged (e : OcclusionRec) (lst : OccListType) (rec : OcclusionRec)
    (c1 c2 : Int) (hwf : WellFormed lst) (h2 : rec.left ≤ rec.rght) :
    ((InsertOccList e lst rec c1 c2).ret = false ↔ (InsertOccList e lst rec c1 c2).lst = lst) ∧
    (∀ x : Int, Covered lst x → Covered (InsertOccList e lst rec c1 c2).lst x) ∧
    (INT_MIN ≤ rec.left → rec.rght < INT_MAX → (InsertOccList e lst rec c1 c2).ret = true →
      ∃ x : Int, ¬ Covered lst x ∧ Covered (InsertOccList e lst rec c1 c2).lst x) := by
  refine ⟨InsertOccList_reject_iff e lst rec c1 c2 hwf h2,
    fun x hx => InsertOccList_covered_mono e lst rec c1 c2 x hx, ?_⟩
  intro h1 h4 hret
  have hle : (InsertOccList e lst rec c1 c2).nClipLeft ≤ (InsertOccList e lst rec c1 c2).nClipRght := by
    by_cases hlen : lst.length < 2
    · unfold InsertOccList at hret
      rw [if_pos hlen] at hret
      simp at hret
    · obtain ⟨hh, hl⟩ := headD_of_wf e lst hwf
      rcases InsertOccList_cases e lst rec c1 c2 (by omega) hh hl with
        ⟨hr, _, _⟩ | ⟨pre, L, R, suf, hs, _, _, _, hr⟩
      · rw [hr] at hret; simp at hret
      · rw [hr] at hret ⊢
        rw [insertAt_ret] at hret
        exact of_decide_eq_true hret
  exact ⟨(InsertOccList e lst rec c1 c2).nClipLeft,
    InsertOccList_clip e lst rec c1 c2 hwf ⟨h1, h2, h4⟩ hret _ (le_refl _) hle⟩

/-- C22 witness: the record `[0, 100]` on the freshly initialised list of a 400 column
screen. -/
theorem C22_reject_iff_unchanged_witness :
    ((InsertOccList ⟨0, 0⟩ (InitOccList 400) ⟨0, 100⟩ 0 0).ret = false ↔
      (InsertOccList ⟨0, 0⟩ (InitOccList 400) ⟨0, 100⟩ 0 0).lst = InitOccList 400) ∧
    (∀ x : Int, Covered (InitOccList 400) x →
      Covered (InsertOccList ⟨0, 0⟩ (InitOccList 400) ⟨0, 100⟩ 0 0).lst x) ∧
    (INT_MIN ≤ (⟨0, 100⟩ : OcclusionRec).left → (⟨0, 100⟩ : OcclusionRec).rght < INT_MAX →
      (InsertOccList ⟨0, 0⟩ (InitOccList 400) ⟨0, 100⟩ 0 0).ret = true →
      ∃ x : Int, ¬ Covered (InitOccList 400) x ∧
        Covered (InsertOccList ⟨0, 0⟩ (InitOccList 400) ⟨0, 100⟩ 0 0).lst x) :=
  C22_reject_iff_unchanged ⟨0, 0⟩ (InitOccList 400) ⟨0, 100⟩ 0 0
    (InitOccList_wellFormed 400 (by norm_num) (by unfold INT_MAX; norm_num)) (by decide)

/-- C22 counterexample: on the freshly initialised list of a 400 column screen,
which is well-formed, the record `[500, INT_MAX]` has `left <= rght` and is accepted,
the list changes, and yet no column is added: the same columns are occluded before
and after the call. -/
theorem C22_counterexample :
    WellFormed (InitOccList 400) ∧
    (⟨500, INT_MAX⟩ : OcclusionRec).left ≤ (⟨500, INT_MAX⟩ : OcclusionRec).rght ∧
    (∀ e : OcclusionRec,
      (InsertOccList e (InitOccList 400) ⟨500, INT_MAX⟩ 0 0).ret = true ∧
      (InsertOccList e (InitOccList 400) ⟨500, INT_MAX⟩ 0 0).lst =
        [⟨INT_MIN, -1⟩, ⟨500, INT_MAX⟩, ⟨400, INT_MAX⟩] ∧
      ∀ x : Int, Covered (InsertOccList e (InitOccList 400) ⟨500, INT_MAX⟩ 0 0).lst x ↔
        Covered (InitOccList 400) x) := by
  refine ⟨InitOccList_wellFormed 400 (by norm_num) (by unfold INT_MAX; norm_num), by decide, ?_⟩
  intro e
  have hl : (InsertOccList e (InitOccList 400) ⟨500, INT_MAX⟩ 0 0) =
      ⟨true, [⟨INT_MIN, -1⟩, ⟨500, INT_MAX⟩, ⟨400, INT_MAX⟩], 500, INT_MAX⟩ := by
    simp [InsertOccList, InitOccList, scanLoop, scanTest, insertAt, mergeLoop, deref, InBetween,
      wrapInt, INT_MIN, INT_MAX]
  rw [hl]
  refine ⟨rfl, rfl, ?_⟩
  intro x
  simp only [Covered, InRec, InitOccList, List.mem_cons, List.mem_singleton, List.not_mem_nil,
    or_false, exists_eq_or_imp, exists_eq_left, INT_MIN, INT_MAX]
  omega

/-! ### The earlier variants of `InsertOccList` -/

theorem intToFloat_small (v : Int) (h1 : -16777216 < v) (h2 : v < 16777216) :
    intToFloat v = (v : ℚ) := by
  have ha : v.natAbs < 2 ^ 24 := by omega
  unfold intToFloat floatUlp
  simp only [ha, if_true, Nat.div_one, Nat.mod_one, Nat.mul_one, Nat.mul_zero]
  have hm : ¬ (0 > 1 ∨ 0 = 1 ∧ v.natAbs % 2 = 1) := by omega
  rw [if_neg hm]
  by_cases hn : v < 0
  · rw [if_pos hn]
    have : ((v.natAbs : Int) : ℚ) = -(v : ℚ) := by
      rw [Int.ofNat_natAbs_of_nonpos (le_of_lt hn)]; push_cast; ring
    have h3 : ((v.natAbs : Int) : ℚ) = ((v.natAbs : Nat) : ℚ) := Int.cast_natCast _
    rw [h3] at this
    rw [this]; ring
  · rw [if_neg hn]
    have : ((v.natAbs : Int) : ℚ) = (v : ℚ) := by
      rw [Int.natAbs_of_nonneg (not_lt.mp hn)]
    have h3 : ((v.natAbs : Int) : ℚ) = ((v.natAbs : Nat) : ℚ) := Int.cast_natCast _
    rw [h3] at this
    exact this

theorem intToFloat_INT_MIN : intToFloat INT_MIN = -2147483648 := by
  norm_num [intToFloat, floatUlp, INT_MIN]

theorem intToFloat_INT_MAX : intToFloat INT_MAX = 2147483648 := by
  norm_num [intToFloat, floatUlp, INT_MAX]

theorem intToFloat_le_iff (a b : Int) (ha : FloatExact a) (hb : FloatExact b) :
    intToFloat a ≤ intToFloat b ↔ a ≤ b := by
  rcases ha with ha | ha | ⟨ha1, ha2⟩ <;> rcases hb with hb | hb | ⟨hb1, hb2⟩
  · rw [ha, hb]; simp
  · rw [ha, hb, intToFloat_INT_MIN, intToFloat_INT_MAX]
    unfold INT_MIN INT_MAX; norm_num
  · rw [ha, intToFloat_INT_MIN, intToFloat_small b hb1 hb2]
    have h1 : ((-16777216 : Int) : ℚ) < (b : ℚ) := by exact_mod_cast hb1
    unfold INT_MIN
    constructor
    · intro _; omega
    · intro _; push_cast at h1; linarith
  · rw [ha, hb, intToFloat_INT_MIN, intToFloat_INT_MAX]
    unfold INT_MIN INT_MAX; norm_num
  · rw [ha, hb]; simp
  · rw [ha, intToFloat_INT_MAX, intToFloat_small b hb1 hb2]
    have h1 : (b : ℚ) < ((16777216 : Int) : ℚ) := by exact_mod_cast hb2
    unfold INT_MAX
    constructor
    · intro h; push_cast at h1; linarith
    · intro h; omega
  · rw [hb, intToFloat_INT_MIN, intToFloat_small a ha1 ha2]
    have h1 : ((-16777216 : Int) : ℚ) < (a : ℚ) := by exact_mod_cast ha1
    unfold INT_MIN
    constructor
    · intro h; push_cast at h1; linarith
    · intro h; omega
  · rw [hb, intToFloat_INT_MAX, intToFloat_small a ha1 ha2]
    have h1 : (a : ℚ) < ((16777216 : Int) : ℚ) := by exact_mod_cast ha2
    unfold INT_MAX
    constructor
    · intro _; omega
    · intro _; push_cast at h1; linarith
  · rw [intToFloat_small a ha1 ha2, intToFloat_small b hb1 hb2]
    exact Int.cast_le

theorem InBetween_step3c_eq (n lo hi : Int) (h1 : FloatExact n) (h2 : FloatExact lo)
    (h3 : FloatExact hi) : InBetween_step3c n lo hi = InBetween n lo hi := by
  unfold InBetween_step3c InBetweenF InBetween
  rw [decide_eq_decide.mpr (intToFloat_le_iff lo n h2 h1),
    decide_eq_decide.mpr (intToFloat_le_iff n hi h1 h3)]

theorem deref_mem (e : OcclusionRec) (lst : OccListType) (i : Nat) (h : i < lst.length) :
    deref e lst i ∈ lst := by
  unfold deref
  rw [List.getD_eq_getElem _ _ h]
  exact List.getElem_mem h

theorem scanCond_step3c_eq (e : OcclusionRec) (lst : OccListType) (rec : OcclusionRec)
    (hx : ∀ r ∈ rec :: lst, FloatExact r.left ∧ FloatExact r.rght) (k : Nat)
    (hk : k + 1 ≤ lst.length) :
    (decide (k + 1 ≠ lst.length) && scanCond_step3c e lst rec k (k + 1)) =
      scanTest e lst rec k (k + 1) := by
  unfold scanTest
  by_cases hend : k + 1 = lst.length
  · simp [hend]
  · have h1 := hx _ (List.mem_cons_of_mem _ (deref_mem e lst k (by omega)))
    have h2 := hx _ (List.mem_cons_of_mem _ (deref_mem e lst (k + 1) (by omega)))
    have h3 := hx rec (List.mem_cons_self _ _)
    unfold scanCond_step3c
    rw [InBetween_step3c_eq _ _ _ h3.1 h1.1 h1.2, InBetween_step3c_eq _ _ _ h3.2 h2.1 h2.2]

theorem scanLoop_step3c_eq (e : OcclusionRec) (lst : OccListType) (rec : OcclusionRec)
    (hx : ∀ r ∈ rec :: lst, FloatExact r.left ∧ FloatExact r.rght) :
    ∀ (fuel iL : Nat), iL + 1 < lst.length → lst.length ≤ fuel + (iL + 1) →
      scanLoop_step3c e lst rec fuel (scanTest e lst rec iL (iL + 1)) iL (iL + 1) =
        scanLoop e lst rec fuel iL (iL + 1) := by
  intro fuel
  induction fuel with
  | zero => intro iL h1 h2; omega
  | succ n ih =>
    intro iL h1 h2
    rw [scanLoop_step3c, scanLoop]
    by_cases ht : scanTest e lst rec iL (iL + 1) = true
    · simp [ht]
    · have htf : scanTest e lst rec iL (iL + 1) = false := by simpa using ht
      rw [htf]
      simp only [Bool.not_false, Bool.true_and, Bool.false_eq_true, if_false]
      rw [if_pos (by simp; omega), scanCond_step3c_eq e lst rec hx (iL + 1) (by omega)]
      by_cases hend : iL + 1 + 1 = lst.length
      · rw [if_neg (by simp [hend])]
        have hg : scanTest e lst rec (iL + 1) (iL + 1 + 1) = false := by
          unfold scanTest; simp [hend]
        rw [hg]
        cases n with
        | zero => rfl
        | succ m =>
          rw [scanLoop_step3c]
          simp [hend]
      · rw [if_pos hend]
        exact ih (iL + 1) (by omega) (by omega)

/-- C23 (amended): for every list satisfying the precondition and every record, the
final `InsertOccList` and the step 4b variant leave the same list, compute the same
clip values when an insertion point is found, and their return values differ exactly
when `nClipLeft = nClipRght`; the same holds for the step 3c variant when every bound
of the list and of the record is a sentinel or has a magnitude below `2^24`, so that
the `float` comparison of its scan test agrees with the `int` comparison. -/
theorem C23_variants_agree (e : OcclusionRec) (lst : OccListType) (rec : OcclusionRec)
    (c1 c2 : Int) (hlen : 2 ≤ lst.length) (hhead : (lst.headD e).left = INT_MIN)
    (hlast : (lst.getLastD e).rght = INT_MAX) :
    ((InsertOccList_step4b e lst rec c1 c2).lst = (InsertOccList e lst rec c1 c2).lst ∧
      ((scanLoop e lst rec lst.length 0 1).1 = true →
        (InsertOccList_step4b e lst rec c1 c2).nClipLeft =
            (InsertOccList e lst rec c1 c2).nClipLeft ∧
          (InsertOccList_step4b e lst rec c1 c2).nClipRght =
            (InsertOccList e lst rec c1 c2).nClipRght) ∧
      ((InsertOccList_step4b e lst rec c1 c2).ret ≠ (InsertOccList e lst rec c1 c2).ret ↔
        (InsertOccList e lst rec c1 c2).nClipLeft = (InsertOccList e lst rec c1 c2).nClipRght) ∧
      ((InsertOccList e lst rec c1 c2).nClipLeft = (InsertOccList e lst rec c1 c2).nClipRght →
        (InsertOccList e lst rec c1 c2).ret = true ∧
          (InsertOccList_step4b e lst rec c1 c2).ret = false)) ∧
    ((∀ r ∈ rec :: lst, FloatExact r.left ∧ FloatExact r.rght) →
      InsertOccList_step3c e lst rec c1 c2 = InsertOccList_step4b e lst rec c1 c2) := by
  have hfin : InsertOccList e lst rec c1 c2 =
      if !(scanLoop e lst rec lst.length 0 1).1 then ⟨false, lst, -1, -2⟩
      else insertAt e lst rec (scanLoop e lst rec lst.length 0 1).2.1
        (scanLoop e lst rec lst.length 0 1).2.2 := by
    unfold InsertOccList
    rw [if_neg (by omega), if_neg (by rw [hhead, hlast]; simp)]
    simp
  have h4b : InsertOccList_step4b e lst rec c1 c2 =
      if !(scanLoop e lst rec lst.length 0 1).1 then ⟨false, lst, -1, -1⟩
      else
        ⟨decide ((insertAt e lst rec (scanLoop e lst rec lst.length 0 1).2.1
              (scanLoop e lst rec lst.length 0 1).2.2).nClipLeft <
            (insertAt e lst rec (scanLoop e lst rec lst.length 0 1).2.1
              (scanLoop e lst rec lst.length 0 1).2.2).nClipRght),
          (insertAt e lst rec (scanLoop e lst rec lst.length 0 1).2.1
              (scanLoop e lst rec lst.length 0 1).2.2).lst,
          (insertAt e lst rec (scanLoop e lst rec lst.length 0 1).2.1
              (scanLoop e lst rec lst.length 0 1).2.2).nClipLeft,
          (insertAt e lst rec (scanLoop e lst rec lst.length 0 1).2.1
              (scanLoop e lst rec lst.length 0 1).2.2).nClipRght⟩ := by
    unfold InsertOccList_step4b
    rw [if_neg (by omega), if_neg (by rw [hhead, hlast]; simp)]
    simp
  refine ⟨?_, ?_⟩
  · rw [hfin, h4b]
    by_cases hf : (scanLoop e lst rec lst.length 0 1).1 = true
    · simp only [hf, Bool.not_true, Bool.false_eq_true, if_false]
      rw [insertAt_ret]
      refine ⟨by trivial, fun _ => ⟨by trivial, by trivial⟩, ?_, ?_⟩
      · simp only [ne_eq, decide_eq_decide]
        constructor
        · intro h; by_contra hne; apply h
          constructor
          · intro h1; exact le_of_lt h1
          · intro h1; exact lt_of_le_of_ne h1 hne
        · intro h1 h2
          rw [h1] at h2
          exact absurd (h2.mpr (le_refl _)) (lt_irrefl _)
      · intro h1
        rw [h1]
        simp
    · have hf2 : (scanLoop e lst rec lst.length 0 1).1 = false := by simpa using hf
      simp [hf2]
  · intro hx
    rw [h4b]
    unfold InsertOccList_step3c
    rw [if_neg (by omega)]
    have h0 := scanCond_step3c_eq e lst rec hx 0 (by omega)
    have hne : decide (0 + 1 ≠ lst.length) = true := by simp; omega
    rw [hne, Bool.true_and] at h0
    have h1 := scanLoop_step3c_eq e lst rec hx lst.length 0 (by omega) (by omega)
    simp only [Nat.zero_add] at h0 h1
    rw [h0, h1]
    simp

/-- C23 witness: the single-column record `[10, 10]` on the freshly initialised list
of a 400 column screen, which the final routine accepts and the variants reject. -/
theorem C23_variants_agree_witness :
    ((InsertOccList_step4b ⟨0, 0⟩ (InitOccList 400) ⟨10, 10⟩ 0 0).lst =
        (InsertOccList ⟨0, 0⟩ (InitOccList 400) ⟨10, 10⟩ 0 0).lst ∧
      ((scanLoop ⟨0, 0⟩ (InitOccList 400) ⟨10, 10⟩ (InitOccList 400).length 0 1).1 = true →
        (InsertOccList_step4b ⟨0, 0⟩ (InitOccList 400) ⟨10, 10⟩ 0 0).nClipLeft =
            (InsertOccList ⟨0, 0⟩ (InitOccList 400) ⟨10, 10⟩ 0 0).nClipLeft ∧
          (InsertOccList_step4b ⟨0, 0⟩ (InitOccList 400) ⟨10, 10⟩ 0 0).nClipRght =
            (InsertOccList ⟨0, 0⟩ (InitOccList 400) ⟨10, 10⟩ 0 0).nClipRght) ∧
      ((InsertOccList_step4b ⟨0, 0⟩ (InitOccList 400) ⟨10, 10⟩ 0 0).ret ≠
          (InsertOccList ⟨0, 0⟩ (InitOccList 400) ⟨10, 10⟩ 0 0).ret ↔
        (InsertOccList ⟨0, 0⟩ (InitOccList 400) ⟨10, 10⟩ 0 0).nClipLeft =
          (InsertOccList ⟨0, 0⟩ (InitOccList 400) ⟨10, 10⟩ 0 0).nClipRght) ∧
      ((InsertOccList ⟨0, 0⟩ (InitOccList 400) ⟨10, 10⟩ 0 0).nClipLeft =
          (InsertOccList ⟨0, 0⟩ (InitOccList 400) ⟨10, 10⟩ 0 0).nClipRght →
        (InsertOccList ⟨0, 0⟩ (InitOccList 400) ⟨10, 10⟩ 0 0).ret = true ∧
          (InsertOccList_step4b ⟨0, 0⟩ (InitOccList 400) ⟨10, 10⟩ 0 0).ret = false)) ∧
    ((∀ r ∈ (⟨10, 10⟩ : OcclusionRec) :: InitOccList 400,
        FloatExact r.left ∧ FloatExact r.rght) →
      InsertOccList_step3c ⟨0, 0⟩ (InitOccList 400) ⟨10, 10⟩ 0 0 =
        InsertOccList_step4b ⟨0, 0⟩ (InitOccList 400) ⟨10, 10⟩ 0 0) :=
  C23_variants_agree ⟨0, 0⟩ (InitOccList 400) ⟨10, 10⟩ 0 0 (by decide) (by decide) (by decide)

/-- C23 counterexample: the list `(INT_MIN, 67108865)`, `(67109000, 67109100)`,
`(70000000, INT_MAX)` satisfies the precondition.  For the record
`[67108866, 67109200]` the final `InsertOccList` finds no insertion point and leaves
the list as it is, whereas the step 3c variant, whose scan test compares
`rec.left` and the `rght` of the first interval after conversion to `float` (both
become `67108864`), extends the first interval over the second one and returns
`true`. -/
theorem C23_counterexample :
    2 ≤ ([⟨INT_MIN, 67108865⟩, ⟨67109000, 67109100⟩, ⟨70000000, INT_MAX⟩] :
      OccListType).length ∧
    intToFloat 67108866 = 67108864 ∧ intToFloat 67108865 = 67108864 ∧
    (∀ e : OcclusionRec,
      (([⟨INT_MIN, 67108865⟩, ⟨67109000, 67109100⟩, ⟨70000000, INT_MAX⟩] :
        OccListType).headD e).left = INT_MIN ∧
      (([⟨INT_MIN, 67108865⟩, ⟨67109000, 67109100⟩, ⟨70000000, INT_MAX⟩] :
        OccListType).getLastD e).rght = INT_MAX ∧
      InsertOccList e [⟨INT_MIN, 67108865⟩, ⟨67109000, 67109100⟩, ⟨70000000, INT_MAX⟩]
          ⟨67108866, 67109200⟩ 0 0 =
        ⟨false, [⟨INT_MIN, 67108865⟩, ⟨67109000, 67109100⟩, ⟨70000000, INT_MAX⟩], -1, -2⟩ ∧
      InsertOccList_step3c e [⟨INT_MIN, 67108865⟩, ⟨67109000, 67109100⟩, ⟨70000000, INT_MAX⟩]
          ⟨67108866, 67109200⟩ 0 0 =
        ⟨true, [⟨INT_MIN, 67109200⟩, ⟨70000000, INT_MAX⟩], 67108866, 67108999⟩) := by
  have f1 : intToFloat 67108866 = 67108864 := by norm_num [intToFloat, floatUlp]
  have f2 : intToFloat 67108865 = 67108864 := by norm_num [intToFloat, floatUlp]
  refine ⟨by decide, f1, f2, ?_⟩
  intro e
  refine ⟨rfl, rfl, ?_, ?_⟩
  · simp [InsertOccList, scanLoop, scanTest, deref, InBetween, INT_MIN, INT_MAX]
  · have f3 : intToFloat INT_MIN = -2147483648 := intToFloat_INT_MIN
    have hc : scanCond_step3c e
        [⟨INT_MIN, 67108865⟩, ⟨67109000, 67109100⟩, ⟨70000000, INT_MAX⟩]
        ⟨67108866, 67109200⟩ 0 1 = true := by
      simp [scanCond_step3c, InBetween_step3c, InBetweenF, deref, f1, f2, f3]
      left; norm_num
    have hi : insertAt e [⟨INT_MIN, 67108865⟩, ⟨67109000, 67109100⟩, ⟨70000000, INT_MAX⟩]
        ⟨67108866, 67109200⟩ 0 1 =
        ⟨true, [⟨INT_MIN, 67109200⟩, ⟨70000000, INT_MAX⟩], 67108866, 67108999⟩ := by
      simp [insertAt, mergeLoop, deref, wrapInt, INT_MIN, INT_MAX]
    unfold InsertOccList_step3c
    rw [hc]
    simp only [List.length_cons, List.length_nil, scanLoop_step3c]
    simp [hi]

/-! ### Corner sampling in `TileInFoV` -/

theorem cornerGame_angle (m : LibM) (nFace : Int) (y x : ℚ)
    (e1 : (GetColumnCoordinates 4 4 nFace true).2 - cornerGame.fPlayerY = y)
    (e2 : (GetColumnCoordinates 4 4 nFace true).1 - cornerGame.fPlayerX = x) :
    GetAngle_PlayerToLocation m cornerGame (GetColumnCoordinates 4 4 nFace true) =
      Mod2Pi_rad (m.atan2f y x) := by
  unfold GetAngle_PlayerToLocation
  rw [e1, e2]

/-- C28: `TileInFoV` can mis-classify a tile.  On the map of the program the player
stands at `(3.99, 4.9)` in the empty cell `(3, 4)`, outside the solid tile `(4, 4)`,
facing 45 degrees with the 60 degree field of view.  For every library whose `atan2f`
is within 0.01 of the arc tangent at the five directions involved (the sample library
is one, see the witness), the point `(4, 4.91)` of the tile has its angle from the
player inside the FoV sector, and yet `TileInFoV` returns `false` for the tile: none
of the four corners lies in the sector. -/
theorem C28_tile_in_fov_misses (m : LibM)
    (h1 : |m.atan2f (1 / 10) (101 / 100) - 987 / 10000| ≤ 1 / 100)
    (h2 : |m.atan2f (1 / 10) (1 / 100) - 14711 / 10000| ≤ 1 / 100)
    (h3 : |m.atan2f (-9 / 10) (1 / 100) + 15597 / 10000| ≤ 1 / 100)
    (h4 : |m.atan2f (-9 / 10) (101 / 100) + 7279 / 10000| ≤ 1 / 100)
    (h5 : |m.atan2f (1 / 100) (1 / 100) - 7854 / 10000| ≤ 1 / 100) :
    (mapAt cornerGame.sMap (4 * 16 + 4) = '#' ∧ mapAt cornerGame.sMap (4 * 16 + 3) = '.' ∧
      cornerGame.fPlayerX < 4 ∧ cornerGame.fPlayerA_rad = Deg2Rad cornerGame.fPlayerA_deg) ∧
    (((4 : ℚ) ≤ 4 ∧ (4 : ℚ) ≤ 4 + 1) ∧ ((4 : ℚ) ≤ 491 / 100 ∧ (491 / 100 : ℚ) ≤ 4 + 1)) ∧
    AngleInSector (GetAngle_PlayerToLocation m cornerGame (4, 491 / 100))
      (Mod2Pi_rad (cornerGame.fPlayerA_rad - Deg2Rad cornerGame.fPlayerFoV_deg * (1 / 2)))
      (Mod2Pi_rad (cornerGame.fPlayerA_rad + Deg2Rad cornerGame.fPlayerFoV_deg * (1 / 2))) = true ∧
    (∀ f ∈ [EAST, SOUTH, WEST, NORTH],
      AngleInSector (GetAngle_PlayerToLocation m cornerGame (GetColumnCoordinates 4 4 f true))
        (Mod2Pi_rad (cornerGame.fPlayerA_rad - Deg2Rad cornerGame.fPlayerFoV_deg * (1 / 2)))
        (Mod2Pi_rad (cornerGame.fPlayerA_rad + Deg2Rad cornerGame.fPlayerFoV_deg * (1 / 2)))
        = false) ∧
    TileInFoV m cornerGame 4 4 = false := by
  obtain ⟨a1, a2⟩ := abs_le.mp h1
  obtain ⟨b1, b2⟩ := abs_le.mp h2
  obtain ⟨c1, c2⟩ := abs_le.mp h3
  obtain ⟨d1, d2⟩ := abs_le.mp h4
  obtain ⟨p1, p2⟩ := abs_le.mp h5
  have hpi1 : (3.14 : ℚ) < PI := by unfold PI; norm_num
  have hpi2 : PI < (3.15 : ℚ) := by unfold PI; norm_num
  have hA : Deg2Rad 45 = PI / 4 := by unfold Deg2Rad; ring
  have hF : Deg2Rad 60 = PI / 3 := by unfold Deg2Rad; ring
  have el : Mod2Pi_rad (cornerGame.fPlayerA_rad - Deg2Rad cornerGame.fPlayerFoV_deg * (1 / 2)) =
      PI / 12 := by
    show Mod2Pi_rad (Deg2Rad 45 - Deg2Rad 60 * (1 / 2)) = PI / 12
    rw [hA, hF, Mod2Pi_rad_of_nonneg _ (by linarith) (by linarith)]
    ring
  have er : Mod2Pi_rad (cornerGame.fPlayerA_rad + Deg2Rad cornerGame.fPlayerFoV_deg * (1 / 2)) =
      PI * 5 / 12 := by
    show Mod2Pi_rad (Deg2Rad 45 + Deg2Rad 60 * (1 / 2)) = PI * 5 / 12
    rw [hA, hF, Mod2Pi_rad_of_nonneg _ (by linarith) (by linarith)]
    ring
  have hE : GetAngle_PlayerToLocation m cornerGame (GetColumnCoordinates 4 4 EAST true) =
      m.atan2f (1 / 10) (101 / 100) := by
    rw [cornerGame_angle m EAST (1 / 10) (101 / 100)
      (by simp [GetColumnCoordinates, cornerGame, EAST]; norm_num)
      (by simp [GetColumnCoordinates, cornerGame, EAST]; norm_num),
      Mod2Pi_rad_of_nonneg _ (by linarith) (by linarith)]
  have hS : GetAngle_PlayerToLocation m cornerGame (GetColumnCoordinates 4 4 SOUTH true) =
      m.atan2f (1 / 10) (1 / 100) := by
    rw [cornerGame_angle m SOUTH (1 / 10) (1 / 100)
      (by simp [GetColumnCoordinates, cornerGame, EAST, SOUTH]; norm_num)
      (by simp [GetColumnCoordinates, cornerGame, EAST, SOUTH]; norm_num),
      Mod2Pi_rad_of_nonneg _ (by linarith) (by linarith)]
  have hW : GetAngle_PlayerToLocation m cornerGame (GetColumnCoordinates 4 4 WEST true) =
      m.atan2f (-9 / 10) (1 / 100) + 2 * PI := by
    rw [cornerGame_angle m WEST (-9 / 10) (1 / 100)
      (by simp [GetColumnCoordinates, cornerGame, EAST, SOUTH, WEST]; norm_num)
      (by simp [GetColumnCoordinates, cornerGame, EAST, SOUTH, WEST]; norm_num),
      Mod2Pi_rad_of_neg _ (by linarith)]
  have hN : GetAngle_PlayerToLocation m cornerGame (GetColumnCoordinates 4 4 NORTH true) =
      m.atan2f (-9 / 10) (101 / 100) + 2 * PI := by
    rw [cornerGame_angle m NORTH (-9 / 10) (101 / 100)
      (by simp [GetColumnCoordinates, cornerGame, EAST, SOUTH, WEST, NORTH]; norm_num)
      (by simp [GetColumnCoordinates, cornerGame, EAST, SOUTH, WEST, NORTH]; norm_num),
      Mod2Pi_rad_of_neg _ (by linarith)]
  have hP : GetAngle_PlayerToLocation m cornerGame (4, 491 / 100) =
      m.atan2f (1 / 100) (1 / 100) := by
    have e1 : ((4, 491 / 100) : ℚ × ℚ).2 - cornerGame.fPlayerY = 1 / 100 := by
      simp [cornerGame]; norm_num
    have e2 : ((4, 491 / 100) : ℚ × ℚ).1 - cornerGame.fPlayerX = 1 / 100 := by
      simp [cornerGame]; norm_num
    unfold GetAngle_PlayerToLocation
    rw [e1, e2, Mod2Pi_rad_of_nonneg _ (by linarith) (by linarith)]
  have hcorners : ∀ f ∈ [EAST, SOUTH, WEST, NORTH],
      AngleInSector (GetAngle_PlayerToLocation m cornerGame (GetColumnCoordinates 4 4 f true))
        (Mod2Pi_rad (cornerGame.fPlayerA_rad - Deg2Rad cornerGame.fPlayerFoV_deg * (1 / 2)))
        (Mod2Pi_rad (cornerGame.fPlayerA_rad + Deg2Rad cornerGame.fPlayerFoV_deg * (1 / 2)))
        = false := by
    intro f hf
    rw [el, er]
    unfold AngleInSector InBetweenF
    rw [if_neg (by linarith)]
    simp only [List.mem_cons, List.mem_singleton, List.not_mem_nil, or_false] at hf
    simp only [Bool.and_eq_false_iff, decide_eq_false_iff_not, not_le]
    rcases hf with rfl | rfl | rfl | rfl
    · rw [hE]; left; linarith
    · rw [hS]; right; linarith
    · rw [hW]; right; linarith
    · rw [hN]; right; linarith
  refine ⟨⟨by decide, by decide, by unfold cornerGame; norm_num, rfl⟩,
    ⟨⟨by norm_num, by norm_num⟩, ⟨by norm_num, by norm_num⟩⟩, ?_, hcorners, ?_⟩
  · rw [hP, el, er]
    unfold AngleInSector InBetweenF
    rw [if_neg (by linarith)]
    simp only [Bool.and_eq_true, decide_eq_true_eq]
    constructor <;> linarith
  · unfold TileInFoV
    simp only
    rw [List.any_eq_false]
    intro f hf
    rw [hcorners f hf]
    simp

/-- C28 witness: the sample library is within the tolerance at the five directions. -/
theorem C28_tile_in_fov_misses_witness :
    (mapAt cornerGame.sMap (4 * 16 + 4) = '#' ∧ mapAt cornerGame.sMap (4 * 16 + 3) = '.' ∧
      cornerGame.fPlayerX < 4 ∧ cornerGame.fPlayerA_rad = Deg2Rad cornerGame.fPlayerA_deg) ∧
    (((4 : ℚ) ≤ 4 ∧ (4 : ℚ) ≤ 4 + 1) ∧ ((4 : ℚ) ≤ 491 / 100 ∧ (491 / 100 : ℚ) ≤ 4 + 1)) ∧
    AngleInSector (GetAngle_PlayerToLocation sampleLibM cornerGame (4, 491 / 100))
      (Mod2Pi_rad (cornerGame.fPlayerA_rad - Deg2Rad cornerGame.fPlayerFoV_deg * (1 / 2)))
      (Mod2Pi_rad (cornerGame.fPlayerA_rad + Deg2Rad cornerGame.fPlayerFoV_deg * (1 / 2))) = true ∧
    (∀ f ∈ [EAST, SOUTH, WEST, NORTH],
      AngleInSector
        (GetAngle_PlayerToLocation sampleLibM cornerGame (GetColumnCoordinates 4 4 f true))
        (Mod2Pi_rad (cornerGame.fPlayerA_rad - Deg2Rad cornerGame.fPlayerFoV_deg * (1 / 2)))
        (Mod2Pi_rad (cornerGame.fPlayerA_rad + Deg2Rad cornerGame.fPlayerFoV_deg * (1 / 2)))
        = false) ∧
    TileInFoV sampleLibM cornerGame 4 4 = false :=
  C28_tile_in_fov_misses sampleLibM
    (by show |atan2fApprox (1 / 10) (101 / 100) - 987 / 10000| ≤ 1 / 100
        rw [abs_le]; norm_num [atan2fApprox, atanApprox, PI, abs_div])
    (by show |atan2fApprox (1 / 10) (1 / 100) - 14711 / 10000| ≤ 1 / 100
        rw [abs_le]; norm_num [atan2fApprox, atanApprox, PI, abs_div])
    (by show |atan2fApprox (-9 / 10) (1 / 100) + 15597 / 10000| ≤ 1 / 100
        rw [abs_le]; norm_num [atan2fApprox, atanApprox, PI, abs_div])
    (by show |atan2fApprox (-9 / 10) (101 / 100) + 7279 / 10000| ≤ 1 / 100
        rw [abs_le]; norm_num [atan2fApprox, atanApprox, PI, abs_div])
    (by show |atan2fApprox (1 / 100) (1 / 100) - 7854 / 10000| ≤ 1 / 100
        rw [abs_le]; norm_num [atan2fApprox, atanApprox, PI, abs_div])

/-! ### Rounding to `float` -/

theorem roundHalfEven_bounds (q : ℚ) :
    (⌊q⌋ ≤ roundHalfEven q ∧ roundHalfEven q ≤ ⌊q⌋ + 1) ∧
    |(roundHalfEven q : ℚ) - q| ≤ 1 / 2 := by
  have h1 := Int.floor_le q
  have h2 := Int.lt_floor_add_one q
  unfold roundHalfEven
  split_ifs with a b c
  · refine ⟨⟨le_refl _, by omega⟩, ?_⟩
    rw [abs_le]; constructor <;> linarith
  · refine ⟨⟨by omega, le_refl _⟩, ?_⟩
    rw [abs_le]; push_cast; constructor <;> linarith
  · refine ⟨⟨le_refl _, by omega⟩, ?_⟩
    rw [abs_le]; constructor <;> linarith
  · refine ⟨⟨by omega, le_refl _⟩, ?_⟩
    rw [abs_le]; push_cast; constructor <;> linarith

theorem roundHalfEven_int (n : Int) : roundHalfEven (n : ℚ) = n := by
  unfold roundHalfEven
  rw [Int.floor_intCast]
  simp

theorem roundHalfEven_mono (p q : ℚ) (h : p ≤ q) : roundHalfEven p ≤ roundHalfEven q := by
  have hf : ⌊p⌋ ≤ ⌊q⌋ := Int.floor_le_floor h
  rcases Nat.lt_or_ge 0 (⌊q⌋ - ⌊p⌋).toNat with hlt | hge
  · -- different floors
    have := (roundHalfEven_bounds p).1.2
    have := (roundHalfEven_bounds q).1.1
    omega
  · have he : ⌊p⌋ = ⌊q⌋ := by omega
    unfold roundHalfEven
    rw [he]
    have hpq : p - (⌊q⌋ : ℚ) ≤ q - (⌊q⌋ : ℚ) := by linarith
    split_ifs <;> first | omega | (exfalso; linarith)

theorem roundHalfEven_eq (q : ℚ) (n : Int) (h1 : (n : ℚ) - 1 / 2 < q) (h2 : q < (n : ℚ) + 1 / 2) :
    roundHalfEven q = n := by
  have hb := (roundHalfEven_bounds q).2
  rw [abs_le] at hb
  have h3 : ((roundHalfEven q : Int) : ℚ) < (n : ℚ) + 1 := by linarith
  have h4 : (n : ℚ) - 1 < ((roundHalfEven q : Int) : ℚ) := by linarith
  have h5 : roundHalfEven q < n + 1 := by exact_mod_cast h3
  have h6 : n - 1 < roundHalfEven q := by exact_mod_cast h4
  omega

theorem roundHalfEven_tie_odd (n : Int) (hn : n % 2 = 1) :
    roundHalfEven ((n : ℚ) + 1 / 2) = n + 1 := by
  have hf : ⌊(n : ℚ) + 1 / 2⌋ = n := by
    rw [Int.floor_eq_iff]; constructor <;> norm_num
  unfold roundHalfEven
  rw [hf]
  simp [hn]

theorem two_zpow_pos (e : Int) : (0 : ℚ) < (2 : ℚ) ^ e := zpow_pos (by norm_num) e

theorem two_zpow_le (a b : Int) (h : a ≤ b) : (2 : ℚ) ^ a ≤ (2 : ℚ) ^ b :=
  zpow_le_zpow_right₀ (by norm_num) h

theorem two_zpow_lt_iff (a b : Int) : (2 : ℚ) ^ a < (2 : ℚ) ^ b ↔ a < b :=
  zpow_lt_zpow_iff_right₀ (by norm_num)

theorem two_zpow_succ (e : Int) : (2 : ℚ) ^ (e + 1) = 2 * (2 : ℚ) ^ e := by
  rw [zpow_add₀ (by norm_num : (2 : ℚ) ≠ 0), zpow_one]; ring

theorem two_zpow_split (e : Int) : (2 : ℚ) ^ e = (2 : ℚ) ^ (23 : Int) * (2 : ℚ) ^ (e - 23) := by
  rw [← zpow_add₀ (by norm_num : (2 : ℚ) ≠ 0)]
  congr 1; ring

theorem f32Ulp_binade (a : ℚ) (e : Int) (h : InBinade a e) : f32Ulp a = (2 : ℚ) ^ (e - 23) := by
  obtain ⟨he, h2, h1⟩ := h
  unfold f32Ulp
  by_cases hs : a < (2 : ℚ) ^ (-126 : Int)
  · rw [if_pos hs]
    have : e = -126 := by
      rcases h1 with h1 | ⟨h1, _⟩
      · have : (2 : ℚ) ^ e < (2 : ℚ) ^ (-126 : Int) := lt_of_le_of_lt h1 hs
        rw [two_zpow_lt_iff] at this
        omega
      · exact h1
    rw [this]; congr 1
  · rw [if_neg hs]
    have hs2 : (2 : ℚ) ^ (-126 : Int) ≤ a := not_lt.mp hs
    have ha : 0 < a := lt_of_lt_of_le (two_zpow_pos _) hs2
    have h1' : (2 : ℚ) ^ e ≤ a := by
      rcases h1 with h1 | ⟨h1, _⟩
      · exact h1
      · rw [h1]; exact hs2
    have l1 : e ≤ Int.log 2 a := by
      rw [← Int.zpow_le_iff_le_log (by norm_num) ha]
      simpa using h1'
    have l2 : Int.log 2 a < e + 1 := by
      rw [← Int.lt_zpow_iff_log_lt (by norm_num) ha]
      simpa using h2
    have : Int.log 2 a = e := by omega
    rw [this]

theorem exists_binade (a : ℚ) (h0 : 0 ≤ a) : ∃ e, InBinade a e := by
  by_cases hs : a < (2 : ℚ) ^ (-126 : Int)
  · exact ⟨-126, le_refl _, lt_of_lt_of_le hs (two_zpow_le _ _ (by omega)), Or.inr ⟨rfl, h0⟩⟩
  · have hs2 : (2 : ℚ) ^ (-126 : Int) ≤ a := not_lt.mp hs
    have ha : 0 < a := lt_of_lt_of_le (two_zpow_pos _) hs2
    refine ⟨Int.log 2 a, ?_, ?_, Or.inl ?_⟩
    · rw [← Int.zpow_le_iff_le_log (by norm_num) ha]
      simpa using hs2
    · simpa using Int.lt_zpow_succ_log_self (by norm_num : 1 < 2) a
    · simpa using Int.zpow_log_le_self (by norm_num : 1 < 2) ha

theorem binade_nonneg (a : ℚ) (e : Int) (h : InBinade a e) : 0 ≤ a := by
  rcases h.2.2 with h1 | ⟨_, h1⟩
  · exact le_trans (le_of_lt (two_zpow_pos e)) h1
  · exact h1

theorem f32RoundMag_binade (a : ℚ) (e : Int) (h : InBinade a e) :
    f32RoundMag a = (roundHalfEven (a / (2 : ℚ) ^ (e - 23)) : ℚ) * (2 : ℚ) ^ (e - 23) := by
  unfold f32RoundMag
  rw [f32Ulp_binade a e h]

theorem f32RoundMag_upper (a : ℚ) (e : Int) (h : InBinade a e) :
    f32RoundMag a ≤ (2 : ℚ) ^ (e + 1) := by
  rw [f32RoundMag_binade a e h]
  have hu := two_zpow_pos (e - 23)
  have h1 : a / (2 : ℚ) ^ (e - 23) ≤ ((2 ^ 24 : Int) : ℚ) := by
    rw [div_le_iff₀ hu]
    have : (2 : ℚ) ^ (e + 1) = ((2 ^ 24 : Int) : ℚ) * (2 : ℚ) ^ (e - 23) := by
      rw [two_zpow_succ, two_zpow_split e]; push_cast; ring
    rw [← this]; exact le_of_lt h.2.1
  have h2 := roundHalfEven_mono _ _ h1
  rw [roundHalfEven_int] at h2
  have h3 : ((roundHalfEven (a / (2 : ℚ) ^ (e - 23)) : Int) : ℚ) ≤ ((2 ^ 24 : Int) : ℚ) := by
    exact_mod_cast h2
  have : (2 : ℚ) ^ (e + 1) = ((2 ^ 24 : Int) : ℚ) * (2 : ℚ) ^ (e - 23) := by
    rw [two_zpow_succ, two_zpow_split e]; push_cast; ring
  rw [this]
  exact mul_le_mul_of_nonneg_right h3 (le_of_lt hu)

theorem f32RoundMag_lower (a : ℚ) (e : Int) (h : InBinade a e) (hl : (2 : ℚ) ^ e ≤ a) :
    (2 : ℚ) ^ e ≤ f32RoundMag a := by
  rw [f32RoundMag_binade a e h]
  have hu := two_zpow_pos (e - 23)
  have h1 : ((2 ^ 23 : Int) : ℚ) ≤ a / (2 : ℚ) ^ (e - 23) := by
    rw [le_div_iff₀ hu]
    have : (2 : ℚ) ^ e = ((2 ^ 23 : Int) : ℚ) * (2 : ℚ) ^ (e - 23) := by
      rw [two_zpow_split e]; push_cast; norm_num
    rw [← this]; exact hl
  have h2 := roundHalfEven_mono _ _ h1
  rw [roundHalfEven_int] at h2
  have h3 : ((2 ^ 23 : Int) : ℚ) ≤ ((roundHalfEven (a / (2 : ℚ) ^ (e - 23)) : Int) : ℚ) := by
    exact_mod_cast h2
  have : (2 : ℚ) ^ e = ((2 ^ 23 : Int) : ℚ) * (2 : ℚ) ^ (e - 23) := by
    rw [two_zpow_split e]; push_cast; norm_num
  rw [this]
  exact mul_le_mul_of_nonneg_right h3 (le_of_lt hu)

theorem f32RoundMag_nonneg (a : ℚ) (h0 : 0 ≤ a) : 0 ≤ f32RoundMag a := by
  obtain ⟨e, he⟩ := exists_binade a h0
  rw [f32RoundMag_binade a e he]
  have hu := two_zpow_pos (e - 23)
  have h1 : (0 : ℚ) ≤ a / (2 : ℚ) ^ (e - 23) := div_nonneg h0 (le_of_lt hu)
  have h2 := roundHalfEven_mono _ _ (by exact_mod_cast h1 : ((0 : Int) : ℚ) ≤ a / (2 : ℚ) ^ (e - 23))
  rw [roundHalfEven_int] at h2
  have h3 : (0 : ℚ) ≤ ((roundHalfEven (a / (2 : ℚ) ^ (e - 23)) : Int) : ℚ) := by
    exact_mod_cast h2
  exact mul_nonneg h3 (le_of_lt hu)

theorem f32RoundMag_mono (a b : ℚ) (h0 : 0 ≤ a) (hab : a ≤ b) :
    f32RoundMag a ≤ f32RoundMag b := by
  obtain ⟨ea, ha⟩ := exists_binade a h0
  obtain ⟨eb, hb⟩ := exists_binade b (le_trans h0 hab)
  rcases lt_trichotomy ea eb with hlt | heq | hgt
  · have hb1 : (2 : ℚ) ^ eb ≤ b := by
      rcases hb.2.2 with h | ⟨h, _⟩
      · exact h
      · have := ha.1; omega
    calc f32RoundMag a ≤ (2 : ℚ) ^ (ea + 1) := f32RoundMag_upper a ea ha
      _ ≤ (2 : ℚ) ^ eb := two_zpow_le _ _ (by omega)
      _ ≤ f32RoundMag b := f32RoundMag_lower b eb hb hb1
  · subst heq
    rw [f32RoundMag_binade a ea ha, f32RoundMag_binade b ea hb]
    have hu := two_zpow_pos (ea - 23)
    have h1 : a / (2 : ℚ) ^ (ea - 23) ≤ b / (2 : ℚ) ^ (ea - 23) :=
      div_le_div_of_nonneg_right hab (le_of_lt hu)
    have h2 := roundHalfEven_mono _ _ h1
    have h3 : ((roundHalfEven (a / (2 : ℚ) ^ (ea - 23)) : Int) : ℚ) ≤
        ((roundHalfEven (b / (2 : ℚ) ^ (ea - 23)) : Int) : ℚ) := by exact_mod_cast h2
    exact mul_le_mul_of_nonneg_right h3 (le_of_lt hu)
  · exfalso
    have ha1 : (2 : ℚ) ^ ea ≤ a := by
      rcases ha.2.2 with h | ⟨h, _⟩
      · exact h
      · have := hb.1; omega
    have : (2 : ℚ) ^ (eb + 1) ≤ (2 : ℚ) ^ ea := two_zpow_le _ _ (by omega)
    have := hb.2.1
    linarith

theorem f32RoundMag_zero : f32RoundMag 0 = 0 := by
  have h : InBinade 0 (-126) := ⟨le_refl _, two_zpow_pos _, Or.inr ⟨rfl, le_refl _⟩⟩
  rw [f32RoundMag_binade 0 (-126) h]
  have : roundHalfEven ((0 : ℚ) / (2 : ℚ) ^ ((-126 : Int) - 23)) = 0 := by
    rw [zero_div]; exact_mod_cast roundHalfEven_int 0
  rw [this]; simp

theorem toFloat_zero : toFloat 0 = 0 := by
  unfold toFloat; rw [if_neg (lt_irrefl _), f32RoundMag_zero]

theorem toFloat_neg (x : ℚ) : toFloat (-x) = -toFloat x := by
  unfold toFloat
  rcases lt_trichotomy x 0 with h | h | h
  · rw [if_neg (by linarith), if_pos h]; simp
  · subst h; simp [f32RoundMag_zero]
  · rw [if_pos (by linarith), if_neg (by linarith)]; simp

theorem toFloat_nonneg (x : ℚ) (h : 0 ≤ x) : 0 ≤ toFloat x := by
  unfold toFloat; rw [if_neg (not_lt.mpr h)]; exact f32RoundMag_nonneg x h

theorem toFloat_nonpos (x : ℚ) (h : x ≤ 0) : toFloat x ≤ 0 := by
  have := toFloat_nonneg (-x) (by linarith)
  rw [toFloat_neg] at this; linarith

theorem toFloat_mono (x y : ℚ) (h : x ≤ y) : toFloat x ≤ toFloat y := by
  by_cases hx : x < 0
  · by_cases hy : y < 0
    · unfold toFloat
      rw [if_pos hx, if_pos hy]
      have := f32RoundMag_mono (-y) (-x) (by linarith) (by linarith)
      linarith
    · exact le_trans (toFloat_nonpos x (le_of_lt hx)) (toFloat_nonneg y (not_lt.mp hy))
  · have hx0 : 0 ≤ x := not_lt.mp hx
    unfold toFloat
    rw [if_neg hx, if_neg (by linarith)]
    exact f32RoundMag_mono x y hx0 h

theorem f32RoundMag_grid (a : ℚ) (e n : Int) (hb : InBinade a e)
    (h : a = (n : ℚ) * (2 : ℚ) ^ (e - 23)) : f32RoundMag a = a := by
  rw [f32RoundMag_binade a e hb]
  have hu := two_zpow_pos (e - 23)
  have : a / (2 : ℚ) ^ (e - 23) = (n : ℚ) := by
    rw [h]; field_simp
  rw [this, roundHalfEven_int, ← h]

theorem isF32_of_grid (x : ℚ) (e n : Int) (hb : InBinade |x| e)
    (h : |x| = (n : ℚ) * (2 : ℚ) ^ (e - 23)) : IsF32 x := by
  unfold IsF32 toFloat
  by_cases hx : x < 0
  · rw [if_pos hx]
    have : |x| = -x := abs_of_neg hx
    rw [this] at hb h
    rw [f32RoundMag_grid (-x) e n hb h]; ring
  · rw [if_neg hx]
    have : |x| = x := abs_of_nonneg (not_lt.mp hx)
    rw [this] at hb h
    exact f32RoundMag_grid x e n hb h

theorem f32RoundMag_idem (a : ℚ) (h0 : 0 ≤ a) : f32RoundMag (f32RoundMag a) = f32RoundMag a := by
  obtain ⟨e, he⟩ := exists_binade a h0
  have hu := two_zpow_pos (e - 23)
  have hup := f32RoundMag_upper a e he
  have hnn := f32RoundMag_nonneg a h0
  have hform := f32RoundMag_binade a e he
  rcases lt_or_eq_of_le hup with hlt | heq
  · -- the rounded value stays in the binade
    have hb : InBinade (f32RoundMag a) e := by
      refine ⟨he.1, hlt, ?_⟩
      rcases he.2.2 with h | ⟨h, _⟩
      · exact Or.inl (f32RoundMag_lower a e he h)
      · exact Or.inr ⟨h, hnn⟩
    exact f32RoundMag_grid _ e _ hb hform
  · -- the rounded value is the next power of two
    have hb : InBinade (f32RoundMag a) (e + 1) := by
      refine ⟨by have := he.1; omega, ?_, Or.inl (le_of_eq heq.symm)⟩
      rw [heq, two_zpow_lt_iff]; omega
    refine f32RoundMag_grid _ (e + 1) (2 ^ 23) hb ?_
    rw [heq, two_zpow_split (e + 1)]; push_cast; norm_num

theorem toFloat_idem (x : ℚ) : IsF32 (toFloat x) := by
  unfold IsF32
  by_cases hx : x < 0
  · have h1 : toFloat x = -f32RoundMag (-x) := by unfold toFloat; rw [if_pos hx]
    rw [h1, toFloat_neg]
    have h2 := f32RoundMag_nonneg (-x) (by linarith)
    have h3 : toFloat (f32RoundMag (-x)) = f32RoundMag (f32RoundMag (-x)) := by
      unfold toFloat; rw [if_neg (not_lt.mpr h2)]
    rw [h3, f32RoundMag_idem (-x) (by linarith)]
  · have h1 : toFloat x = f32RoundMag x := by unfold toFloat; rw [if_neg hx]
    have h2 := f32RoundMag_nonneg x (not_lt.mp hx)
    rw [h1]
    have h3 : toFloat (f32RoundMag x) = f32RoundMag (f32RoundMag x) := by
      unfold toFloat; rw [if_neg (not_lt.mpr h2)]
    rw [h3, f32RoundMag_idem x (not_lt.mp hx)]

theorem isF32_neg (x : ℚ) (h : IsF32 x) : IsF32 (-x) := by
  unfold IsF32 at *
  rw [toFloat_neg, h]

/-- A `float` below the `float` `B = m * 2^(e - 23)` of the binade `e` is at most the
next `float` down, `B - 2^(e - 23)`. -/
theorem isF32_lt_grid (x B : ℚ) (e m : Int) (hx : IsF32 x) (he : -126 ≤ e)
    (hB : B = (m : ℚ) * (2 : ℚ) ^ (e - 23)) (hB1 : (2 : ℚ) ^ e < B)
    (hB2 : B ≤ (2 : ℚ) ^ (e + 1)) (hlt : x < B) : x ≤ B - (2 : ℚ) ^ (e - 23) := by
  have hu := two_zpow_pos (e - 23)
  have hsplit : (2 : ℚ) ^ e = ((2 ^ 23 : Int) : ℚ) * (2 : ℚ) ^ (e - 23) := by
    rw [two_zpow_split e]; push_cast; norm_num
  have hm : (2 ^ 23 : Int) < m := by
    have : ((2 ^ 23 : Int) : ℚ) * (2 : ℚ) ^ (e - 23) < (m : ℚ) * (2 : ℚ) ^ (e - 23) := by
      rw [← hsplit, ← hB]; exact hB1
    have := lt_of_mul_lt_mul_right this (le_of_lt hu)
    exact_mod_cast this
  have hlow : (2 : ℚ) ^ e ≤ B - (2 : ℚ) ^ (e - 23) := by
    have h1 : ((2 ^ 23 : Int) : ℚ) ≤ (m : ℚ) - 1 := by
      have : (2 ^ 23 : Int) ≤ m - 1 := by omega
      exact_mod_cast this
    rw [hsplit, hB]
    nlinarith
  by_cases h1 : x < (2 : ℚ) ^ e
  · linarith
  · have h1' : (2 : ℚ) ^ e ≤ x := not_lt.mp h1
    have hx0 : 0 ≤ x := le_trans (le_of_lt (two_zpow_pos e)) h1'
    have hb : InBinade x e := ⟨he, lt_of_lt_of_le hlt hB2, Or.inl h1'⟩
    have hform : toFloat x = f32RoundMag x := by
      unfold toFloat; rw [if_neg (not_lt.mpr hx0)]
    unfold IsF32 at hx
    rw [hform, f32RoundMag_binade x e hb] at hx
    have hk : ((roundHalfEven (x / (2 : ℚ) ^ (e - 23)) : Int) : ℚ) * (2 : ℚ) ^ (e - 23) <
        (m : ℚ) * (2 : ℚ) ^ (e - 23) := by
      rw [hx, ← hB]; exact hlt
    have hk2 := lt_of_mul_lt_mul_right hk (le_of_lt hu)
    have hk3 : roundHalfEven (x / (2 : ℚ) ^ (e - 23)) < m := by exact_mod_cast hk2
    have hk4 : ((roundHalfEven (x / (2 : ℚ) ^ (e - 23)) : Int) : ℚ) ≤ (m : ℚ) - 1 := by
      have : roundHalfEven (x / (2 : ℚ) ^ (e - 23)) ≤ m - 1 := by omega
      exact_mod_cast this
    rw [← hx, hB]
    nlinarith

theorem f32RoundMag_err (a : ℚ) (e : Int) (hb : InBinade a e) :
    |f32RoundMag a - a| ≤ (2 : ℚ) ^ (e - 24) := by
  rw [f32RoundMag_binade a e hb]
  have hu := two_zpow_pos (e - 23)
  have hr := (roundHalfEven_bounds (a / (2 : ℚ) ^ (e - 23))).2
  have h24 : (2 : ℚ) ^ (e - 24) = 1 / 2 * (2 : ℚ) ^ (e - 23) := by
    have : e - 23 = (e - 24) + 1 := by ring
    rw [this, two_zpow_succ]; ring
  have ha : a = a / (2 : ℚ) ^ (e - 23) * (2 : ℚ) ^ (e - 23) := by field_simp
  rw [h24]
  nth_rewrite 2 [ha]
  rw [← sub_mul, abs_mul, abs_of_pos hu]
  exact mul_le_mul_of_nonneg_right hr (le_of_lt hu)

theorem toFloat_err (x : ℚ) (e : Int) (hb : InBinade |x| e) :
    |toFloat x - x| ≤ (2 : ℚ) ^ (e - 24) := by
  unfold toFloat
  by_cases hx : x < 0
  · rw [if_pos hx]
    rw [abs_of_neg hx] at hb
    have := f32RoundMag_err (-x) e hb
    rw [abs_le] at this ⊢
    constructor <;> linarith [this.1, this.2]
  · rw [if_neg hx]
    rw [abs_of_nonneg (not_lt.mp hx)] at hb
    exact f32RoundMag_err x e hb

theorem toFloat_eval (x : ℚ) (e n : Int) (hb : InBinade x e)
    (h1 : (n : ℚ) - 1 / 2 < x / (2 : ℚ) ^ (e - 23))
    (h2 : x / (2 : ℚ) ^ (e - 23) < (n : ℚ) + 1 / 2) :
    toFloat x = (n : ℚ) * (2 : ℚ) ^ (e - 23) := by
  have h0 := binade_nonneg x e hb
  unfold toFloat
  rw [if_neg (not_lt.mpr h0), f32RoundMag_binade x e hb, roundHalfEven_eq _ n h1 h2]

theorem toFloat_le_of_le (x B : ℚ) (hB : IsF32 B) (h : x ≤ B) : toFloat x ≤ B := by
  have := toFloat_mono x B h
  unfold IsF32 at hB
  rw [hB] at this; exact this

theorem toFloat_ge_of_ge (x B : ℚ) (hB : IsF32 B) (h : B ≤ x) : B ≤ toFloat x := by
  have := toFloat_mono B x h
  unfold IsF32 at hB
  rw [hB] at this; exact this


theorem inBinade_of (a : ℚ) (e : Int) (he : -126 ≤ e) (h1 : (2 : ℚ) ^ e ≤ a)
    (h2 : a < (2 : ℚ) ^ (e + 1)) : InBinade a e := ⟨he, h2, Or.inl h1⟩

theorem isF32_zero : IsF32 0 := toFloat_zero

/-! ### `float` values on a grid -/

theorem two_zpow_nat (d : Int) (hd : 0 ≤ d) : (2 : ℚ) ^ d = (((2 : Int) ^ d.toNat : Int) : ℚ) := by
  have h : (2 : ℚ) ^ d = (2 : ℚ) ^ ((d.toNat : Int)) := by rw [Int.toNat_of_nonneg hd]
  rw [h, zpow_natCast]
  push_cast
  rfl

/-- A `float` of magnitude at least `2^e` is an integer multiple of `2^(e - 23)`. -/
theorem isF32_grid_of_ge (x : ℚ) (e : Int) (hx : IsF32 x)
    (h : (2 : ℚ) ^ e ≤ |x|) : ∃ k : Int, x = (k : ℚ) * (2 : ℚ) ^ (e - 23) := by
  obtain ⟨e1, hb⟩ := exists_binade |x| (abs_nonneg x)
  have hee : e ≤ e1 := by
    have : (2 : ℚ) ^ e < (2 : ℚ) ^ (e1 + 1) := lt_of_le_of_lt h hb.2.1
    rw [two_zpow_lt_iff] at this; omega
  have hs : (2 : ℚ) ^ (e1 - 23) = (((2 : Int) ^ (e1 - e).toNat : Int) : ℚ) * (2 : ℚ) ^ (e - 23) := by
    rw [← two_zpow_nat (e1 - e) (by omega), ← zpow_add₀ (by norm_num : (2 : ℚ) ≠ 0)]
    congr 1; ring
  unfold IsF32 toFloat at hx
  by_cases hneg : x < 0
  · rw [if_pos hneg] at hx
    rw [abs_of_neg hneg] at hb
    rw [f32RoundMag_binade (-x) e1 hb] at hx
    generalize roundHalfEven (-x / (2 : ℚ) ^ (e1 - 23)) = r at hx
    refine ⟨-(r * (2 : Int) ^ (e1 - e).toNat), ?_⟩
    rw [← hx, hs]; push_cast; ring
  · rw [if_neg hneg] at hx
    rw [abs_of_nonneg (not_lt.mp hneg)] at hb
    rw [f32RoundMag_binade x e1 hb] at hx
    generalize roundHalfEven (x / (2 : ℚ) ^ (e1 - 23)) = r at hx
    refine ⟨r * (2 : Int) ^ (e1 - e).toNat, ?_⟩
    rw [← hx, hs]; push_cast; ring

/-- An integer multiple of `2^j` of magnitude below `2^(j + 24)` is a `float`. -/
theorem isF32_of_multiple (v : ℚ) (j k : Int) (hj : -149 ≤ j) (hv : v = (k : ℚ) * (2 : ℚ) ^ j)
    (hb : |v| < (2 : ℚ) ^ (j + 24)) : IsF32 v := by
  obtain ⟨e, he⟩ := exists_binade |v| (abs_nonneg v)
  have hej : e - 23 ≤ j := by
    rcases he.2.2 with h | ⟨h, _⟩
    · have : (2 : ℚ) ^ e < (2 : ℚ) ^ (j + 24) := lt_of_le_of_lt h hb
      rw [two_zpow_lt_iff] at this; omega
    · omega
  have hs : (2 : ℚ) ^ j = (((2 : Int) ^ (j - (e - 23)).toNat : Int) : ℚ) * (2 : ℚ) ^ (e - 23) := by
    rw [← two_zpow_nat (j - (e - 23)) (by omega), ← zpow_add₀ (by norm_num : (2 : ℚ) ≠ 0)]
    congr 1; ring
  refine isF32_of_grid v e (|k| * (2 : Int) ^ (j - (e - 23)).toNat) he ?_
  rw [hv, abs_mul, abs_of_pos (two_zpow_pos j)]
  nth_rewrite 1 [hs]
  push_cast
  ring

/-- The difference of two `float` values of magnitude at least `2^e` is a `float`
when its magnitude is below `2^(e + 1)` (a case of Sterbenz's lemma). -/
theorem isF32_sub (x y : ℚ) (e : Int) (hx : IsF32 x) (hy : IsF32 y) (he : -126 ≤ e)
    (h1 : (2 : ℚ) ^ e ≤ |x|) (h2 : (2 : ℚ) ^ e ≤ |y|) (h3 : |x - y| < (2 : ℚ) ^ (e + 1)) :
    IsF32 (x - y) := by
  obtain ⟨k1, hk1⟩ := isF32_grid_of_ge x e hx h1
  obtain ⟨k2, hk2⟩ := isF32_grid_of_ge y e hy h2
  refine isF32_of_multiple (x - y) (e - 23) (k1 - k2) (by omega) ?_ ?_
  · rw [hk1, hk2]; push_cast; ring
  · have : e - 23 + 24 = e + 1 := by ring
    rw [this]; exact h3

/-! ### `Mod360_deg` in `float` arithmetic -/

theorem isF32_of_grid_pos (x : ℚ) (e n : Int) (he : -126 ≤ e) (h1 : (2 : ℚ) ^ e ≤ x)
    (h2 : x < (2 : ℚ) ^ (e + 1)) (h : x = (n : ℚ) * (2 : ℚ) ^ (e - 23)) : IsF32 x := by
  have h0 : 0 ≤ x := le_trans (le_of_lt (two_zpow_pos e)) h1
  refine isF32_of_grid x e n ?_ ?_
  · rw [abs_of_nonneg h0]; exact inBinade_of x e he h1 h2
  · rw [abs_of_nonneg h0]; exact h

theorem isF32_360 : IsF32 360 :=
  isF32_of_grid_pos 360 8 11796480 (by norm_num) (by norm_num) (by norm_num) (by norm_num)

theorem isF32_720 : IsF32 720 :=
  isF32_of_grid_pos 720 9 11796480 (by norm_num) (by norm_num) (by norm_num) (by norm_num)

/-- A `float` below 360 is at most `360 - 2^(-15)`. -/
theorem isF32_lt_360 (x : ℚ) (hx : IsF32 x) (h : x < 360) : x ≤ 360 - 1 / 32768 := by
  have := isF32_lt_grid x 360 8 11796480 hx (by norm_num) (by norm_num) (by norm_num)
    (by norm_num) h
  norm_num at this ⊢
  exact this

theorem Mod360_deg_f32_fix (r : ℚ) (h1 : 0 ≤ r) (h2 : r < 360) : Mod360_deg_f32 r = r := by
  unfold Mod360_deg_f32
  simp only
  rw [if_neg (not_lt.mpr h1), if_neg (not_le.mpr h2)]

theorem Mod360_deg_f32_of_neg (a : ℚ) (h1 : -360 ≤ a) (h2 : a < 0) :
    (0 ≤ f32add a 360 ∧ f32add a 360 ≤ 360) ∧
    (f32add a 360 < 360 → Mod360_deg_f32 a = f32add a 360) ∧
    (f32add a 360 = 360 → Mod360_deg_f32 a = 0) := by
  have hb1 : 0 ≤ f32add a 360 := toFloat_nonneg _ (by linarith)
  have hb2 : f32add a 360 ≤ 360 := toFloat_le_of_le _ _ isF32_360 (by linarith)
  refine ⟨⟨hb1, hb2⟩, ?_, ?_⟩
  · intro h
    unfold Mod360_deg_f32
    simp only
    rw [if_pos h2, if_neg (not_le.mpr h)]
  · intro h
    unfold Mod360_deg_f32
    simp only
    rw [if_pos h2, if_pos (le_of_eq h.symm), h]
    unfold f32sub
    rw [sub_self, toFloat_zero]

theorem Mod360_deg_f32_of_ge (a : ℚ) (ha : IsF32 a) (h1 : 360 ≤ a) (h2 : a < 720) :
    Mod360_deg_f32 a = a - 360 := by
  unfold Mod360_deg_f32
  simp only
  rw [if_neg (by linarith : ¬ a < 0), if_pos h1]
  have h3 : IsF32 (a - 360) := by
    refine isF32_sub a 360 8 ha isF32_360 (by norm_num) ?_ (by norm_num) ?_
    · rw [abs_of_nonneg (by linarith)]; norm_num; linarith
    · rw [abs_of_nonneg (by linarith)]; norm_num; linarith
  exact h3

/-- On the `float` inputs within one turn of the range the result of `Mod360_deg`
lies in `[0, 360)` and is a `float`. -/
theorem Mod360_deg_f32_range (a : ℚ) (ha : IsF32 a) (h1 : -360 ≤ a) (h2 : a < 720) :
    0 ≤ Mod360_deg_f32 a ∧ Mod360_deg_f32 a < 360 ∧ IsF32 (Mod360_deg_f32 a) := by
  by_cases hn : a < 0
  · obtain ⟨⟨b1, b2⟩, c1, c2⟩ := Mod360_deg_f32_of_neg a h1 hn
    rcases lt_or_eq_of_le b2 with h | h
    · rw [c1 h]; exact ⟨b1, h, toFloat_idem _⟩
    · rw [c2 h]; exact ⟨le_refl _, by norm_num, isF32_zero⟩
  · have h0 : 0 ≤ a := not_lt.mp hn
    by_cases hg : 360 ≤ a
    · rw [Mod360_deg_f32_of_ge a ha hg h2]
      refine ⟨by linarith, by linarith, ?_⟩
      have := Mod360_deg_f32_of_ge a ha hg h2
      rw [← this]
      unfold Mod360_deg_f32
      simp only
      rw [if_neg (by linarith : ¬ a < 0), if_pos hg]
      exact toFloat_idem _
    · rw [Mod360_deg_f32_fix a h0 (not_le.mp hg)]
      exact ⟨h0, not_le.mp hg, ha⟩

/-- For a negative input the result of `Mod360_deg` is `a + 360` or `a` up to the
rounding of the `float` addition, an error of at most `2^(-16)`. -/
theorem Mod360_deg_f32_approx (a : ℚ) (h1 : -360 ≤ a) (h2 : a < 0) :
    |Mod360_deg_f32 a - (a + 360)| ≤ 1 / 65536 ∨ |Mod360_deg_f32 a - a| ≤ 1 / 65536 := by
  obtain ⟨⟨b1, b2⟩, c1, c2⟩ := Mod360_deg_f32_of_neg a h1 h2
  obtain ⟨e, he⟩ := exists_binade |a + 360| (abs_nonneg _)
  have hpos : |a + 360| = a + 360 := abs_of_nonneg (by linarith)
  have he8 : e ≤ 8 := by
    rcases he.2.2 with h | ⟨h, _⟩
    · have : (2 : ℚ) ^ e < (2 : ℚ) ^ (9 : Int) := by
        refine lt_of_le_of_lt h ?_
        rw [hpos]; norm_num; linarith
      rw [two_zpow_lt_iff] at this; omega
    · omega
  have herr := toFloat_err (a + 360) e he
  have hle : (2 : ℚ) ^ (e - 24) ≤ 1 / 65536 := by
    have := two_zpow_le (e - 24) (-16) (by omega)
    norm_num at this ⊢
    exact this
  have herr2 : |f32add a 360 - (a + 360)| ≤ 1 / 65536 := le_trans herr hle
  rcases lt_or_eq_of_le b2 with h | h
  · left; rw [c1 h]; exact herr2
  · right
    rw [c2 h]
    rw [h] at herr2
    rw [abs_le] at herr2 ⊢
    constructor <;> linarith [herr2.1, herr2.2]

theorem isF32_1000 : IsF32 1000 :=
  isF32_of_grid_pos 1000 9 16384000 (by norm_num) (by norm_num) (by norm_num) (by norm_num)

theorem isF32_640 : IsF32 640 :=
  isF32_of_grid_pos 640 9 10485760 (by norm_num) (by norm_num) (by norm_num) (by norm_num)

theorem isF32_280 : IsF32 280 :=
  isF32_of_grid_pos 280 8 9175040 (by norm_num) (by norm_num) (by norm_num) (by norm_num)

theorem isF32_30 : IsF32 30 :=
  isF32_of_grid_pos 30 4 15728640 (by norm_num) (by norm_num) (by norm_num) (by norm_num)

theorem isF32_neg30 : IsF32 (-30) := by
  have := isF32_neg 30 isF32_30
  exact this

theorem Mod360_deg_f32_1000 : Mod360_deg_f32 1000 = 640 := by
  unfold Mod360_deg_f32
  simp only
  rw [if_neg (by norm_num : ¬ (1000 : ℚ) < 0), if_pos (by norm_num : (1000 : ℚ) ≥ 360)]
  unfold f32sub
  have : (1000 : ℚ) - 360 = 640 := by norm_num
  rw [this]
  exact isF32_640

theorem Mod360_deg_f32_640 : Mod360_deg_f32 640 = 280 := by
  unfold Mod360_deg_f32
  simp only
  rw [if_neg (by norm_num : ¬ (640 : ℚ) < 0), if_pos (by norm_num : (640 : ℚ) ≥ 360)]
  unfold f32sub
  have : (640 : ℚ) - 360 = 280 := by norm_num
  rw [this]
  exact isF32_280

/-- In `float` arithmetic `-2^(-20) + 360` rounds to `360`, so `Mod360_deg` returns `0`. -/
theorem Mod360_deg_f32_tiny : Mod360_deg_f32 (-(1 / 1048576)) = 0 := by
  have h : f32add (-(1 / 1048576)) 360 = 360 := by
    unfold f32add
    have := toFloat_eval (-(1 / 1048576) + 360) 8 11796480
      (inBinade_of _ 8 (by norm_num) (by norm_num) (by norm_num)) (by norm_num) (by norm_num)
    rw [this]; norm_num
  exact (Mod360_deg_f32_of_neg _ (by norm_num) (by norm_num)).2.2 h

/-- C12 (amended): for every `float` input `a` with `-360 <= a < 720` the result of
`Mod360_deg`, computed in `float` arithmetic, lies in `[0, 360)`; for `a >= 0` it differs
from `a` by exactly `0` or `-360`, and for `a < 0` it is `a + 360` or `a` up to the rounding
of the `float` addition `a + 360`, an error of at most `2^(-16)`. -/
theorem C12_mod360_float_one_turn (a : ℚ) (ha : IsF32 a) (h1 : -360 ≤ a) (h2 : a < 720) :
    (0 ≤ Mod360_deg_f32 a ∧ Mod360_deg_f32 a < 360) ∧
    (0 ≤ a → Mod360_deg_f32 a = a ∨ Mod360_deg_f32 a = a - 360) ∧
    (a < 0 → |Mod360_deg_f32 a - (a + 360)| ≤ 1 / 65536 ∨
      |Mod360_deg_f32 a - a| ≤ 1 / 65536) := by
  obtain ⟨r1, r2, _⟩ := Mod360_deg_f32_range a ha h1 h2
  refine ⟨⟨r1, r2⟩, ?_, ?_⟩
  · intro h0
    by_cases hg : 360 ≤ a
    · right; exact Mod360_deg_f32_of_ge a ha hg h2
    · left; exact Mod360_deg_f32_fix a h0 (not_le.mp hg)
  · intro hn
    exact Mod360_deg_f32_approx a h1 hn

/-- C12 witness: the amended claim at the `float` input `a = -30`. -/
theorem C12_mod360_float_one_turn_witness :
    (IsF32 (-30) ∧ (-360 : ℚ) ≤ -30 ∧ (-30 : ℚ) < 720) ∧
    ((0 ≤ Mod360_deg_f32 (-30) ∧ Mod360_deg_f32 (-30) < 360) ∧
    ((0 : ℚ) ≤ -30 → Mod360_deg_f32 (-30) = -30 ∨ Mod360_deg_f32 (-30) = -30 - 360) ∧
    ((-30 : ℚ) < 0 → |Mod360_deg_f32 (-30) - (-30 + 360)| ≤ 1 / 65536 ∨
      |Mod360_deg_f32 (-30) - (-30)| ≤ 1 / 65536)) :=
  ⟨⟨isF32_neg30, by norm_num, by norm_num⟩,
    C12_mod360_float_one_turn (-30) isF32_neg30 (by norm_num) (by norm_num)⟩

/-- C12 counterexample: the `float` input `a = 1000` is sent to `640`, outside `[0, 360)`;
and the `float` input `a = -2^(-20)` is sent to `0`, which differs from `a` by no integer
multiple of 360. -/
theorem C12_mod360_float_counterexample :
    (IsF32 1000 ∧ Mod360_deg_f32 1000 = 640 ∧ ¬ (Mod360_deg_f32 1000 < 360)) ∧
    (IsF32 (-(1 / 1048576)) ∧ Mod360_deg_f32 (-(1 / 1048576)) = 0 ∧
      ∀ k : Int, Mod360_deg_f32 (-(1 / 1048576)) ≠ -(1 / 1048576) + 360 * (k : ℚ)) := by
  refine ⟨⟨isF32_1000, Mod360_deg_f32_1000, ?_⟩, ?_, Mod360_deg_f32_tiny, ?_⟩
  · rw [Mod360_deg_f32_1000]; norm_num
  · refine isF32_neg _ (isF32_of_grid_pos (1 / 1048576) (-20) 8388608 (by norm_num)
      (by norm_num) (by norm_num) (by norm_num))
  · intro k hk
    rw [Mod360_deg_f32_tiny] at hk
    have h3 : (360 * 1048576 : ℚ) * (k : ℚ) = 1 := by linarith
    have h4 : ((360 * 1048576 * k : Int) : ℚ) = ((1 : Int) : ℚ) := by push_cast; linarith
    have h5 : 360 * 1048576 * k = 1 := by exact_mod_cast h4
    omega

/-- C13 (amended): for every `float` input `a` with `-360 <= a < 720`, normalising twice
gives the same result as normalising once. -/
theorem C13_mod360_float_idempotent (a : ℚ) (ha : IsF32 a) (h1 : -360 ≤ a) (h2 : a < 720) :
    Mod360_deg_f32 (Mod360_deg_f32 a) = Mod360_deg_f32 a := by
  obtain ⟨r1, r2, _⟩ := Mod360_deg_f32_range a ha h1 h2
  exact Mod360_deg_f32_fix _ r1 r2

/-- C13 witness: the amended claim at the `float` input `a = -30`. -/
theorem C13_mod360_float_idempotent_witness :
    (IsF32 (-30) ∧ (-360 : ℚ) ≤ -30 ∧ (-30 : ℚ) < 720) ∧
    Mod360_deg_f32 (Mod360_deg_f32 (-30)) = Mod360_deg_f32 (-30) :=
  ⟨⟨isF32_neg30, by norm_num, by norm_num⟩,
    C13_mod360_float_idempotent (-30) isF32_neg30 (by norm_num) (by norm_num)⟩

/-- C13 counterexample: the `float` input `a = 1000` is sent to `640`, and `640` to `280`. -/
theorem C13_mod360_float_counterexample :
    IsF32 1000 ∧ Mod360_deg_f32 1000 = 640 ∧ Mod360_deg_f32 (Mod360_deg_f32 1000) = 280 ∧
    Mod360_deg_f32 (Mod360_deg_f32 1000) ≠ Mod360_deg_f32 1000 := by
  have h : Mod360_deg_f32 (Mod360_deg_f32 1000) = 280 := by
    rw [Mod360_deg_f32_1000, Mod360_deg_f32_640]
  refine ⟨isF32_1000, Mod360_deg_f32_1000, h, ?_⟩
  rw [h, Mod360_deg_f32_1000]; norm_num
/-! ### The constant `PI` and `Mod2Pi_rad` in `float` arithmetic -/

/-- The `float` value of the literal `3.1415926535f`. -/
theorem PI_f32_eq : PI_f32 = 13176795 / 4194304 := by
  unfold PI_f32
  have := toFloat_eval 3.1415926535 1 13176795
    (inBinade_of _ 1 (by norm_num) (by norm_num) (by norm_num)) (by norm_num) (by norm_num)
  rw [this]; norm_num

theorem isF32_twoPI : IsF32 (13176795 / 2097152) :=
  isF32_of_grid_pos (13176795 / 2097152) 2 13176795 (by norm_num) (by norm_num) (by norm_num)
    (by norm_num)

/-- The `float` value of `2.0f * PI`. -/
theorem twoPI_f32_eq : f32mul 2 PI_f32 = 13176795 / 2097152 := by
  unfold f32mul
  rw [PI_f32_eq]
  have : (2 : ℚ) * (13176795 / 4194304) = 13176795 / 2097152 := by norm_num
  rw [this]
  exact isF32_twoPI

theorem isF32_PI : IsF32 PI_f32 := by
  unfold PI_f32
  exact toFloat_idem _

theorem Mod2Pi_rad_f32_fix (r : ℚ) (h1 : 0 ≤ r) (h2 : r < 13176795 / 2097152) :
    Mod2Pi_rad_f32 r = r := by
  unfold Mod2Pi_rad_f32
  simp only
  rw [twoPI_f32_eq, if_neg (not_lt.mpr h1), if_neg (not_le.mpr h2)]

theorem Mod2Pi_rad_f32_of_neg (a : ℚ) (h1 : -(13176795 / 2097152) ≤ a) (h2 : a < 0) :
    (0 ≤ f32add a (13176795 / 2097152) ∧ f32add a (13176795 / 2097152) ≤ 13176795 / 2097152) ∧
    (f32add a (13176795 / 2097152) < 13176795 / 2097152 →
      Mod2Pi_rad_f32 a = f32add a (13176795 / 2097152)) ∧
    (f32add a (13176795 / 2097152) = 13176795 / 2097152 → Mod2Pi_rad_f32 a = 0) := by
  have hb1 : 0 ≤ f32add a (13176795 / 2097152) := toFloat_nonneg _ (by linarith)
  have hb2 : f32add a (13176795 / 2097152) ≤ 13176795 / 2097152 :=
    toFloat_le_of_le _ _ isF32_twoPI (by linarith)
  refine ⟨⟨hb1, hb2⟩, ?_, ?_⟩
  · intro h
    unfold Mod2Pi_rad_f32
    simp only
    rw [twoPI_f32_eq, if_pos h2, if_neg (not_le.mpr h)]
  · intro h
    unfold Mod2Pi_rad_f32
    simp only
    rw [twoPI_f32_eq, if_pos h2, if_pos (le_of_eq h.symm), h]
    unfold f32sub
    rw [sub_self, toFloat_zero]

theorem Mod2Pi_rad_f32_of_ge (a : ℚ) (ha : IsF32 a) (h1 : 13176795 / 2097152 ≤ a)
    (h2 : a < 13176795 / 1048576) : Mod2Pi_rad_f32 a = a - 13176795 / 2097152 := by
  unfold Mod2Pi_rad_f32
  simp only
  rw [twoPI_f32_eq, if_neg (by linarith : ¬ a < 0), if_pos h1]
  have h3 : IsF32 (a - 13176795 / 2097152) := by
    refine isF32_sub a (13176795 / 2097152) 2 ha isF32_twoPI (by norm_num) ?_
      (by rw [abs_of_nonneg (by norm_num)]; norm_num) ?_
    · rw [abs_of_nonneg (by linarith)]; norm_num; linarith
    · rw [abs_of_nonneg (by linarith)]; norm_num; linarith
  exact h3

/-- On the `float` inputs within one turn of the range the result of `Mod2Pi_rad` lies in
`[0, 2 PI)` and is a `float`. -/
theorem Mod2Pi_rad_f32_range (a : ℚ) (ha : IsF32 a) (h1 : -(13176795 / 2097152) ≤ a)
    (h2 : a < 13176795 / 1048576) :
    0 ≤ Mod2Pi_rad_f32 a ∧ Mod2Pi_rad_f32 a < 13176795 / 2097152 ∧
    IsF32 (Mod2Pi_rad_f32 a) := by
  by_cases hn : a < 0
  · obtain ⟨⟨b1, b2⟩, c1, c2⟩ := Mod2Pi_rad_f32_of_neg a h1 hn
    rcases lt_or_eq_of_le b2 with h | h
    · rw [c1 h]; exact ⟨b1, h, toFloat_idem _⟩
    · rw [c2 h]; exact ⟨le_refl _, by norm_num, isF32_zero⟩
  · have h0 : 0 ≤ a := not_lt.mp hn
    by_cases hg : 13176795 / 2097152 ≤ a
    · have h3 : IsF32 (a - 13176795 / 2097152) := by
        refine isF32_sub a (13176795 / 2097152) 2 ha isF32_twoPI (by norm_num) ?_
          (by rw [abs_of_nonneg (by norm_num)]; norm_num) ?_
        · rw [abs_of_nonneg (by linarith)]; norm_num; linarith
        · rw [abs_of_nonneg (by linarith)]; norm_num; linarith
      rw [Mod2Pi_rad_f32_of_ge a ha hg h2]
      exact ⟨by linarith, by linarith, h3⟩
    · rw [Mod2Pi_rad_f32_fix a h0 (not_le.mp hg)]
      exact ⟨h0, not_le.mp hg, ha⟩

/-- For a negative input the result of `Mod2Pi_rad` is `a + 2 PI` or `a` up to the rounding
of the `float` addition, an error of at most `2^(-22)`. -/
theorem Mod2Pi_rad_f32_approx (a : ℚ) (h1 : -(13176795 / 2097152) ≤ a) (h2 : a < 0) :
    |Mod2Pi_rad_f32 a - (a + 13176795 / 2097152)| ≤ 1 / 4194304 ∨
    |Mod2Pi_rad_f32 a - a| ≤ 1 / 4194304 := by
  obtain ⟨⟨b1, b2⟩, c1, c2⟩ := Mod2Pi_rad_f32_of_neg a h1 h2
  obtain ⟨e, he⟩ := exists_binade |a + 13176795 / 2097152| (abs_nonneg _)
  have hpos : |a + 13176795 / 2097152| = a + 13176795 / 2097152 :=
    abs_of_nonneg (by linarith)
  have he8 : e ≤ 2 := by
    rcases he.2.2 with h | ⟨h, _⟩
    · have : (2 : ℚ) ^ e < (2 : ℚ) ^ (3 : Int) := by
        refine lt_of_le_of_lt h ?_
        rw [hpos]; norm_num; linarith
      rw [two_zpow_lt_iff] at this; omega
    · omega
  have herr := toFloat_err (a + 13176795 / 2097152) e he
  have hle : (2 : ℚ) ^ (e - 24) ≤ 1 / 4194304 := by
    have := two_zpow_le (e - 24) (-22) (by omega)
    norm_num at this ⊢
    exact this
  have herr2 : |f32add a (13176795 / 2097152) - (a + 13176795 / 2097152)| ≤ 1 / 4194304 :=
    le_trans herr hle
  rcases lt_or_eq_of_le b2 with h | h
  · left; rw [c1 h]; exact herr2
  · right
    rw [c2 h]
    rw [h] at herr2
    rw [abs_le] at herr2 ⊢
    constructor <;> linarith [herr2.1, herr2.2]

/-- In `float` arithmetic `-2^(-27) + 2 PI` rounds to `2 PI`, so `Mod2Pi_rad` returns 0. -/
theorem Mod2Pi_rad_f32_tiny : Mod2Pi_rad_f32 (-(1 / 134217728)) = 0 := by
  have h : f32add (-(1 / 134217728)) (13176795 / 2097152) = 13176795 / 2097152 := by
    unfold f32add
    have := toFloat_eval (-(1 / 134217728) + 13176795 / 2097152) 2 13176795
      (inBinade_of _ 2 (by norm_num) (by norm_num) (by norm_num)) (by norm_num) (by norm_num)
    rw [this]; norm_num
  exact (Mod2Pi_rad_f32_of_neg _ (by norm_num) (by norm_num)).2.2 h

theorem isF32_12 : IsF32 12 :=
  isF32_of_grid_pos 12 3 12582912 (by norm_num) (by norm_num) (by norm_num) (by norm_num)

theorem isF32_neg1 : IsF32 (-1) :=
  isF32_neg 1 (isF32_of_grid_pos 1 0 8388608 (by norm_num) (by norm_num) (by norm_num)
    (by norm_num))

/-- C29 (amended): with `2 PI` the `float` value of `2.0f * PI`, for every `float` input `a`
with `-2 PI <= a < 4 PI` the result of `Mod2Pi_rad`, computed in `float` arithmetic, lies
in `[0, 2 PI)`; for `a >= 0` it differs from `a` by exactly `0` or `-2 PI`, and for `a < 0`
it is `a + 2 PI` or `a` up to the rounding of the `float` addition, an error of at most
`2^(-22)`.  The arguments at the call sites are in that range: a `float` result `t` of
`atan2f` in `[-PI, PI]`, and the `float` values of `p - F * 0.5` and `p + F * 0.5` for a
facing angle `p` in `[0, 2 PI)` and a field of view `F` with `0 <= F <= 2 PI`, be it the
value rounded once or any `float` within `2^(-20)` of the exact value (as when the
expression is evaluated in `double` and then narrowed). -/
theorem C29_mod2pi_float_range (a : ℚ) (ha : IsF32 a) (h1 : -(f32mul 2 PI_f32) ≤ a)
    (h2 : a < 2 * f32mul 2 PI_f32) :
    ((0 ≤ Mod2Pi_rad_f32 a ∧ Mod2Pi_rad_f32 a < f32mul 2 PI_f32) ∧
      (0 ≤ a → Mod2Pi_rad_f32 a = a ∨ Mod2Pi_rad_f32 a = a - f32mul 2 PI_f32) ∧
      (a < 0 → |Mod2Pi_rad_f32 a - (a + f32mul 2 PI_f32)| ≤ 1 / 4194304 ∨
        |Mod2Pi_rad_f32 a - a| ≤ 1 / 4194304)) ∧
    (∀ t : ℚ, IsF32 t → -PI_f32 ≤ t → t ≤ PI_f32 →
      0 ≤ Mod2Pi_rad_f32 t ∧ Mod2Pi_rad_f32 t < f32mul 2 PI_f32) ∧
    (∀ p F : ℚ, 0 ≤ p → p < f32mul 2 PI_f32 → 0 ≤ F → F ≤ f32mul 2 PI_f32 →
      (0 ≤ Mod2Pi_rad_f32 (toFloat (p - F * (1 / 2))) ∧
        Mod2Pi_rad_f32 (toFloat (p - F * (1 / 2))) < f32mul 2 PI_f32) ∧
      (0 ≤ Mod2Pi_rad_f32 (toFloat (p + F * (1 / 2))) ∧
        Mod2Pi_rad_f32 (toFloat (p + F * (1 / 2))) < f32mul 2 PI_f32)) ∧
    (∀ p F x : ℚ, 0 ≤ p → p < f32mul 2 PI_f32 → 0 ≤ F → F ≤ f32mul 2 PI_f32 → IsF32 x →
      (|x - (p - F * (1 / 2))| ≤ 1 / 1048576 ∨ |x - (p + F * (1 / 2))| ≤ 1 / 1048576) →
      0 ≤ Mod2Pi_rad_f32 x ∧ Mod2Pi_rad_f32 x < f32mul 2 PI_f32) := by
  rw [twoPI_f32_eq] at h1 h2 ⊢
  rw [PI_f32_eq]
  have h2a : a < 13176795 / 1048576 := by linarith
  refine ⟨⟨?_, ?_, ?_⟩, ?_, ?_, ?_⟩
  · obtain ⟨r1, r2, _⟩ := Mod2Pi_rad_f32_range a ha h1 h2a
    exact ⟨r1, r2⟩
  · intro h0
    by_cases hg : 13176795 / 2097152 ≤ a
    · right; exact Mod2Pi_rad_f32_of_ge a ha hg h2a
    · left; exact Mod2Pi_rad_f32_fix a h0 (not_le.mp hg)
  · intro hn
    exact Mod2Pi_rad_f32_approx a h1 hn
  · intro t ht t1 t2
    obtain ⟨r1, r2, _⟩ := Mod2Pi_rad_f32_range t ht (by linarith) (by linarith)
    exact ⟨r1, r2⟩
  · intro p F hp1 hp2 hF1 hF2
    have hm : IsF32 (-(13176795 / 2097152)) := isF32_neg _ isF32_twoPI
    have ha1 : -(13176795 / 2097152) ≤ toFloat (p - F * (1 / 2)) :=
      toFloat_ge_of_ge _ _ hm (by linarith)
    have ha2 : toFloat (p - F * (1 / 2)) ≤ 12 := toFloat_le_of_le _ _ isF32_12 (by linarith)
    have hb1 : -(13176795 / 2097152) ≤ toFloat (p + F * (1 / 2)) :=
      toFloat_ge_of_ge _ _ hm (by linarith)
    have hb2 : toFloat (p + F * (1 / 2)) ≤ 12 := toFloat_le_of_le _ _ isF32_12 (by linarith)
    obtain ⟨r1, r2, _⟩ := Mod2Pi_rad_f32_range _ (toFloat_idem (p - F * (1 / 2))) ha1
      (by linarith)
    obtain ⟨s1, s2, _⟩ := Mod2Pi_rad_f32_range _ (toFloat_idem (p + F * (1 / 2))) hb1
      (by linarith)
    exact ⟨⟨r1, r2⟩, ⟨s1, s2⟩⟩
  · intro p F x hp1 hp2 hF1 hF2 hx hnear
    have hb : -(13176795 / 2097152) ≤ x ∧ x < 13176795 / 1048576 := by
      rcases hnear with h | h
      · rw [abs_le] at h
        constructor <;> linarith [h.1, h.2]
      · rw [abs_le] at h
        constructor <;> linarith [h.1, h.2]
    obtain ⟨r1, r2, _⟩ := Mod2Pi_rad_f32_range x hx hb.1 hb.2
    exact ⟨r1, r2⟩

/-- C29 witness: the amended claim at the `float` input `a = -1`. -/
theorem C29_mod2pi_float_range_witness :
    (IsF32 (-1) ∧ -(f32mul 2 PI_f32) ≤ -1 ∧ (-1 : ℚ) < 2 * f32mul 2 PI_f32) ∧
    (0 ≤ Mod2Pi_rad_f32 (-1) ∧ Mod2Pi_rad_f32 (-1) < f32mul 2 PI_f32) :=
  ⟨⟨isF32_neg1, by rw [twoPI_f32_eq]; norm_num, by rw [twoPI_f32_eq]; norm_num⟩,
    (C29_mod2pi_float_range (-1) isF32_neg1 (by rw [twoPI_f32_eq]; norm_num)
      (by rw [twoPI_f32_eq]; norm_num)).1.1⟩

/-- C29 counterexample: the `float` input `a = -2^(-27)` lies in `[-2 PI, 4 PI)` and is sent
to `0` by the `float` routine, which differs from `a` by none of `-2 PI`, `0`, `+2 PI`. -/
theorem C29_mod2pi_float_counterexample :
    IsF32 (-(1 / 134217728)) ∧ -(f32mul 2 PI_f32) ≤ -(1 / 134217728) ∧
    (-(1 / 134217728) : ℚ) < 2 * f32mul 2 PI_f32 ∧
    Mod2Pi_rad_f32 (-(1 / 134217728)) = 0 ∧
    Mod2Pi_rad_f32 (-(1 / 134217728)) ≠ -(1 / 134217728) + f32mul 2 PI_f32 ∧
    Mod2Pi_rad_f32 (-(1 / 134217728)) ≠ -(1 / 134217728) ∧
    Mod2Pi_rad_f32 (-(1 / 134217728)) ≠ -(1 / 134217728) - f32mul 2 PI_f32 := by
  rw [Mod2Pi_rad_f32_tiny, twoPI_f32_eq]
  refine ⟨?_, by norm_num, by norm_num, rfl, by norm_num, by norm_num, by norm_num⟩
  exact isF32_neg _ (isF32_of_grid_pos (1 / 134217728) (-27) 8388608 (by norm_num)
    (by norm_num) (by norm_num) (by norm_num))

/-! ### `Deg2Rad` and the rotation handling in `float` arithmetic -/

/-- Rounding of a tie towards the even neighbour above. -/
theorem toFloat_tie_odd (x : ℚ) (e n : Int) (hb : InBinade x e) (hn : n % 2 = 1)
    (h : x / (2 : ℚ) ^ (e - 23) = (n : ℚ) + 1 / 2) :
    toFloat x = ((n + 1 : Int) : ℚ) * (2 : ℚ) ^ (e - 23) := by
  have h0 := binade_nonneg x e hb
  unfold toFloat
  rw [if_neg (not_lt.mpr h0), f32RoundMag_binade x e hb, h, roundHalfEven_tie_odd n hn]

theorem f32div_mono (x y c : ℚ) (hc : 0 < c) (h : x ≤ y) : f32div x c ≤ f32div y c := by
  unfold f32div
  exact toFloat_mono _ _ (div_le_div_of_nonneg_right h (le_of_lt hc))

theorem f32mul_mono (x y c : ℚ) (hc : 0 ≤ c) (h : x ≤ y) : f32mul x c ≤ f32mul y c := by
  unfold f32mul
  exact toFloat_mono _ _ (mul_le_mul_of_nonneg_right h hc)

theorem PI_f32_pos : 0 < PI_f32 := by rw [PI_f32_eq]; norm_num

/-- The routine `Deg2Rad` is monotone in `float` arithmetic. -/
theorem Deg2Rad_f32_mono (x y : ℚ) (h : x ≤ y) : Deg2Rad_f32 x ≤ Deg2Rad_f32 y := by
  unfold Deg2Rad_f32
  exact f32mul_mono _ _ _ (le_of_lt PI_f32_pos) (f32div_mono _ _ _ (by norm_num) h)

theorem Deg2Rad_f32_zero : Deg2Rad_f32 0 = 0 := by
  unfold Deg2Rad_f32 f32div f32mul
  rw [zero_div, toFloat_zero, zero_mul, toFloat_zero]

/-- The largest `float` below 360 is sent to the largest `float` below `2.0f * PI`. -/
theorem Deg2Rad_f32_pred360 : Deg2Rad_f32 (360 - 1 / 32768) = 13176794 / 2097152 := by
  have h1 : f32div (360 - 1 / 32768) 180 = 16777215 / 8388608 := by
    unfold f32div
    have := toFloat_eval ((360 - 1 / 32768) / 180) 0 16777215
      (inBinade_of _ 0 (by norm_num) (by norm_num) (by norm_num)) (by norm_num) (by norm_num)
    rw [this]; norm_num
  unfold Deg2Rad_f32
  rw [h1, PI_f32_eq]
  unfold f32mul
  have := toFloat_eval (16777215 / 8388608 * (13176795 / 4194304)) 2 13176794
    (inBinade_of _ 2 (by norm_num) (by norm_num) (by norm_num)) (by norm_num) (by norm_num)
  rw [this]; norm_num

/-- For a `float` angle in `[0, 360)` degrees the radian value computed by `Deg2Rad` lies
in `[0, 2 PI)`, with `2 PI` the `float` value of `2.0f * PI`. -/
theorem Deg2Rad_f32_range (d : ℚ) (hd : IsF32 d) (h1 : 0 ≤ d) (h2 : d < 360) :
    0 ≤ Deg2Rad_f32 d ∧ Deg2Rad_f32 d < f32mul 2 PI_f32 := by
  constructor
  · have := Deg2Rad_f32_mono 0 d h1
    rw [Deg2Rad_f32_zero] at this; exact this
  · have h3 := Deg2Rad_f32_mono d _ (isF32_lt_360 d hd h2)
    rw [Deg2Rad_f32_pred360] at h3
    rw [twoPI_f32_eq]
    refine lt_of_le_of_lt h3 (by norm_num)

theorem speedUp_nonneg (bShift bCtrl : Bool) : 0 ≤ speedUp bShift bCtrl := by
  have h4 : (0 : ℚ) ≤ f32mul 1 4 := by unfold f32mul; exact toFloat_nonneg _ (by norm_num)
  have ht : (0 : ℚ) ≤ toFloat 0.10 := toFloat_nonneg _ (by norm_num)
  unfold speedUp
  cases bShift <;> cases bCtrl <;> simp only [Bool.false_eq_true, if_false, if_true]
  · norm_num
  · unfold f32mul; exact toFloat_nonneg _ (by linarith)
  · exact h4
  · unfold f32mul
    exact toFloat_nonneg _ (mul_nonneg (toFloat_nonneg _ (by norm_num)) ht)

theorem isF32_pred720 : IsF32 (720 - 1 / 16384) :=
  isF32_of_grid_pos (720 - 1 / 16384) 9 11796479 (by norm_num) (by norm_num) (by norm_num)
    (by norm_num)

theorem isF32_neg360 : IsF32 (-360) := isF32_neg 360 isF32_360

/-- One key: a `float` angle in `[0, 360)` moved by a `float` rotation in `[0, 360)` is
normalised into `[0, 360)` again. -/
theorem rotate_add_range (d R : ℚ) (hd : IsF32 d) (h1 : 0 ≤ d) (h2 : d < 360) (hR : IsF32 R)
    (r1 : 0 ≤ R) (r2 : R < 360) :
    (0 ≤ Mod360_deg_f32 (f32add d R) ∧ Mod360_deg_f32 (f32add d R) < 360 ∧
      IsF32 (Mod360_deg_f32 (f32add d R))) ∧
    (0 ≤ Mod360_deg_f32 (f32sub d R) ∧ Mod360_deg_f32 (f32sub d R) < 360 ∧
      IsF32 (Mod360_deg_f32 (f32sub d R))) := by
  have hd2 := isF32_lt_360 d hd h2
  have hR2 := isF32_lt_360 R hR r2
  constructor
  · have a1 : 0 ≤ f32add d R := toFloat_nonneg _ (by linarith)
    have a2 : f32add d R ≤ 720 - 1 / 16384 := toFloat_le_of_le _ _ isF32_pred720 (by linarith)
    exact Mod360_deg_f32_range _ (toFloat_idem _) (by linarith) (by linarith)
  · have a1 : -360 ≤ f32sub d R := toFloat_ge_of_ge _ _ isF32_neg360 (by linarith)
    have a2 : f32sub d R ≤ 360 := toFloat_le_of_le _ _ isF32_360 (by linarith)
    exact Mod360_deg_f32_range _ (toFloat_idem _) a1 (by linarith)

/-- C14 (amended): starting from a `float` `fPlayerA_deg` in `[0, 360)` with
`fPlayerA_rad` equal to `Deg2Rad(fPlayerA_deg)`, after the rotation handling of an
`OnUserUpdate` step, for any combination of held rotate keys and speed modifiers and any
elapsed time `>= 0` for which the rotation computed in `float` arithmetic,
`fSpeedUp * SPEED_ROTATE * fElapsedTime`, is below 360 degrees, `fPlayerA_deg` is again
in `[0, 360)` and the derived `fPlayerA_rad` equals `Deg2Rad(fPlayerA_deg)` and lies in
`[0, 2 PI)`, with `2 PI` the `float` value of `2.0f * PI`. -/
theorem C14_rotation_float_range (bShift bCtrl bKeyD bKeyA : Bool) (fElapsedTime : ℚ)
    (s : AngleState) (hs : IsF32 s.fPlayerA_deg) (h1 : 0 ≤ s.fPlayerA_deg)
    (h2 : s.fPlayerA_deg < 360) (hr : s.fPlayerA_rad = Deg2Rad_f32 s.fPlayerA_deg)
    (ht : 0 ≤ fElapsedTime)
    (hrot : f32mul (f32mul (speedUp bShift bCtrl) SPEED_ROTATE) fElapsedTime < 360) :
    (0 ≤ (rotateStep bShift bCtrl bKeyD bKeyA fElapsedTime s).fPlayerA_deg ∧
      (rotateStep bShift bCtrl bKeyD bKeyA fElapsedTime s).fPlayerA_deg < 360) ∧
    (rotateStep bShift bCtrl bKeyD bKeyA fElapsedTime s).fPlayerA_rad =
      Deg2Rad_f32 (rotateStep bShift bCtrl bKeyD bKeyA fElapsedTime s).fPlayerA_deg ∧
    0 ≤ (rotateStep bShift bCtrl bKeyD bKeyA fElapsedTime s).fPlayerA_rad ∧
    (rotateStep bShift bCtrl bKeyD bKeyA fElapsedTime s).fPlayerA_rad < f32mul 2 PI_f32 := by
  have hR : IsF32 (f32mul (f32mul (speedUp bShift bCtrl) SPEED_ROTATE) fElapsedTime) := by
    unfold f32mul; exact toFloat_idem _
  have r1 : 0 ≤ f32mul (f32mul (speedUp bShift bCtrl) SPEED_ROTATE) fElapsedTime := by
    have := speedUp_nonneg bShift bCtrl
    unfold f32mul SPEED_ROTATE
    exact toFloat_nonneg _ (mul_nonneg (toFloat_nonneg _ (by linarith)) ht)
  unfold rotateStep
  simp only
  generalize f32mul (f32mul (speedUp bShift bCtrl) SPEED_ROTATE) fElapsedTime = R
    at hrot hR r1 ⊢
  cases bKeyD <;> cases bKeyA <;>
    simp only [Bool.false_eq_true, if_false, if_true, sync_angle_vars]
  · obtain ⟨a, b⟩ := Deg2Rad_f32_range _ hs h1 h2
    rw [hr]
    exact ⟨⟨h1, h2⟩, rfl, a, b⟩
  · obtain ⟨_, a, b, c⟩ := rotate_add_range _ R hs h1 h2 hR r1 hrot
    exact ⟨⟨a, b⟩, trivial, Deg2Rad_f32_range _ c a b⟩
  · obtain ⟨⟨a, b, c⟩, _⟩ := rotate_add_range _ R hs h1 h2 hR r1 hrot
    exact ⟨⟨a, b⟩, trivial, Deg2Rad_f32_range _ c a b⟩
  · obtain ⟨⟨a, b, c⟩, _⟩ := rotate_add_range _ R hs h1 h2 hR r1 hrot
    obtain ⟨_, a2, b2, c2⟩ := rotate_add_range _ R c a b hR r1 hrot
    exact ⟨⟨a2, b2⟩, trivial, Deg2Rad_f32_range _ c2 a2 b2⟩

theorem isF32_350 : IsF32 350 :=
  isF32_of_grid_pos 350 8 11468800 (by norm_num) (by norm_num) (by norm_num) (by norm_num)

theorem isF32_60 : IsF32 60 :=
  isF32_of_grid_pos 60 5 15728640 (by norm_num) (by norm_num) (by norm_num) (by norm_num)

theorem isF32_pred360 : IsF32 (360 - 1 / 32768) :=
  isF32_of_grid_pos (360 - 1 / 32768) 8 11796479 (by norm_num) (by norm_num) (by norm_num)
    (by norm_num)

/-- The rotation of one frame of a quarter of a second without speed modifier: 15
degrees. -/
theorem rotation_quarter : f32mul (f32mul (speedUp false false) SPEED_ROTATE) (1 / 4) = 15 := by
  unfold speedUp SPEED_ROTATE
  simp only [Bool.false_eq_true, if_false]
  have h60 : f32mul 1 60 = 60 := by
    unfold f32mul
    rw [one_mul]; exact isF32_60
  rw [h60]
  unfold f32mul
  have : (60 : ℚ) * (1 / 4) = 15 := by norm_num
  rw [this]
  exact isF32_of_grid_pos 15 3 15728640 (by norm_num) (by norm_num) (by norm_num)
    (by norm_num)

/-- The rotation of a frame of `t` seconds for `t` one of 6 and 12, without speed
modifier: `60 t` degrees. -/
theorem rotation_six_twelve :
    f32mul (f32mul (speedUp false false) SPEED_ROTATE) 6 = 360 ∧
    f32mul (f32mul (speedUp false false) SPEED_ROTATE) 12 = 720 := by
  unfold speedUp SPEED_ROTATE
  simp only [Bool.false_eq_true, if_false]
  have h60 : f32mul 1 60 = 60 := by
    unfold f32mul
    rw [one_mul]; exact isF32_60
  rw [h60]
  unfold f32mul
  have a : (60 : ℚ) * 6 = 360 := by norm_num
  have b : (60 : ℚ) * 12 = 720 := by norm_num
  rw [a, b]
  exact ⟨isF32_360, isF32_720⟩

/-- C14 witness: the amended claim from 350 degrees with the key D held for a quarter of
a second. -/
theorem C14_rotation_float_range_witness :
    (IsF32 (⟨350, Deg2Rad_f32 350⟩ : AngleState).fPlayerA_deg ∧
      (0 : ℚ) ≤ (⟨350, Deg2Rad_f32 350⟩ : AngleState).fPlayerA_deg ∧
      (⟨350, Deg2Rad_f32 350⟩ : AngleState).fPlayerA_deg < 360 ∧
      (⟨350, Deg2Rad_f32 350⟩ : AngleState).fPlayerA_rad =
        Deg2Rad_f32 (⟨350, Deg2Rad_f32 350⟩ : AngleState).fPlayerA_deg ∧
      (0 : ℚ) ≤ 1 / 4 ∧
      f32mul (f32mul (speedUp false false) SPEED_ROTATE) (1 / 4) < 360) ∧
    ((0 ≤ (rotateStep false false true false (1 / 4) ⟨350, Deg2Rad_f32 350⟩).fPlayerA_deg ∧
      (rotateStep false false true false (1 / 4) ⟨350, Deg2Rad_f32 350⟩).fPlayerA_deg < 360) ∧
    (rotateStep false false true false (1 / 4) ⟨350, Deg2Rad_f32 350⟩).fPlayerA_rad =
      Deg2Rad_f32
        (rotateStep false false true false (1 / 4) ⟨350, Deg2Rad_f32 350⟩).fPlayerA_deg ∧
    0 ≤ (rotateStep false false true false (1 / 4) ⟨350, Deg2Rad_f32 350⟩).fPlayerA_rad ∧
    (rotateStep false false true false (1 / 4) ⟨350, Deg2Rad_f32 350⟩).fPlayerA_rad <
      f32mul 2 PI_f32) :=
  ⟨⟨isF32_350, by norm_num, by norm_num, rfl, by norm_num,
      by rw [rotation_quarter]; norm_num⟩,
    C14_rotation_float_range false false true false (1 / 4) ⟨350, Deg2Rad_f32 350⟩ isF32_350
      (by norm_num) (by norm_num) rfl (by norm_num) (by rw [rotation_quarter]; norm_num)⟩

/-- C14 counterexample: with the key D held for 12 seconds from the angle 0 the rotation
is 720 degrees and `fPlayerA_deg` ends at 360; and with the key D held for 6 seconds from
the largest `float` below 360 the rotation is 360 degrees, the `float` sum rounds to 720
and `fPlayerA_deg` ends at 360 as well.  Either start is a `float` in `[0, 360)` with
`fPlayerA_rad` in step. -/
theorem C14_rotation_float_counterexample :
    (IsF32 (0 : ℚ) ∧ (0 : ℚ) ≤ 0 ∧ (0 : ℚ) < 360 ∧ (0 : ℚ) ≤ 12 ∧
      ((rotateStep false false true false 12 ⟨0, Deg2Rad_f32 0⟩).fPlayerA_deg = 360)) ∧
    (IsF32 (360 - 1 / 32768 : ℚ) ∧ (0 : ℚ) ≤ 360 - 1 / 32768 ∧
      (360 - 1 / 32768 : ℚ) < 360 ∧ (0 : ℚ) ≤ 6 ∧
      f32mul (f32mul (speedUp false false) SPEED_ROTATE) 6 = 360 ∧
      ((rotateStep false false true false 6
        ⟨360 - 1 / 32768, Deg2Rad_f32 (360 - 1 / 32768)⟩).fPlayerA_deg = 360)) := by
  have hsub : f32sub 720 360 = 360 := by
    unfold f32sub
    have : (720 : ℚ) - 360 = 360 := by norm_num
    rw [this]; exact isF32_360
  have hM : Mod360_deg_f32 720 = 360 := by
    unfold Mod360_deg_f32
    simp only
    rw [if_neg (by norm_num : ¬ (720 : ℚ) < 0), if_pos (by norm_num : (720 : ℚ) ≥ 360), hsub]
  have hA : f32add 0 720 = 720 := by
    unfold f32add
    rw [zero_add]; exact isF32_720
  have hB : f32add (360 - 1 / 32768) 360 = 720 := by
    unfold f32add
    have := toFloat_tie_odd (360 - 1 / 32768 + 360) 9 11796479
      (inBinade_of _ 9 (by norm_num) (by norm_num) (by norm_num)) (by decide) (by norm_num)
    rw [this]; norm_num
  refine ⟨⟨isF32_zero, by norm_num, by norm_num, by norm_num, ?_⟩,
    ⟨isF32_pred360, by norm_num, by norm_num, by norm_num, rotation_six_twelve.1, ?_⟩⟩
  · unfold rotateStep
    simp only [Bool.false_eq_true, if_false, if_true, sync_angle_vars]
    rw [rotation_six_twelve.2, hA, hM]
  · unfold rotateStep
    simp only [Bool.false_eq_true, if_false, if_true, sync_angle_vars]
    rw [rotation_six_twelve.1, hB, hM]

/-! ### The direction flags of `FaceVisible` in `float` arithmetic -/

/-- A `float` above the `float` `B = m * 2^(e - 23)` of the binade `e` is at least the
next `float` up, `B + 2^(e - 23)`. -/
theorem isF32_gt_grid (x B : ℚ) (e m : Int) (hx : IsF32 x)
    (hB : B = (m : ℚ) * (2 : ℚ) ^ (e - 23)) (hB1 : (2 : ℚ) ^ e ≤ B) (hgt : B < x) :
    B + (2 : ℚ) ^ (e - 23) ≤ x := by
  have hu := two_zpow_pos (e - 23)
  have hx0 : 0 ≤ x := le_trans (le_of_lt (two_zpow_pos e)) (le_trans hB1 (le_of_lt hgt))
  obtain ⟨k, hk⟩ := isF32_grid_of_ge x e hx (by rw [abs_of_nonneg hx0]; linarith)
  have hmk : m < k := by
    by_contra hn
    have h1 : (k : ℚ) ≤ (m : ℚ) := by exact_mod_cast not_lt.mp hn
    have := mul_le_mul_of_nonneg_right h1 (le_of_lt hu)
    rw [hk, hB] at hgt
    linarith
  have h2 : (m : ℚ) + 1 ≤ (k : ℚ) := by exact_mod_cast hmk
  have := mul_le_mul_of_nonneg_right h2 (le_of_lt hu)
  rw [hk, hB]
  linarith

/-- Halving a `float` of at least `2^(-125)` is exact. -/
theorem isF32_half (F : ℚ) (hF : IsF32 F) (h : (2 : ℚ) ^ (-125 : Int) ≤ F) : IsF32 (F / 2) := by
  have hF0 : 0 ≤ F := le_trans (le_of_lt (two_zpow_pos _)) h
  obtain ⟨e, he⟩ := exists_binade |F| (abs_nonneg F)
  rw [abs_of_nonneg hF0] at he
  have hee : -125 ≤ e := by
    have : (2 : ℚ) ^ (-125 : Int) < (2 : ℚ) ^ (e + 1) := lt_of_le_of_lt h he.2.1
    rw [two_zpow_lt_iff] at this; omega
  have hlow : (2 : ℚ) ^ e ≤ F := by
    rcases he.2.2 with h1 | ⟨h1, _⟩
    · exact h1
    · omega
  obtain ⟨k, hk⟩ := isF32_grid_of_ge F e hF (by rw [abs_of_nonneg hF0]; exact hlow)
  have hs : (2 : ℚ) ^ (e - 23) = 2 * (2 : ℚ) ^ (e - 24) := by
    have := two_zpow_succ (e - 24)
    have h2 : e - 24 + 1 = e - 23 := by ring
    rw [h2] at this; exact this
  refine isF32_of_multiple (F / 2) (e - 24) k (by omega) ?_ ?_
  · rw [hk, hs]; ring
  · have h2 : e - 24 + 24 = e := by ring
    rw [h2, abs_of_nonneg (by linarith)]
    have := he.2.1
    rw [two_zpow_succ] at this
    linarith

theorem isF32_90 : IsF32 90 :=
  isF32_of_grid_pos 90 6 11796480 (by norm_num) (by norm_num) (by norm_num) (by norm_num)

theorem isF32_180 : IsF32 180 :=
  isF32_of_grid_pos 180 7 11796480 (by norm_num) (by norm_num) (by norm_num) (by norm_num)

theorem isF32_270 : IsF32 270 :=
  isF32_of_grid_pos 270 8 8847360 (by norm_num) (by norm_num) (by norm_num) (by norm_num)

theorem isF32_450 : IsF32 450 :=
  isF32_of_grid_pos 450 8 14745600 (by norm_num) (by norm_num) (by norm_num) (by norm_num)

theorem isF32_one : IsF32 1 :=
  isF32_of_grid_pos 1 0 8388608 (by norm_num) (by norm_num) (by norm_num) (by norm_num)

theorem isF32_two : IsF32 2 :=
  isF32_of_grid_pos 2 1 8388608 (by norm_num) (by norm_num) (by norm_num) (by norm_num)

theorem isF32_onehalf : IsF32 (1 / 2) :=
  isF32_of_grid_pos (1 / 2) (-1) 8388608 (by norm_num) (by norm_num) (by norm_num)
    (by norm_num)

theorem isF32_threehalves : IsF32 (3 / 2) :=
  isF32_of_grid_pos (3 / 2) 0 12582912 (by norm_num) (by norm_num) (by norm_num)
    (by norm_num)

/-- The radian values of the quarter turns: `Deg2Rad` sends 0, 90, 180, 270 and 360
degrees to the `float` products `0.0f * PI`, `0.5f * PI`, `1.0f * PI`, `1.5f * PI` and
`2.0f * PI` that `FaceVisible` compares with. -/
theorem Deg2Rad_f32_quarters :
    Deg2Rad_f32 0 = f32mul 0.0 PI_f32 ∧ Deg2Rad_f32 90 = f32mul 0.5 PI_f32 ∧
    Deg2Rad_f32 180 = f32mul 1.0 PI_f32 ∧ Deg2Rad_f32 270 = f32mul 1.5 PI_f32 ∧
    Deg2Rad_f32 360 = f32mul 2.0 PI_f32 := by
  have h0 : f32div 0 180 = 0.0 := by
    unfold f32div; rw [zero_div, toFloat_zero]; norm_num
  have h1 : f32div 90 180 = 0.5 := by
    unfold f32div
    have : (90 : ℚ) / 180 = 1 / 2 := by norm_num
    rw [this, isF32_onehalf]; norm_num
  have h2 : f32div 180 180 = 1.0 := by
    unfold f32div
    have : (180 : ℚ) / 180 = 1 := by norm_num
    rw [this, isF32_one]; norm_num
  have h3 : f32div 270 180 = 1.5 := by
    unfold f32div
    have : (270 : ℚ) / 180 = 3 / 2 := by norm_num
    rw [this, isF32_threehalves]; norm_num
  have h4 : f32div 360 180 = 2.0 := by
    unfold f32div
    have : (360 : ℚ) / 180 = 2 := by norm_num
    rw [this, isF32_two]; norm_num
  unfold Deg2Rad_f32
  rw [h0, h1, h2, h3, h4]
  exact ⟨rfl, rfl, rfl, rfl, rfl⟩

/-- The `float` values of the five products. -/
theorem quarters_values :
    f32mul 0.0 PI_f32 = 0 ∧ f32mul 0.5 PI_f32 = 13176795 / 8388608 ∧
    f32mul 1.0 PI_f32 = 13176795 / 4194304 ∧ f32mul 1.5 PI_f32 = 2470649 / 524288 ∧
    f32mul 2.0 PI_f32 = 13176795 / 2097152 := by
  refine ⟨?_, ?_, ?_, ?_, ?_⟩
  · unfold f32mul
    have : (0.0 : ℚ) * PI_f32 = 0 := by norm_num
    rw [this, toFloat_zero]
  · unfold f32mul
    rw [PI_f32_eq]
    have : (0.5 : ℚ) * (13176795 / 4194304) = 13176795 / 8388608 := by norm_num
    rw [this]
    exact isF32_of_grid_pos _ 0 13176795 (by norm_num) (by norm_num) (by norm_num)
      (by norm_num)
  · unfold f32mul
    have : (1.0 : ℚ) * PI_f32 = PI_f32 := by norm_num
    rw [this, isF32_PI, PI_f32_eq]
  · unfold f32mul
    rw [PI_f32_eq]
    have := toFloat_eval ((1.5 : ℚ) * (13176795 / 4194304)) 2 9882596
      (inBinade_of _ 2 (by norm_num) (by norm_num) (by norm_num)) (by norm_num) (by norm_num)
    rw [this]; norm_num
  · have : (2.0 : ℚ) = 2 := by norm_num
    rw [this]; exact twoPI_f32_eq
/-- Sufficient conditions in degrees for the four sector tests of `FaceVisible`. -/
theorem flag_of_deg (d : ℚ) :
    (90 ≤ d → d ≤ 270 →
      AngleInSector_f32 (Deg2Rad_f32 d) (f32mul 0.5 PI_f32) (f32mul 1.5 PI_f32) = true) ∧
    ((270 ≤ d ∧ d ≤ 360) ∨ (0 ≤ d ∧ d ≤ 90) →
      AngleInSector_f32 (Deg2Rad_f32 d) (f32mul 1.5 PI_f32) (f32mul 0.5 PI_f32) = true) ∧
    (0 ≤ d → d ≤ 180 →
      AngleInSector_f32 (Deg2Rad_f32 d) (f32mul 0.0 PI_f32) (f32mul 1.0 PI_f32) = true) ∧
    (180 ≤ d → d ≤ 360 →
      AngleInSector_f32 (Deg2Rad_f32 d) (f32mul 1.0 PI_f32) (f32mul 2.0 PI_f32) = true) := by
  obtain ⟨q0, q1, q2, q3, q4⟩ := Deg2Rad_f32_quarters
  obtain ⟨v0, v1, v2, v3, v4⟩ := quarters_values
  rw [v0] at q0; rw [v1] at q1; rw [v2] at q2; rw [v3] at q3; rw [v4] at q4
  have lo : ∀ T : ℚ, T ≤ d → Deg2Rad_f32 T ≤ Deg2Rad_f32 d := fun T h =>
    Deg2Rad_f32_mono T d h
  have hi : ∀ T : ℚ, d ≤ T → Deg2Rad_f32 d ≤ Deg2Rad_f32 T := fun T h =>
    Deg2Rad_f32_mono d T h
  unfold AngleInSector_f32 InBetweenF
  rw [v0, v1, v2, v3, v4, twoPI_f32_eq]
  refine ⟨?_, ?_, ?_, ?_⟩
  · intro h1 h2
    have a := lo 90 h1
    have b := hi 270 h2
    rw [q1] at a; rw [q3] at b
    rw [if_neg (by norm_num)]
    simp only [Bool.and_eq_true, decide_eq_true_eq]
    exact ⟨a, b⟩
  · intro h
    rw [if_pos (by norm_num)]
    simp only [Bool.or_eq_true, Bool.and_eq_true, decide_eq_true_eq]
    rcases h with ⟨h1, h2⟩ | ⟨h1, h2⟩
    · left
      have a := lo 270 h1
      have b := hi 360 h2
      rw [q3] at a; rw [q4] at b
      exact ⟨a, b⟩
    · right
      have a := lo 0 h1
      have b := hi 90 h2
      rw [q0] at a; rw [q1] at b
      exact ⟨a, b⟩
  · intro h1 h2
    have a := lo 0 h1
    have b := hi 180 h2
    rw [q0] at a; rw [q2] at b
    rw [if_neg (by norm_num)]
    simp only [Bool.and_eq_true, decide_eq_true_eq]
    exact ⟨a, b⟩
  · intro h1 h2
    have a := lo 180 h1
    have b := hi 360 h2
    rw [q2] at a; rw [q4] at b
    rw [if_neg (by norm_num)]
    simp only [Bool.and_eq_true, decide_eq_true_eq]
    exact ⟨a, b⟩

theorem isF32_negtiny : IsF32 (-(1 / 32768)) :=
  isF32_neg _ (isF32_of_grid_pos (1 / 32768) (-15) 8388608 (by norm_num) (by norm_num)
    (by norm_num) (by norm_num))

/-- A `float` within `2^(-19)` of one of 90, 180, 270, 360 from below is at least that
value, and a `float` within `2^(-19)` of one of 90, 180, 270 from above is at most that
value. -/
theorem isF32_snap (A : ℚ) (hA : IsF32 A) :
    (∀ T : ℚ, (T = 90 ∨ T = 180 ∨ T = 270 ∨ T = 360) → T - 1 / 524288 < A → T ≤ A) ∧
    (∀ T : ℚ, (T = 90 ∨ T = 180 ∨ T = 270) → A < T + 1 / 524288 → A ≤ T) := by
  constructor
  · intro T hT h
    by_contra hn
    have hlt : A < T := not_le.mp hn
    rcases hT with rfl | rfl | rfl | rfl
    · have := isF32_lt_grid A 90 6 11796480 hA (by norm_num) (by norm_num) (by norm_num)
        (by norm_num) hlt
      norm_num at this; linarith
    · have := isF32_lt_grid A 180 7 11796480 hA (by norm_num) (by norm_num) (by norm_num)
        (by norm_num) hlt
      norm_num at this; linarith
    · have := isF32_lt_grid A 270 8 8847360 hA (by norm_num) (by norm_num) (by norm_num)
        (by norm_num) hlt
      norm_num at this; linarith
    · have := isF32_lt_360 A hA hlt
      linarith
  · intro T hT h
    by_contra hn
    have hgt : T < A := not_le.mp hn
    rcases hT with rfl | rfl | rfl
    · have := isF32_gt_grid A 90 6 11796480 hA (by norm_num) (by norm_num) hgt
      norm_num at this; linarith
    · have := isF32_gt_grid A 180 7 11796480 hA (by norm_num) (by norm_num) hgt
      norm_num at this; linarith
    · have := isF32_gt_grid A 270 8 8847360 hA (by norm_num) (by norm_num) hgt
      norm_num at this; linarith

/-- The boundaries of the cone computed in `float` arithmetic reach every quarter turn
that the boundaries `A - F / 2` and `A + F / 2` of the sector reach. -/
theorem fov_reach (A F : ℚ) (hAf : IsF32 A) (hFf : IsF32 F) (hA : 0 ≤ A) (hF : 0 < F) :
    (∀ T : ℚ, (T = 90 ∨ T = 180 ∨ T = 270 ∨ T = 360) → T ≤ A + F / 2 →
      T ≤ f32add A (f32div F 2)) ∧
    (∀ T : ℚ, (T = 90 ∨ T = 180 ∨ T = 270 ∨ T = -(1 / 32768)) → A - F / 2 ≤ T →
      f32sub A (f32div F 2) ≤ T) := by
  have hT1 : ∀ T : ℚ, (T = 90 ∨ T = 180 ∨ T = 270 ∨ T = 360) → IsF32 T := by
    intro T hT
    rcases hT with rfl | rfl | rfl | rfl
    · exact isF32_90
    · exact isF32_180
    · exact isF32_270
    · exact isF32_360
  have hT2 : ∀ T : ℚ, (T = 90 ∨ T = 180 ∨ T = 270 ∨ T = -(1 / 32768)) → IsF32 T := by
    intro T hT
    rcases hT with rfl | rfl | rfl | rfl
    · exact isF32_90
    · exact isF32_180
    · exact isF32_270
    · exact isF32_negtiny
  by_cases hbig : (2 : ℚ) ^ (-125 : Int) ≤ F
  · have hH : f32div F 2 = F / 2 := isF32_half F hFf hbig
    rw [hH]
    constructor
    · intro T hT h
      exact toFloat_ge_of_ge _ T (hT1 T hT) h
    · intro T hT h
      exact toFloat_le_of_le _ T (hT2 T hT) h
  · have hF2 : F < 1 / 524288 := by
      have h1 : F < (2 : ℚ) ^ (-125 : Int) := not_le.mp hbig
      have h2 := two_zpow_le (-125) (-19) (by omega)
      have h3 : (2 : ℚ) ^ (-19 : Int) = 1 / 524288 := by norm_num
      rw [h3] at h2
      exact lt_of_lt_of_le h1 h2
    have hH0 : 0 ≤ f32div F 2 := toFloat_nonneg _ (by linarith)
    obtain ⟨s1, s2⟩ := isF32_snap A hAf
    constructor
    · intro T hT h
      have hAT : T ≤ A := s1 T hT (by linarith)
      exact toFloat_ge_of_ge _ T (hT1 T hT) (by linarith)
    · intro T hT h
      rcases hT with hT | hT | hT | hT
      · have hAT : A ≤ T := s2 T (Or.inl hT) (by linarith)
        exact toFloat_le_of_le _ T (hT2 T (Or.inl hT)) (by linarith)
      · have hAT : A ≤ T := s2 T (Or.inr (Or.inl hT)) (by linarith)
        exact toFloat_le_of_le _ T (hT2 T (Or.inr (Or.inl hT))) (by linarith)
      · have hAT : A ≤ T := s2 T (Or.inr (Or.inr hT)) (by linarith)
        exact toFloat_le_of_le _ T (hT2 T (Or.inr (Or.inr (Or.inl hT)))) (by linarith)
      · exfalso; rw [hT] at h; linarith

/-- The normalisation of the left boundary of the cone. -/
theorem fov_left_cases (L0 : ℚ) (h1 : -90 ≤ L0) :
    (0 ≤ L0 → L0 < 360 → Mod360_deg_f32 L0 = L0) ∧
    (L0 < 0 → (270 ≤ Mod360_deg_f32 L0 ∧ Mod360_deg_f32 L0 < 360) ∨ Mod360_deg_f32 L0 = 0) ∧
    (L0 ≤ -(1 / 32768) → 270 ≤ Mod360_deg_f32 L0 ∧ Mod360_deg_f32 L0 < 360) := by
  refine ⟨fun a b => Mod360_deg_f32_fix L0 a b, ?_, ?_⟩
  · intro hn
    obtain ⟨⟨b1, b2⟩, c1, c2⟩ := Mod360_deg_f32_of_neg L0 (by linarith) hn
    have hge : 270 ≤ f32add L0 360 := toFloat_ge_of_ge _ _ isF32_270 (by linarith)
    rcases lt_or_eq_of_le b2 with h | h
    · left; rw [c1 h]; exact ⟨hge, h⟩
    · right; exact c2 h
  · intro hn
    obtain ⟨⟨b1, b2⟩, c1, c2⟩ := Mod360_deg_f32_of_neg L0 (by linarith) (by linarith)
    have hge : 270 ≤ f32add L0 360 := toFloat_ge_of_ge _ _ isF32_270 (by linarith)
    have hle : f32add L0 360 ≤ 360 - 1 / 32768 :=
      toFloat_le_of_le _ _ isF32_pred360 (by linarith)
    have hlt : f32add L0 360 < 360 := by linarith
    rw [c1 hlt]; exact ⟨hge, hlt⟩
/-- The direction flags in degrees: one of the two normalised boundaries of the cone,
computed in `float` arithmetic, lies in the closed half turn of the flag. -/
theorem flags_deg_of_direction (A F θ : ℚ) (hAf : IsF32 A) (hFf : IsF32 F)
    (hA : 0 ≤ A ∧ A < 360) (hF : 0 < F ∧ F ≤ 180) (hθ : 0 ≤ θ ∧ θ < 360)
    (hin : InFoVSector A F θ) :
    ((90 < θ ∧ θ < 270) →
      (90 ≤ Mod360_deg_f32 (f32sub A (f32div F 2)) ∧
        Mod360_deg_f32 (f32sub A (f32div F 2)) ≤ 270) ∨
      (90 ≤ Mod360_deg_f32 (f32add A (f32div F 2)) ∧
        Mod360_deg_f32 (f32add A (f32div F 2)) ≤ 270)) ∧
    ((270 < θ ∨ θ < 90) →
      ((270 ≤ Mod360_deg_f32 (f32sub A (f32div F 2)) ∧
          Mod360_deg_f32 (f32sub A (f32div F 2)) ≤ 360) ∨
        (0 ≤ Mod360_deg_f32 (f32sub A (f32div F 2)) ∧
          Mod360_deg_f32 (f32sub A (f32div F 2)) ≤ 90)) ∨
      ((270 ≤ Mod360_deg_f32 (f32add A (f32div F 2)) ∧
          Mod360_deg_f32 (f32add A (f32div F 2)) ≤ 360) ∨
        (0 ≤ Mod360_deg_f32 (f32add A (f32div F 2)) ∧
          Mod360_deg_f32 (f32add A (f32div F 2)) ≤ 90))) ∧
    ((0 < θ ∧ θ < 180) →
      (0 ≤ Mod360_deg_f32 (f32sub A (f32div F 2)) ∧
        Mod360_deg_f32 (f32sub A (f32div F 2)) ≤ 180) ∨
      (0 ≤ Mod360_deg_f32 (f32add A (f32div F 2)) ∧
        Mod360_deg_f32 (f32add A (f32div F 2)) ≤ 180)) ∧
    ((180 < θ ∧ θ ≤ 360 - 1 / 32768) →
      (180 ≤ Mod360_deg_f32 (f32sub A (f32div F 2)) ∧
        Mod360_deg_f32 (f32sub A (f32div F 2)) ≤ 360) ∨
      (180 ≤ Mod360_deg_f32 (f32add A (f32div F 2)) ∧
        Mod360_deg_f32 (f32add A (f32div F 2)) ≤ 360)) := by
  obtain ⟨k, hk1, hk2⟩ := hin
  have hk : k = -1 ∨ k = 0 ∨ k = 1 := by
    have hka : (-2 : ℚ) < (k : ℚ) := by linarith [hA.1, hA.2, hF.2, hθ.1, hθ.2]
    have hkb : (k : ℚ) < 2 := by linarith [hA.1, hA.2, hF.2, hθ.1, hθ.2]
    have hka2 : -2 < k := by exact_mod_cast hka
    have hkb2 : k < 2 := by exact_mod_cast hkb
    omega
  obtain ⟨hr, hl⟩ := fov_reach A F hAf hFf hA.1 hF.1
  have r90 := hr 90 (Or.inl rfl)
  have r180 := hr 180 (Or.inr (Or.inl rfl))
  have r270 := hr 270 (Or.inr (Or.inr (Or.inl rfl)))
  have r360 := hr 360 (Or.inr (Or.inr (Or.inr rfl)))
  have l90 := hl 90 (Or.inl rfl)
  have l180 := hl 180 (Or.inr (Or.inl rfl))
  have l270 := hl 270 (Or.inr (Or.inr (Or.inl rfl)))
  have lneg := hl (-(1 / 32768)) (Or.inr (Or.inr (Or.inr rfl)))
  have H0 : 0 ≤ f32div F 2 := toFloat_nonneg _ (by linarith [hF.1])
  have H90 : f32div F 2 ≤ 90 := toFloat_le_of_le _ _ isF32_90 (by linarith [hF.2])
  have a1 : -90 ≤ f32sub A (f32div F 2) :=
    toFloat_ge_of_ge _ _ (isF32_neg _ isF32_90) (by linarith [hA.1])
  have a2 : f32sub A (f32div F 2) ≤ A := toFloat_le_of_le _ _ hAf (by linarith)
  have a3 : A ≤ f32add A (f32div F 2) := toFloat_ge_of_ge _ _ hAf (by linarith)
  have a4 : f32add A (f32div F 2) ≤ 450 := toFloat_le_of_le _ _ isF32_450 (by linarith [hA.2])
  have m1 : A ≤ 180 → f32add A (f32div F 2) ≤ 270 := fun h =>
    toFloat_le_of_le _ _ isF32_270 (by linarith)
  have m2 : 180 ≤ A → 90 ≤ f32sub A (f32div F 2) := fun h =>
    toFloat_ge_of_ge _ _ isF32_90 (by linarith)
  have m3 : A ≤ 90 → f32add A (f32div F 2) ≤ 180 := fun h =>
    toFloat_le_of_le _ _ isF32_180 (by linarith)
  have m4 : 90 ≤ A → 0 ≤ f32sub A (f32div F 2) := fun h =>
    toFloat_nonneg _ (by linarith)
  have m5 : 270 ≤ A → 180 ≤ f32sub A (f32div F 2) := fun h =>
    toFloat_ge_of_ge _ _ isF32_180 (by linarith)
  have m6 : A < 270 → f32add A (f32div F 2) ≤ 360 - 1 / 32768 := by
    intro h
    have := isF32_lt_grid A 270 8 8847360 hAf (by norm_num) (by norm_num) (by norm_num)
      (by norm_num) h
    norm_num at this
    exact toFloat_le_of_le _ _ isF32_pred360 (by linarith)
  have m10 : A ≤ 270 → f32add A (f32div F 2) ≤ 360 := fun h =>
    toFloat_le_of_le _ _ isF32_360 (by linarith)
  obtain ⟨cl1, cl2, cl3⟩ := fov_left_cases (f32sub A (f32div F 2)) a1
  have cr1 : f32add A (f32div F 2) < 360 →
      Mod360_deg_f32 (f32add A (f32div F 2)) = f32add A (f32div F 2) := fun h =>
    Mod360_deg_f32_fix _ (by linarith [hA.1]) h
  have cr2 : 360 ≤ f32add A (f32div F 2) →
      Mod360_deg_f32 (f32add A (f32div F 2)) = f32add A (f32div F 2) - 360 := fun h =>
    Mod360_deg_f32_of_ge _ (toFloat_idem _) h (by linarith)
  obtain ⟨hA1, hA2⟩ := hA
  obtain ⟨hF1, hF2⟩ := hF
  obtain ⟨hθ1, hθ2⟩ := hθ
  generalize Mod360_deg_f32 (f32sub A (f32div F 2)) = l at *
  generalize Mod360_deg_f32 (f32add A (f32div F 2)) = r at *
  generalize f32sub A (f32div F 2) = L0 at *
  generalize f32add A (f32div F 2) = R0 at *
  generalize f32div F 2 = H at *
  have hkq : (k : ℚ) = -1 ∨ (k : ℚ) = 0 ∨ (k : ℚ) = 1 := by
    rcases hk with rfl | rfl | rfl <;> simp
  refine ⟨?_, ?_, ?_, ?_⟩
  · rintro ⟨t1, t2⟩
    by_cases c1 : A < 90
    · right
      have hk0 : 90 ≤ A + F / 2 := by
        rcases hkq with h | h | h <;> rw [h] at hk1 hk2 <;> linarith
      have e1 := r90 hk0
      have e2 := m3 (le_of_lt c1)
      rw [cr1 (by linarith)]; exact ⟨e1, by linarith⟩
    · by_cases c2 : A ≤ 180
      · right
        have e2 := m1 c2
        rw [cr1 (by linarith)]; exact ⟨by linarith, e2⟩
      · by_cases c3 : A ≤ 270
        · left
          have e1 := m2 (by linarith)
          rw [cl1 (by linarith) (by linarith)]; exact ⟨e1, by linarith⟩
        · left
          have hk0 : A - F / 2 ≤ 270 := by
            rcases hkq with h | h | h <;> rw [h] at hk1 hk2 <;> linarith
          have e1 := l270 hk0
          have e2 := m5 (by linarith)
          rw [cl1 (by linarith) (by linarith)]; exact ⟨by linarith, e1⟩
  · intro t
    by_cases c1 : A ≤ 90
    · left
      by_cases c0 : 0 ≤ L0
      · right; rw [cl1 c0 (by linarith)]; exact ⟨c0, by linarith⟩
      · rcases cl2 (not_le.mp c0) with ⟨h1, h2⟩ | h
        · left; exact ⟨h1, le_of_lt h2⟩
        · right; rw [h]; norm_num
    · by_cases c2 : 270 ≤ A
      · right
        by_cases c3 : R0 < 360
        · left; rw [cr1 c3]; exact ⟨by linarith, le_of_lt c3⟩
        · right; rw [cr2 (not_lt.mp c3)]; constructor <;> linarith
      · have e4 := m4 (by linarith)
        have e10 := m10 (by linarith)
        rcases t with t | t
        · -- θ > 270
          have hk0 : 270 ≤ A + F / 2 := by
            rcases hkq with h | h | h <;> rw [h] at hk1 hk2 <;> linarith
          have e1 := r270 hk0
          right
          by_cases c3 : R0 < 360
          · left; rw [cr1 c3]; exact ⟨e1, le_of_lt c3⟩
          · right; rw [cr2 (not_lt.mp c3)]; constructor <;> linarith
        · -- θ < 90
          rcases hkq with h | h | h <;> rw [h] at hk1 hk2
          · exfalso; linarith
          · left; right
            have e1 := l90 (by linarith)
            rw [cl1 e4 (by linarith)]; exact ⟨e4, e1⟩
          · right; right
            have e1 := r360 (by linarith)
            rw [cr2 e1]; constructor <;> linarith
  · rintro ⟨t1, t2⟩
    by_cases c1 : A ≤ 90
    · right
      have e2 := m3 c1
      rw [cr1 (by linarith)]; exact ⟨by linarith, e2⟩
    · have e4 := m4 (by linarith)
      by_cases c2 : A ≤ 180
      · left
        rw [cl1 e4 (by linarith)]; exact ⟨e4, by linarith⟩
      · rcases hkq with h | h | h <;> rw [h] at hk1 hk2
        · exfalso; linarith
        · left
          have e1 := l180 (by linarith)
          rw [cl1 e4 (by linarith)]; exact ⟨e4, e1⟩
        · right
          have e1 := r360 (by linarith)
          rw [cr2 e1]; constructor <;> linarith
  · rintro ⟨t1, t2⟩
    by_cases c1 : 270 ≤ A
    · left
      have e1 := m5 c1
      rw [cl1 (by linarith) (by linarith)]; exact ⟨e1, by linarith⟩
    · have e6 := m6 (not_le.mp c1)
      by_cases c2 : 180 ≤ A
      · right
        rw [cr1 (by linarith)]; exact ⟨by linarith, by linarith⟩
      · rcases hkq with h | h | h <;> rw [h] at hk1 hk2
        · left
          have e1 := lneg (by linarith)
          obtain ⟨h1, h2⟩ := cl3 e1
          exact ⟨by linarith, le_of_lt h2⟩
        · right
          have e1 := r180 (by linarith)
          rw [cr1 (by linarith)]; exact ⟨e1, by linarith⟩
        · exfalso; linarith
theorem flags_f32_of_direction (A F θ : ℚ) (hAf : IsF32 A) (hFf : IsF32 F)
    (hA : 0 ≤ A ∧ A < 360) (hF : 0 < F ∧ F ≤ 180) (hθ : 0 ≤ θ ∧ θ < 360)
    (hin : InFoVSector A F θ) :
    ((90 < θ ∧ θ < 270) → FaceVisible_bLt A F = true) ∧
    ((270 < θ ∨ θ < 90) → FaceVisible_bRt A F = true) ∧
    ((0 < θ ∧ θ < 180) → FaceVisible_bDn A F = true) ∧
    ((180 < θ ∧ θ ≤ 360 - 1 / 32768) → FaceVisible_bUp A F = true) := by
  obtain ⟨d1, d2, d3, d4⟩ := flags_deg_of_direction A F θ hAf hFf hA hF hθ hin
  refine ⟨?_, ?_, ?_, ?_⟩
  · intro t
    unfold FaceVisible_bLt FaceVisible_fFOVleft_rad FaceVisible_fFOVrght_rad
    rw [Bool.or_eq_true]
    rcases d1 t with ⟨a, b⟩ | ⟨a, b⟩
    · left; exact (flag_of_deg _).1 a b
    · right; exact (flag_of_deg _).1 a b
  · intro t
    unfold FaceVisible_bRt FaceVisible_fFOVleft_rad FaceVisible_fFOVrght_rad
    rw [Bool.or_eq_true]
    rcases d2 t with h | h
    · left; exact (flag_of_deg _).2.1 h
    · right; exact (flag_of_deg _).2.1 h
  · intro t
    unfold FaceVisible_bDn FaceVisible_fFOVleft_rad FaceVisible_fFOVrght_rad
    rw [Bool.or_eq_true]
    rcases d3 t with ⟨a, b⟩ | ⟨a, b⟩
    · left; exact (flag_of_deg _).2.2.1 a b
    · right; exact (flag_of_deg _).2.2.1 a b
  · intro t
    unfold FaceVisible_bUp FaceVisible_fFOVleft_rad FaceVisible_fFOVrght_rad
    rw [Bool.or_eq_true]
    rcases d4 t with ⟨a, b⟩ | ⟨a, b⟩
    · left; exact (flag_of_deg _).2.2.2 a b
    · right; exact (flag_of_deg _).2.2.2 a b

theorem FaceVisible_f32_flags (sMap : List Char) (nMapX nMapY : Int)
    (fPlayerX fPlayerY fPlayerA_deg fPlayerFoV_deg : ℚ) (nTileX nTileY nFace : Int) :
    FaceVisible_f32 sMap nMapX nMapY fPlayerX fPlayerY fPlayerA_deg fPlayerFoV_deg
        nTileX nTileY nFace =
      if nFace = EAST then
        decide (nTileX < nMapX - 1) && decide (mapAt sMap (nTileY * nMapX + (nTileX + 1)) ≠ '#')
          && FaceVisible_bLt fPlayerA_deg fPlayerFoV_deg
          && decide (fPlayerX > intToFloat (nTileX + 1))
      else if nFace = WEST then
        decide (nTileX > 0) && decide (mapAt sMap (nTileY * nMapX + (nTileX - 1)) ≠ '#')
          && FaceVisible_bRt fPlayerA_deg fPlayerFoV_deg
          && decide (fPlayerX < intToFloat nTileX)
      else if nFace = SOUTH then
        decide (nTileY < nMapY - 1) && decide (mapAt sMap ((nTileY + 1) * nMapX + nTileX) ≠ '#')
          && FaceVisible_bUp fPlayerA_deg fPlayerFoV_deg
          && decide (fPlayerY > intToFloat (nTileY + 1))
      else if nFace = NORTH then
        decide (nTileY > 0) && decide (mapAt sMap ((nTileY - 1) * nMapX + nTileX) ≠ '#')
          && FaceVisible_bDn fPlayerA_deg fPlayerFoV_deg
          && decide (fPlayerY < intToFloat nTileY)
      else false := rfl

/-- C26 (amended): in `float` arithmetic, for every `float` facing angle in `[0, 360)` and
every `float` field of view in `(0, 180]` degrees, each of the direction flags `bLt`,
`bRt` and `bDn` of `FaceVisible` is true whenever the FoV sector
`[facing - FoV / 2, facing + FoV / 2]` (mod 360) contains a direction `θ` strictly
inside the corresponding half-plane (`bLt`: `90 < θ < 270`, `bRt`: `θ > 270` or
`θ < 90`, `bDn`: `0 < θ < 180`), and the flag `bUp` is true whenever the sector contains
a direction `θ` with `180 < θ <= 360 - 2^(-15)`; the value of `FaceVisible` for the face
that uses the flag is then the conjunction of its other three rules. -/
theorem C26_direction_flags_float (sMap : List Char) (nMapX nMapY : Int)
    (fPlayerX fPlayerY : ℚ) (nTileX nTileY : Int) (A F θ : ℚ) (hAf : IsF32 A)
    (hFf : IsF32 F) (hA : 0 ≤ A ∧ A < 360) (hF : 0 < F ∧ F ≤ 180) (hθ : 0 ≤ θ ∧ θ < 360)
    (hin : InFoVSector A F θ) :
    ((90 < θ ∧ θ < 270) → FaceVisible_bLt A F = true ∧
      FaceVisible_f32 sMap nMapX nMapY fPlayerX fPlayerY A F nTileX nTileY EAST =
        (decide (nTileX < nMapX - 1) && decide (mapAt sMap (nTileY * nMapX + (nTileX + 1)) ≠ '#')
          && decide (fPlayerX > intToFloat (nTileX + 1)))) ∧
    ((270 < θ ∨ θ < 90) → FaceVisible_bRt A F = true ∧
      FaceVisible_f32 sMap nMapX nMapY fPlayerX fPlayerY A F nTileX nTileY WEST =
        (decide (nTileX > 0) && decide (mapAt sMap (nTileY * nMapX + (nTileX - 1)) ≠ '#')
          && decide (fPlayerX < intToFloat nTileX))) ∧
    ((0 < θ ∧ θ < 180) → FaceVisible_bDn A F = true ∧
      FaceVisible_f32 sMap nMapX nMapY fPlayerX fPlayerY A F nTileX nTileY NORTH =
        (decide (nTileY > 0) && decide (mapAt sMap ((nTileY - 1) * nMapX + nTileX) ≠ '#')
          && decide (fPlayerY < intToFloat nTileY))) ∧
    ((180 < θ ∧ θ ≤ 360 - 1 / 32768) → FaceVisible_bUp A F = true ∧
      FaceVisible_f32 sMap nMapX nMapY fPlayerX fPlayerY A F nTileX nTileY SOUTH =
        (decide (nTileY < nMapY - 1) && decide (mapAt sMap ((nTileY + 1) * nMapX + nTileX) ≠ '#')
          && decide (fPlayerY > intToFloat (nTileY + 1)))) := by
  obtain ⟨f1, f2, f3, f4⟩ := flags_f32_of_direction A F θ hAf hFf hA hF hθ hin
  refine ⟨?_, ?_, ?_, ?_⟩
  · intro h
    refine ⟨f1 h, ?_⟩
    rw [FaceVisible_f32_flags, if_pos rfl, f1 h, Bool.and_true]
  · intro h
    refine ⟨f2 h, ?_⟩
    rw [FaceVisible_f32_flags, if_neg (by decide), if_pos rfl, f2 h, Bool.and_true]
  · intro h
    refine ⟨f3 h, ?_⟩
    rw [FaceVisible_f32_flags, if_neg (by decide), if_neg (by decide), if_neg (by decide),
      if_pos rfl, f3 h, Bool.and_true]
  · intro h
    refine ⟨f4 h, ?_⟩
    rw [FaceVisible_f32_flags, if_neg (by decide), if_neg (by decide), if_pos rfl, f4 h,
      Bool.and_true]

theorem isF32_10 : IsF32 10 :=
  isF32_of_grid_pos 10 3 10485760 (by norm_num) (by norm_num) (by norm_num) (by norm_num)

/-- C26 witness: facing 10 degrees with a 60 degree field of view, a cone that
straddles the seam, and the direction of 350 degrees in it. -/
theorem C26_direction_flags_float_witness :
    (IsF32 10 ∧ IsF32 60 ∧ ((0 : ℚ) ≤ 10 ∧ (10 : ℚ) < 360) ∧ ((0 : ℚ) < 60 ∧ (60 : ℚ) ≤ 180) ∧
      ((0 : ℚ) ≤ 350 ∧ (350 : ℚ) < 360) ∧ InFoVSector 10 60 350) ∧
    (((90 < (350 : ℚ) ∧ (350 : ℚ) < 270) → FaceVisible_bLt 10 60 = true ∧
      FaceVisible_f32 sMapCreate 16 16 (7 / 2) (9 / 2) 10 60 4 4 EAST =
        (decide ((4 : Int) < 16 - 1) && decide (mapAt sMapCreate (4 * 16 + (4 + 1)) ≠ '#')
          && decide ((7 / 2 : ℚ) > intToFloat (4 + 1)))) ∧
    ((270 < (350 : ℚ) ∨ (350 : ℚ) < 90) → FaceVisible_bRt 10 60 = true ∧
      FaceVisible_f32 sMapCreate 16 16 (7 / 2) (9 / 2) 10 60 4 4 WEST =
        (decide ((4 : Int) > 0) && decide (mapAt sMapCreate (4 * 16 + (4 - 1)) ≠ '#')
          && decide ((7 / 2 : ℚ) < intToFloat 4))) ∧
    ((0 < (350 : ℚ) ∧ (350 : ℚ) < 180) → FaceVisible_bDn 10 60 = true ∧
      FaceVisible_f32 sMapCreate 16 16 (7 / 2) (9 / 2) 10 60 4 4 NORTH =
        (decide ((4 : Int) > 0) && decide (mapAt sMapCreate ((4 - 1) * 16 + 4) ≠ '#')
          && decide ((9 / 2 : ℚ) < intToFloat 4))) ∧
    ((180 < (350 : ℚ) ∧ (350 : ℚ) ≤ 360 - 1 / 32768) → FaceVisible_bUp 10 60 = true ∧
      FaceVisible_f32 sMapCreate 16 16 (7 / 2) (9 / 2) 10 60 4 4 SOUTH =
        (decide ((4 : Int) < 16 - 1) && decide (mapAt sMapCreate ((4 + 1) * 16 + 4) ≠ '#')
          && decide ((9 / 2 : ℚ) > intToFloat (4 + 1))))) :=
  ⟨⟨isF32_10, isF32_60, by norm_num, by norm_num, by norm_num,
      ⟨-1, by norm_num, by norm_num⟩⟩,
    C26_direction_flags_float sMapCreate 16 16 (7 / 2) (9 / 2) 4 4 10 60 350 isF32_10 isF32_60
      (by norm_num) (by norm_num) (by norm_num) ⟨-1, by norm_num, by norm_num⟩⟩

/-- The boundaries of the cone for the facing angle `30 - 2^(-19)` and the field of
view 60: the left boundary `-2^(-19)` is normalised to `0`, the right one rounds to
`60`. -/
theorem fov_ends_near_30 :
    Mod360_deg_f32 (f32sub (15728639 / 524288) (f32div 60 2)) = 0 ∧
    Mod360_deg_f32 (f32add (15728639 / 524288) (f32div 60 2)) = 60 := by
  have hH : f32div 60 2 = 30 := by
    unfold f32div
    have : (60 : ℚ) / 2 = 30 := by norm_num
    rw [this]; exact isF32_30
  have hL : f32sub (15728639 / 524288) 30 = -(1 / 524288) := by
    unfold f32sub
    have : (15728639 / 524288 : ℚ) - 30 = -(1 / 524288) := by norm_num
    rw [this]
    exact isF32_neg _ (isF32_of_grid_pos (1 / 524288) (-19) 8388608 (by norm_num)
      (by norm_num) (by norm_num) (by norm_num))
  have hL2 : f32add (-(1 / 524288)) 360 = 360 := by
    unfold f32add
    have := toFloat_eval (-(1 / 524288) + 360) 8 11796480
      (inBinade_of _ 8 (by norm_num) (by norm_num) (by norm_num)) (by norm_num) (by norm_num)
    rw [this]; norm_num
  have hR : f32add (15728639 / 524288) 30 = 60 := by
    unfold f32add
    have := toFloat_tie_odd (15728639 / 524288 + 30) 5 15728639
      (inBinade_of _ 5 (by norm_num) (by norm_num) (by norm_num)) (by decide) (by norm_num)
    rw [this]; norm_num
  rw [hH, hL, hR]
  exact ⟨(Mod360_deg_f32_of_neg _ (by norm_num) (by norm_num)).2.2 hL2,
    Mod360_deg_f32_fix 60 (by norm_num) (by norm_num)⟩

/-- C26 counterexample: for the `float` facing angle `30 - 2^(-19)` (29.9999981) and the
field of view 60 the sector contains the direction `θ = 360 - 2^(-19)`, which lies
strictly inside `180 < θ < 360`, and the flag `bUp` is false, so that `FaceVisible`
hides every SOUTH face. -/
theorem C26_direction_flags_float_counterexample :
    (IsF32 (15728639 / 524288) ∧ IsF32 60 ∧
      ((0 : ℚ) ≤ 15728639 / 524288 ∧ (15728639 / 524288 : ℚ) < 360) ∧
      ((0 : ℚ) < 60 ∧ (60 : ℚ) ≤ 180) ∧
      InFoVSector (15728639 / 524288) 60 (360 - 1 / 524288) ∧
      ((180 : ℚ) < 360 - 1 / 524288 ∧ (360 - 1 / 524288 : ℚ) < 360)) ∧
    FaceVisible_bUp (15728639 / 524288) 60 = false ∧
    ∀ (sMap : List Char) (nMapX nMapY : Int) (fPlayerX fPlayerY : ℚ) (nTileX nTileY : Int),
      FaceVisible_f32 sMap nMapX nMapY fPlayerX fPlayerY (15728639 / 524288) 60
        nTileX nTileY SOUTH = false := by
  have hup : FaceVisible_bUp (15728639 / 524288) 60 = false := by
    obtain ⟨e1, e2⟩ := fov_ends_near_30
    obtain ⟨q0, q1, q2, q3, q4⟩ := Deg2Rad_f32_quarters
    obtain ⟨v0, v1, v2, v3, v4⟩ := quarters_values
    have h60 : Deg2Rad_f32 60 ≤ 13176795 / 8388608 := by
      have := Deg2Rad_f32_mono 60 90 (by norm_num)
      rw [q1, v1] at this; exact this
    unfold FaceVisible_bUp FaceVisible_fFOVleft_rad FaceVisible_fFOVrght_rad
    rw [e1, e2, Deg2Rad_f32_zero]
    unfold AngleInSector_f32 InBetweenF
    rw [v2, v4, twoPI_f32_eq]
    have hc : ¬ ((13176795 / 4194304 : ℚ) > 13176795 / 2097152) := by norm_num
    rw [if_neg hc, if_neg hc]
    have n1 : ¬ ((13176795 / 4194304 : ℚ) ≤ 0) := by norm_num
    have n2 : ¬ ((13176795 / 4194304 : ℚ) ≤ Deg2Rad_f32 60) := by
      intro h
      have : (13176795 / 4194304 : ℚ) ≤ 13176795 / 8388608 := le_trans h h60
      norm_num at this
    simp [n1, n2]
  refine ⟨⟨?_, isF32_60, by norm_num, by norm_num, ⟨-1, by norm_num, by norm_num⟩,
    by norm_num⟩, hup, ?_⟩
  · exact isF32_of_grid_pos _ 4 15728639 (by norm_num) (by norm_num) (by norm_num)
      (by norm_num)
  · intro sMap nMapX nMapY fPlayerX fPlayerY nTileX nTileY
    rw [FaceVisible_f32_flags, if_neg (by decide), if_neg (by decide), if_pos rfl, hup]
    simp

/-! ### `GetColumnProjection` in `float` arithmetic at the half turn -/

/-- An `int` of magnitude below `2^24` is a `float`. -/
theorem isF32_int (n : Int) (h1 : -16777216 < n) (h2 : n < 16777216) : IsF32 (n : ℚ) := by
  refine isF32_of_multiple (n : ℚ) 0 n (by norm_num) (by simp) ?_
  have e : (2 : ℚ) ^ ((0 : Int) + 24) = 16777216 := by norm_num
  rw [e, abs_lt]
  constructor
  · have : ((-16777216 : Int) : ℚ) < (n : ℚ) := by exact_mod_cast h1
    push_cast at this; exact this
  · have : (n : ℚ) < ((16777216 : Int) : ℚ) := by exact_mod_cast h2
    push_cast at this; exact this

theorem floatToInt_intCast (n : Int) : floatToInt (n : ℚ) = n := by
  unfold floatToInt
  split
  · exact Int.floor_intCast n
  · exact Int.ceil_intCast n

/-- The integer x coordinate of a wire frame point moved by `d` (one of 1, -1 and 0),
for a column `n` of magnitude below `2^24 - 1`. -/
theorem wire_coord (n : Int) (h1 : -16777215 < n) (h2 : n < 16777215) :
    floatToInt (f32add (intToFloat n) 1) = n + 1 ∧
    floatToInt (f32add (intToFloat n) (-1)) = n - 1 ∧
    floatToInt (f32add (intToFloat n) 0) = n := by
  rw [intToFloat_small n (by omega) (by omega)]
  unfold f32add
  refine ⟨?_, ?_, ?_⟩
  · have e : (n : ℚ) + 1 = ((n + 1 : Int) : ℚ) := by push_cast; ring
    rw [e, isF32_int (n + 1) (by omega) (by omega), floatToInt_intCast]
  · have e : (n : ℚ) + (-1) = ((n - 1 : Int) : ℚ) := by push_cast; ring
    rw [e, isF32_int (n - 1) (by omega) (by omega), floatToInt_intCast]
  · rw [add_zero, isF32_int n (by omega) (by omega), floatToInt_intCast]

theorem lineColumns_self (x : Int) : lineColumns x x = [x] := by
  unfold lineColumns
  simp [List.range_succ]

/-- With the wire frame switched off `RenderWallQuad_mono` paints the columns of the lerp
loop only. -/
theorem RenderWallQuad_mono_painted_off (W leftX rghtX nLeftClip nRghtClip : Int) :
    RenderWallQuad_mono_painted false W leftX rghtX nLeftClip nRghtClip =
      RenderWallQuad_mono_columns W leftX rghtX nLeftClip nRghtClip := by
  unfold RenderWallQuad_mono_painted RenderWallQuad_mono_wire
  simp

/-- The wire frame of a one-column range `[n, n]` on the screen: the left line at
`n + 1`, the right line at `n - 1`, the top and the floor side at `n`. -/
theorem RenderWallQuad_mono_wire_single (W leftX rghtX nLeftClip nRghtClip n : Int)
    (h1 : max 0 (max leftX nLeftClip) = n) (h2 : min (W - 1) (min rghtX nRghtClip) = n)
    (h3 : n < 16777215) :
    RenderWallQuad_mono_wire true W leftX rghtX nLeftClip nRghtClip = [n + 1, n - 1, n, n] := by
  have h0 : 0 ≤ n := by rw [← h1]; exact le_max_left _ _
  obtain ⟨c1, c2, c3⟩ := wire_coord n (by omega) h3
  unfold RenderWallQuad_mono_wire RenderWallQuad_mono_wf
  simp only [h1, h2, le_refl, if_true]
  rw [c1, c2, c3, lineColumns_self, lineColumns_self, lineColumns_self]
  rfl

/-- C24 (the code at the failing input): the columns at which the lerp loop of
`RenderWallQuad_mono` paints are exactly the integers `x` with
`max(0, leftX, nLeftClip) <= x <= min(ScreenWidth - 1, rghtX, nRghtClip)`, and with the
wire frame switched off every painted column lies in `[nLeftClip, nRghtClip]` and on
the screen.  With the wire frame switched on, the initial value of `bWireFrameMode`,
a face with the columns 0 and 100 and the clip range `[10, 10]` on a screen of 400
columns is painted at column 10 by the lerp loop and then at the columns 11 and 9 by
the left and the right line of the wire frame, outside `[nLeftClip, nRghtClip]`. -/
theorem C24_wire_frame_outside_clip (W leftX rghtX nLeftClip nRghtClip : Int) :
    (∀ x : Int, x ∈ RenderWallQuad_mono_columns W leftX rghtX nLeftClip nRghtClip ↔
      max 0 (max leftX nLeftClip) ≤ x ∧ x ≤ min (W - 1) (min rghtX nRghtClip)) ∧
    (∀ x ∈ RenderWallQuad_mono_painted false W leftX rghtX nLeftClip nRghtClip,
      (nLeftClip ≤ x ∧ x ≤ nRghtClip) ∧ (0 ≤ x ∧ x ≤ W - 1)) ∧
    (bWireFrameMode_init = true ∧
      RenderWallQuad_mono_columns 400 0 100 10 10 = [10] ∧
      RenderWallQuad_mono_painted bWireFrameMode_init 400 0 100 10 10 = [10, 11, 9, 10, 10] ∧
      (11 : Int) ∈ RenderWallQuad_mono_painted bWireFrameMode_init 400 0 100 10 10 ∧
      ¬ ((10 : Int) ≤ 11 ∧ (11 : Int) ≤ 10) ∧
      (9 : Int) ∈ RenderWallQuad_mono_painted bWireFrameMode_init 400 0 100 10 10 ∧
      ¬ ((10 : Int) ≤ 9 ∧ (9 : Int) ≤ 10)) := by
  obtain ⟨s1, s2, _, _⟩ := RenderWallQuad_mono_columns_spec W leftX rghtX nLeftClip nRghtClip
  have hc : RenderWallQuad_mono_columns 400 0 100 10 10 = [10] := by
    rw [RenderWallQuad_mono_columns_eq]; decide
  have hp : RenderWallQuad_mono_painted bWireFrameMode_init 400 0 100 10 10 =
      [10, 11, 9, 10, 10] := by
    unfold RenderWallQuad_mono_painted bWireFrameMode_init
    rw [hc, RenderWallQuad_mono_wire_single 400 0 100 10 10 10 (by decide) (by decide)
      (by decide)]
    rfl
  refine ⟨s1, ?_, rfl, hc, hp, ?_, by decide, ?_, by decide⟩
  · intro x hx
    rw [RenderWallQuad_mono_painted_off] at hx
    obtain ⟨a, b, _⟩ := s2 x hx
    exact ⟨a, b⟩
  · rw [hp]; decide
  · rw [hp]; decide

/-- The columns painted by the face loop with the wire frame switched off, entered with
a well-formed list and faces with `left <= rght < INT_MAX`: they were free in the list
at entry, no column is painted by two faces, and no face paints a column twice. -/
theorem paintLoopFaces_off (e : OcclusionRec) (W : Int) : ∀ (faces : List (Int × Int))
    (lst : OccListType), WellFormed lst →
    (∀ f ∈ faces, ProperRec ⟨f.1, f.2⟩) →
    (∀ a ∈ paintLoopFaces false e W lst faces, ∀ x ∈ a, ¬ Covered lst x) ∧
    (paintLoopFaces false e W lst faces).Pairwise (fun a b => ∀ x : Int, ¬ (x ∈ a ∧ x ∈ b)) ∧
    (∀ a ∈ paintLoopFaces false e W lst faces, a.Nodup) := by
  intro faces
  induction faces with
  | nil =>
    intro lst _ _
    simp [paintLoopFaces]
  | cons face faces ih =>
    intro lst hwf hf
    have hrec : ProperRec ⟨face.1, face.2⟩ := hf face (by simp)
    have hwf2 := InsertOccList_wellFormed e lst ⟨face.1, face.2⟩ 0 0 hwf hrec
    obtain ⟨ih1, ih2, ih3⟩ := ih _ hwf2 (fun f hf2 => hf f (List.mem_cons_of_mem _ hf2))
    have hfree : ∀ a ∈ paintLoopFaces false e W
        (InsertOccList e lst ⟨face.1, face.2⟩ 0 0).lst faces, ∀ x ∈ a, ¬ Covered lst x := by
      intro a ha x hx hcov
      exact ih1 a ha x hx (InsertOccList_covered_mono e lst ⟨face.1, face.2⟩ 0 0 x hcov)
    rw [paintLoopFaces]
    by_cases hsize : SizeOccList lst > 1
    · rw [if_pos hsize]
      by_cases hret : (InsertOccList e lst ⟨face.1, face.2⟩ 0 0).ret = true
      · rw [if_pos hret, RenderWallQuad_mono_painted_off]
        obtain ⟨_, s2, s3, _⟩ := RenderWallQuad_mono_columns_spec W face.1 face.2
          (InsertOccList e lst ⟨face.1, face.2⟩ 0 0).nClipLeft
          (InsertOccList e lst ⟨face.1, face.2⟩ 0 0).nClipRght
        have hclip : ∀ x ∈ RenderWallQuad_mono_columns W face.1 face.2
            (InsertOccList e lst ⟨face.1, face.2⟩ 0 0).nClipLeft
            (InsertOccList e lst ⟨face.1, face.2⟩ 0 0).nClipRght,
            ¬ Covered lst x ∧ Covered (InsertOccList e lst ⟨face.1, face.2⟩ 0 0).lst x := by
          intro x hx
          obtain ⟨⟨a, b⟩, _⟩ := s2 x hx
          exact InsertOccList_clip e lst ⟨face.1, face.2⟩ 0 0 hwf hrec hret x a b
        simp only [List.singleton_append]
        refine ⟨?_, ?_, ?_⟩
        · intro a ha x hx
          rcases List.mem_cons.mp ha with h | h
          · rw [h] at hx; exact (hclip x hx).1
          · exact hfree a h x hx
        · refine List.pairwise_cons.mpr ⟨?_, ih2⟩
          intro a ha x hx
          exact ih1 a ha x hx.2 (hclip x hx.1).2
        · intro a ha
          rcases List.mem_cons.mp ha with h | h
          · rw [h]; exact s3
          · exact ih3 a h
      · rw [if_neg hret]
        simp only [List.nil_append]
        exact ⟨hfree, ih2, ih3⟩
    · rw [if_neg hsize]
      simp

/-- C2 (amended): for every run of `InsertOccList` calls on a freshly initialised list
(`1 <= W`) whose records satisfy `left <= rght < INT_MAX`, the clip ranges
`[nClipLeft, nClipRght]` of the calls that return `true` are pairwise disjoint: no
screen column lies in the clip range of two accepted records; so in a frame painted
in monochrome mode with the wire frame switched off no column is painted by two faces,
and no face paints a column twice. -/
theorem C2_no_column_twice (e : OcclusionRec) (W : Int) (faces : List (Int × Int))
    (hW1 : 1 ≤ W) (hW2 : W ≤ INT_MAX) (hf : ∀ f ∈ faces, ProperRec ⟨f.1, f.2⟩) :
    ClipsDisjoint
      (insertAll e (InitOccList W) (faces.map (fun f => (⟨f.1, f.2⟩ : OcclusionRec)))).2 ∧
    (paintLoopFaces false e W (InitOccList W) faces).Pairwise
      (fun a b => ∀ x : Int, ¬ (x ∈ a ∧ x ∈ b)) ∧
    (∀ a ∈ paintLoopFaces false e W (InitOccList W) faces, a.Nodup) := by
  have hwf := InitOccList_wellFormed W hW1 hW2
  refine ⟨?_, (paintLoopFaces_off e W faces _ hwf hf).2⟩
  refine (insertAll_clips e _ (InitOccList W) hwf ?_).2
  intro r hr
  obtain ⟨f, hf1, rfl⟩ := List.mem_map.mp hr
  exact hf f hf1

/-- C2 witness: the faces `[0,100]`, `[50,150]`, `[200,300]` on a screen of 400
columns. -/
theorem C2_no_column_twice_witness :
    ((1 : Int) ≤ 400 ∧ (400 : Int) ≤ INT_MAX ∧
      ∀ f ∈ [((0 : Int), (100 : Int)), (50, 150), (200, 300)], ProperRec ⟨f.1, f.2⟩) ∧
    (ClipsDisjoint
      (insertAll ⟨0, 0⟩ (InitOccList 400)
        ([((0 : Int), (100 : Int)), (50, 150), (200, 300)].map
          (fun f => (⟨f.1, f.2⟩ : OcclusionRec)))).2 ∧
    (paintLoopFaces false ⟨0, 0⟩ 400 (InitOccList 400)
        [((0 : Int), (100 : Int)), (50, 150), (200, 300)]).Pairwise
      (fun a b => ∀ x : Int, ¬ (x ∈ a ∧ x ∈ b)) ∧
    (∀ a ∈ paintLoopFaces false ⟨0, 0⟩ 400 (InitOccList 400)
        [((0 : Int), (100 : Int)), (50, 150), (200, 300)], a.Nodup)) :=
  ⟨⟨by decide, by decide, by decide⟩,
   C2_no_column_twice ⟨0, 0⟩ 400 [(0, 100), (50, 150), (200, 300)]
     (by decide) (by decide) (by decide)⟩
/-- C2 counterexample: on a screen of 400 columns, with the wire frame switched off, the
faces `[10,3]`, `[5,20]`, `[4,8]` (the first with `left > rght`) have the second and the
third call accepted with the clip ranges `[5,20]` and `[4,8]`, and the columns 5 to 8
are painted by both faces.  With the wire frame switched on, the initial value of
`bWireFrameMode`, the faces `[0,10]`, `[5,11]`, both with `left <= rght < INT_MAX`, are
accepted with the disjoint clip ranges `[0,10]` and `[11,11]`, and column 10 is painted
by the first face and again by the right line of the wire frame of the second. -/
theorem C2_column_twice_counterexample :
    ((insertAll ⟨0, 0⟩ (InitOccList 400) [⟨10, 3⟩, ⟨5, 20⟩, ⟨4, 8⟩]).2 = [(5, 20), (4, 8)] ∧
      ¬ ClipsDisjoint (insertAll ⟨0, 0⟩ (InitOccList 400) [⟨10, 3⟩, ⟨5, 20⟩, ⟨4, 8⟩]).2 ∧
      paintLoopFaces false ⟨0, 0⟩ 400 (InitOccList 400) [(10, 3), (5, 20), (4, 8)] =
        [[5, 6, 7, 8, 9, 10, 11, 12, 13, 14, 15, 16, 17, 18, 19, 20], [4, 5, 6, 7, 8]] ∧
      ¬ (paintLoopFaces false ⟨0, 0⟩ 400 (InitOccList 400)
          [(10, 3), (5, 20), (4, 8)]).Pairwise (fun a b => ∀ x : Int, ¬ (x ∈ a ∧ x ∈ b))) ∧
    ((∀ f ∈ [((0 : Int), (10 : Int)), (5, 11)], ProperRec ⟨f.1, f.2⟩) ∧
      bWireFrameMode_init = true ∧
      (insertAll ⟨0, 0⟩ (InitOccList 400) [⟨0, 10⟩, ⟨5, 11⟩]).2 = [(0, 10), (11, 11)] ∧
      paintLoopFaces bWireFrameMode_init ⟨0, 0⟩ 400 (InitOccList 400) [(0, 10), (5, 11)] =
        [RenderWallQuad_mono_painted true 400 0 10 0 10,
          RenderWallQuad_mono_painted true 400 5 11 11 11] ∧
      (10 : Int) ∈ RenderWallQuad_mono_painted true 400 0 10 0 10 ∧
      RenderWallQuad_mono_painted true 400 5 11 11 11 = [11, 12, 10, 11, 11] ∧
      ¬ (paintLoopFaces bWireFrameMode_init ⟨0, 0⟩ 400 (InitOccList 400)
          [(0, 10), (5, 11)]).Pairwise (fun a b => ∀ x : Int, ¬ (x ∈ a ∧ x ∈ b))) := by
  have h1 : (insertAll ⟨0, 0⟩ (InitOccList 400) [⟨10, 3⟩, ⟨5, 20⟩, ⟨4, 8⟩]).2 =
      [(5, 20), (4, 8)] := by rfl
  have h2 : paintLoopFaces false ⟨0, 0⟩ 400 (InitOccList 400) [(10, 3), (5, 20), (4, 8)] =
      [[5, 6, 7, 8, 9, 10, 11, 12, 13, 14, 15, 16, 17, 18, 19, 20], [4, 5, 6, 7, 8]] := by
    decide
  have h3 : (insertAll ⟨0, 0⟩ (InitOccList 400) [⟨0, 10⟩, ⟨5, 11⟩]).2 =
      [(0, 10), (11, 11)] := by rfl
  have hA : InsertOccList ⟨0, 0⟩ (InitOccList 400) ⟨0, 10⟩ 0 0 =
      ⟨true, [⟨INT_MIN, 10⟩, ⟨400, INT_MAX⟩], 0, 10⟩ := by decide
  have hB : InsertOccList ⟨0, 0⟩ [⟨INT_MIN, 10⟩, ⟨400, INT_MAX⟩] ⟨5, 11⟩ 0 0 =
      ⟨true, [⟨INT_MIN, 11⟩, ⟨400, INT_MAX⟩], 11, 11⟩ := by decide
  have h4 : paintLoopFaces bWireFrameMode_init ⟨0, 0⟩ 400 (InitOccList 400)
      [(0, 10), (5, 11)] =
      [RenderWallQuad_mono_painted true 400 0 10 0 10,
        RenderWallQuad_mono_painted true 400 5 11 11 11] := by
    unfold bWireFrameMode_init
    rw [paintLoopFaces, if_pos (by decide), hA]
    simp only [if_true]
    rw [paintLoopFaces, if_pos (by decide), hB]
    simp only [if_true]
    rw [paintLoopFaces]
    rfl
  have h5 : (10 : Int) ∈ RenderWallQuad_mono_painted true 400 0 10 0 10 := by
    unfold RenderWallQuad_mono_painted
    refine List.mem_append_left _ ?_
    rw [(RenderWallQuad_mono_columns_spec 400 0 10 0 10).1]
    decide
  have h6 : RenderWallQuad_mono_painted true 400 5 11 11 11 = [11, 12, 10, 11, 11] := by
    have hc : RenderWallQuad_mono_columns 400 5 11 11 11 = [11] := by
      rw [RenderWallQuad_mono_columns_eq]; decide
    unfold RenderWallQuad_mono_painted
    rw [hc, RenderWallQuad_mono_wire_single 400 5 11 11 11 11 (by decide) (by decide)
      (by decide)]
    rfl
  refine ⟨⟨h1, ?_, h2, ?_⟩, ⟨by decide, rfl, h3, h4, h5, h6, ?_⟩⟩
  · rw [h1]
    intro h
    unfold ClipsDisjoint at h
    exact (List.pairwise_cons.mp h).1 (4, 8) (by simp) 5 (by decide)
  · rw [h2]
    intro h
    exact (List.pairwise_cons.mp h).1 [4, 5, 6, 7, 8] (by simp) 5 (by decide)
  · rw [h4]
    intro h
    refine (List.pairwise_cons.mp h).1 (RenderWallQuad_mono_painted true 400 5 11 11 11)
      (by simp) 10 ⟨h5, ?_⟩
    rw [h6]; decide

end AlternativeRayCaster
